import Mathlib

/-!
# A* navigation on a fixed grid: embedding of `automotive_software_engineering.cpp`

The C++ program searches a `MAP_SIZE x MAP_SIZE` grid of `int` cells with an
A* search (`find_path`) whose frontier is a `std::priority_queue` ordered by
`f_cost`, and on success writes step ordinals along the predecessor chain.

Modelling decisions:

* `int` values are mathematical integers in `find_path` and the definitions
  it uses.  With the goal on the grid (the contract of `find_path`, which
  `main` enforces before the call) every coordinate the program computes lies
  in `[-1, MAP_SIZE]` and every cost in `[0, 4 * MAP_SIZE ^ 2 + 2 * MAP_SIZE]`,
  so no `int` operation overflows.  For a goal outside the grid the costs
  can overflow; `find_path_int` is the same program with every operation on
  32-bit `int`, wrapping on overflow, and `find_path_int_eq` proves that the
  two are equal when the goal is on the grid.
* `vector<vector<T>>` is `List (List T)`; an index outside the vector is
  undefined behaviour in C++ and is the result `none` here.
* A `Node*` points to a node that is never modified after construction, so a
  pointer is modelled by the node value it points to; `nullptr` is the
  constructor `Node.root`.
* The order in which `std::priority_queue` returns nodes of equal `f_cost`
  is fixed by the library's heap, not by the program.  The frontier is a list
  in insertion order and a `Policy` selects which of the minimal nodes is on
  top; every theorem holds for every policy.  No generality is lost by
  letting the policy see only the queue contents: a node value carries its
  whole parent chain and every cell is expanded at most once, so a popped
  node value is never pushed again and the queue contents never repeat
  during one call.
* The `while` loop is run with fuel; `find_path` supplies a fuel that is
  proved to be sufficient (`find_terminal_fuel`), and running out of fuel is
  `none` as well.
* The reconstruction loop sits inside the `while` loop in the source; here
  the loop (`search`) hands the terminal node to `annotate`, which
  `find_path` runs at the point where the source does.
* Statements about what happens during a call are made on `stateAfter k`,
  the state at the head of the `while` loop after `k` iterations
  (`search_stateAfter` ties it to `search`); `State.heap` lists every node
  allocated so far.
* `rand()` is modelled by the list of the values that its successive calls
  return; `srand(time(0))` only selects that list.  `initialize_map` returns
  `none` when the list ends before the placement loop does.
-/

namespace AStar

/-! ## Constants and data -/

/-- Map size (`const int MAP_SIZE = 10`). -/
def MAP_SIZE : Int := 10

/-- Traversable cell (`const int EMPTY = -1`). -/
def EMPTY : Int := -1

/-- Obstacle cell (`const int OBSTACLE = -2`). -/
def OBSTACLE : Int := -2

/-- Coordinate (`struct Point`). -/
structure Point where
  y : Int
  x : Int
deriving DecidableEq

/-- Search node (`struct Node`): `root` is a node whose `parent` is `nullptr`,
`child` a node whose `parent` points to the given node. -/
inductive Node where
  | root (point : Point) (g_cost h_cost f_cost : Int) : Node
  | child (point : Point) (g_cost h_cost f_cost : Int) (parent : Node) : Node
deriving DecidableEq

/-- Field `point` of a node. -/
def Node.point : Node → Point
  | .root p _ _ _ => p
  | .child p _ _ _ _ => p

/-- Field `g_cost` of a node. -/
def Node.g_cost : Node → Int
  | .root _ g _ _ => g
  | .child _ g _ _ _ => g

/-- Field `h_cost` of a node. -/
def Node.h_cost : Node → Int
  | .root _ _ h _ => h
  | .child _ _ h _ _ => h

/-- Field `f_cost` of a node. -/
def Node.f_cost : Node → Int
  | .root _ _ _ f => f
  | .child _ _ _ f _ => f

/-- Field `parent` of a node (`none` is `nullptr`). -/
def Node.parent : Node → Option Node
  | .root _ _ _ _ => none
  | .child _ _ _ _ q => some q

/-- Constructor `Node(point, g, h, parent)`: `f_cost` is initialised to `g + h`. -/
def Node.new (point : Point) (g h : Int) : Option Node → Node
  | none => .root point g h (g + h)
  | some q => .child point g h (g + h) q

/-- Grid of cells (`vector<vector<int>>`). -/
abbrev Grid := List (List Int)

/-- Read `m[y][x]`; `none` when an index is out of range. -/
def get2? {α : Type} (m : List (List α)) (y x : Int) : Option α :=
  if 0 ≤ y ∧ 0 ≤ x then
    match m[y.toNat]? with
    | none => none
    | some row => row[x.toNat]?
  else none

/-- Write `m[y][x] = v`; `none` when an index is out of range. -/
def set2? {α : Type} (m : List (List α)) (y x : Int) (v : α) : Option (List (List α)) :=
  if 0 ≤ y ∧ 0 ≤ x then
    match m[y.toNat]? with
    | none => none
    | some row =>
      if x.toNat < row.length then some (m.set y.toNat (row.set x.toNat v)) else none
  else none

/-- Manhattan distance (`calculate_heuristic`), exact: equal to the value on
`int` when both cells are on the grid (`heuristic_int_eq`); the value on `int`
for any cells is `calculate_heuristic_int`. -/
def calculate_heuristic (a b : Point) : Int :=
  |a.y - b.y| + |a.x - b.x|

/-- Moves Up, Down, Left, Right (`directions` in `find_path`). -/
def directions : List Point := [⟨-1, 0⟩, ⟨1, 0⟩, ⟨0, -1⟩, ⟨0, 1⟩]

/-! ## The priority queue -/

/-- Tie-breaking of the priority queue: from the queue contents (in insertion
order) the position of the node it would like to have on top.  The choice is
honoured when that node has minimal `f_cost`. -/
abbrev Policy := List Node → Nat

/-- Position of the first node of minimal `f_cost`. -/
def firstMinIdx : List Node → Nat
  | [] => 0
  | [_] => 0
  | n :: m :: rest =>
    let i := firstMinIdx (m :: rest)
    match (m :: rest)[i]? with
    | none => 0
    | some k => if n.f_cost ≤ k.f_cost then 0 else i + 1

/-- Whether `n` may be on top of the queue `l`: the comparator
`a->f_cost > b->f_cost` puts no node of `l` before it. -/
def isTop (l : List Node) (n : Node) : Bool :=
  l.all (fun m => decide (n.f_cost ≤ m.f_cost))

/-- Position of the node that `open_list.top()` returns. -/
def topIdx (pol : Policy) (l : List Node) : Nat :=
  match l[pol l]? with
  | some n => if isTop l n then pol l else firstMinIdx l
  | none => firstMinIdx l

/-- Run `open_list.top(); open_list.pop();`: the top node and the remaining
queue, `none` when the queue is empty. -/
def pop (pol : Policy) (l : List Node) : Option (Node × List Node) :=
  match l[topIdx pol l]? with
  | none => none
  | some n => some (n, l.eraseIdx (topIdx pol l))

/-! ## The search -/

/-- Local state of the `while` loop of `find_path`: the frontier `open_list`,
the `visited` matrix, and `heap`, every node allocated with `new` so far (the
program never frees a node). -/
structure State where
  open_list : List Node
  visited : List (List Bool)
  heap : List Node
deriving DecidableEq

/-- The `for (const auto& dir : directions)` loop: push a node for every
neighbour of `current` that is in range, `EMPTY` and not visited. -/
def expand (map : Grid) (end_ : Point) (visited : List (List Bool)) (current : Node) :
    List Point → List Node → Option (List Node)
  | [], acc => some acc
  | dir :: dirs, acc =>
    let ny := current.point.y + dir.y
    let nx := current.point.x + dir.x
    if 0 ≤ ny ∧ ny < MAP_SIZE ∧ 0 ≤ nx ∧ nx < MAP_SIZE then
      match get2? map ny nx with
      | none => none
      | some c =>
        if c = EMPTY then
          match get2? visited ny nx with
          | none => none
          | some v =>
            if v = false then
              expand map end_ visited current dirs
                (acc ++ [Node.new ⟨ny, nx⟩ (current.g_cost + 1)
                  (calculate_heuristic ⟨ny, nx⟩ end_) (some current)])
            else expand map end_ visited current dirs acc
        else expand map end_ visited current dirs acc
    else expand map end_ visited current dirs acc

/-- Outcome of one iteration of the `while` loop. -/
inductive Step where
  | fault : Step
  | exhausted : Step
  | found (terminal : Node) : Step
  | next (s : State) : Step
deriving DecidableEq

/-- One iteration of `while (!open_list.empty())`: `exhausted` when the loop
condition fails, `found current` when the destination is reached, `fault` on
an index out of range. -/
def step (pol : Policy) (map : Grid) (end_ : Point) (s : State) : Step :=
  match pop pol s.open_list with
  | none => .exhausted
  | some (current, rest) =>
    let p := current.point
    match get2? s.visited p.y p.x with
    | none => .fault
    | some true => .next { s with open_list := rest }
    | some false =>
      match set2? s.visited p.y p.x true with
      | none => .fault
      | some vis =>
        if p.y = end_.y ∧ p.x = end_.x then .found current
        else
          match expand map end_ vis current directions [] with
          | none => .fault
          | some pushed =>
            .next { open_list := rest ++ pushed, visited := vis, heap := s.heap ++ pushed }

/-- The `while` loop, at most `fuel` iterations: `some (some n)` when the
destination is reached by node `n`, `some none` when the frontier empties,
`none` on a fault or when the fuel runs out. -/
def search (pol : Policy) (map : Grid) (end_ : Point) : Nat → State → Option (Option Node)
  | 0, _ => none
  | fuel + 1, s =>
    match step pol map end_ s with
    | .fault => none
    | .exhausted => some none
    | .found n => some (some n)
    | .next s' => search pol map end_ fuel s'

/-- The path display loop `while (temp) { map[..][..] = step++; temp = temp->parent; }`. -/
def annotate : Grid → Node → Int → Option Grid
  | map, .root p _ _ _, stp => set2? map p.y p.x stp
  | map, .child p _ _ _ q, stp =>
    match set2? map p.y p.x stp with
    | none => none
    | some map' => annotate map' q (stp + 1)

/-- The start node `new Node(start, 0, calculate_heuristic(start, end), nullptr)`. -/
def start_node (start end_ : Point) : Node :=
  Node.new start 0 (calculate_heuristic start end_) none

/-- State on entry to the `while` loop: the start node pushed, nothing visited. -/
def initState (start end_ : Point) : State :=
  { open_list := [start_node start end_],
    visited := List.replicate MAP_SIZE.toNat (List.replicate MAP_SIZE.toNat false),
    heap := [start_node start end_] }

/-- Number of loop iterations that always suffices: every iteration pops a
node, and at most `4 * MAP_SIZE * MAP_SIZE + 1` nodes are ever pushed. -/
def searchFuel : Nat := 4 * (MAP_SIZE * MAP_SIZE).toNat + 2

/-- The terminal node of the search of `find_path`: `some (some n)` when the
destination is reached by node `n`, `some none` when no path is found. -/
def find_terminal (pol : Policy) (map : Grid) (start end_ : Point) : Option (Option Node) :=
  search pol map end_ searchFuel (initState start end_)

/-- The function `find_path`: the returned `bool` and the map after the call;
`none` stands for undefined behaviour (an index out of range). -/
def find_path (pol : Policy) (map : Grid) (start end_ : Point) : Option (Bool × Grid) :=
  match find_terminal pol map start end_ with
  | none => none
  | some none => some (false, map)
  | some (some n) =>
    match annotate map n 1 with
    | none => none
    | some map' => some (true, map')

/-! ## Specification vocabulary -/

/-- Both coordinates lie in `[0, MAP_SIZE)`. -/
def InBounds (p : Point) : Prop :=
  0 ≤ p.y ∧ p.y < MAP_SIZE ∧ 0 ≤ p.x ∧ p.x < MAP_SIZE

instance (p : Point) : Decidable (InBounds p) := by
  unfold InBounds; infer_instance

/-- The cells `a` and `b` are 4-directional neighbours. -/
def Adjacent (a b : Point) : Prop :=
  (b.y = a.y - 1 ∧ b.x = a.x) ∨ (b.y = a.y + 1 ∧ b.x = a.x) ∨
  (b.y = a.y ∧ b.x = a.x - 1) ∨ (b.y = a.y ∧ b.x = a.x + 1)

instance (a b : Point) : Decidable (Adjacent a b) := by
  unfold Adjacent; infer_instance

/-- The grid has `MAP_SIZE` rows of `MAP_SIZE` cells. -/
def WellSized {α : Type} (m : List (List α)) : Prop :=
  m.length = MAP_SIZE.toNat ∧ ∀ row ∈ m, row.length = MAP_SIZE.toNat

instance {α : Type} (m : List (List α)) : Decidable (WellSized m) := by
  unfold WellSized; infer_instance

/-- Value of the cell `p` of the grid. -/
def cell (map : Grid) (p : Point) : Option Int := get2? map p.y p.x

/-- The cell `p` is in range and holds `EMPTY`. -/
def Traversable (map : Grid) (p : Point) : Prop := cell map p = some EMPTY

instance (map : Grid) (p : Point) : Decidable (Traversable map p) := by
  unfold Traversable; infer_instance

/-- Every cell of the grid is `EMPTY` or `OBSTACLE`. -/
def Fresh (map : Grid) : Prop :=
  ∀ row ∈ map, ∀ v ∈ row, v = EMPTY ∨ v = OBSTACLE

instance (map : Grid) : Decidable (Fresh map) := by
  unfold Fresh; infer_instance

/-- Consecutive cells of the list are 4-directional neighbours. -/
def Chained : List Point → Prop
  | [] => True
  | [_] => True
  | a :: b :: rest => Adjacent a b ∧ Chained (b :: rest)

instance : (l : List Point) → Decidable (Chained l)
  | [] => isTrue trivial
  | [_] => isTrue trivial
  | a :: b :: rest =>
    have : Decidable (Chained (b :: rest)) := instDecidableChained (b :: rest)
    by unfold Chained; infer_instance

/-- The list `path` is a route from `start` to `goal`: it begins at `start`,
ends at `goal`, moves between 4-directional neighbours and stays on
traversable cells. -/
def Route (map : Grid) (start goal : Point) (path : List Point) : Prop :=
  path.head? = some start ∧ path.getLast? = some goal ∧ Chained path ∧
  ∀ p ∈ path, Traversable map p

instance (map : Grid) (start goal : Point) (path : List Point) :
    Decidable (Route map start goal path) := by
  unfold Route; infer_instance

/-- The cells of the predecessor chain of a node, the node's own cell first. -/
def Node.cells : Node → List Point
  | .root p _ _ _ => [p]
  | .child p _ _ _ q => p :: q.cells

/-! ## Invariants and measures used in the proofs -/

/-- Number of cells of the `visited` matrix that are still `false`. -/
def unvisited (vis : List (List Bool)) : Nat :=
  (vis.map (fun row => row.count false)).sum

/-- The neighbour of `p` in direction `d`. -/
def moved (p d : Point) : Point := ⟨p.y + d.y, p.x + d.x⟩

/-- The node that `find_path` allocates for the neighbour of `current` in direction `d`. -/
def neighbour_node (end_ : Point) (current : Node) (d : Point) : Node :=
  Node.new (moved current.point d) (current.g_cost + 1)
    (calculate_heuristic (moved current.point d) end_) (some current)

/-- The test of the `if` in the neighbour loop, for the neighbour in direction `d`. -/
def Pushable (map : Grid) (vis : List (List Bool)) (current : Node) (d : Point) : Prop :=
  InBounds (moved current.point d) ∧ cell map (moved current.point d) = some EMPTY ∧
    get2? vis (moved current.point d).y (moved current.point d).x = some false

/-- The cell is reached from `start` by `n` moves, each to a 4-directional
neighbour that is traversable. -/
inductive Reach (map : Grid) (start : Point) : Point → Int → Prop
  | base : Reach map start start 0
  | move {c c' : Point} {n : Int} : Reach map start c n → Adjacent c c' →
      Traversable map c' → Reach map start c' (n + 1)

/-- No walk from `start` to the node's cell has fewer moves than the node's `g_cost`. -/
def Shortest (map : Grid) (start : Point) (n : Node) : Prop :=
  ∀ k, Reach map start n.point k → n.g_cost ≤ k

/-- The node was built by `find_path`: costs as the constructor computes
them, the chain of parents is a walk back to the start node, and every
parent was finalized with a shortest `g_cost`. -/
def NodeOK (map : Grid) (start end_ : Point) : Node → Prop
  | .root p g h f => p = start ∧ g = 0 ∧ h = calculate_heuristic p end_ ∧ f = g + h
  | .child p g h f q =>
    h = calculate_heuristic p end_ ∧ f = g + h ∧ g = q.g_cost + 1 ∧ Adjacent q.point p ∧
      Traversable map p ∧ NodeOK map start end_ q ∧ Shortest map start q

/-- The cell `p` is marked in the `visited` matrix. -/
def Visited (vis : List (List Bool)) (p : Point) : Prop := get2? vis p.y p.x = some true

/-- Loop invariant of the `while` loop of `find_path`. -/
structure Inv (map : Grid) (start end_ : Point) (s : State) : Prop where
  vis_sized : WellSized s.visited
  open_ok : ∀ n ∈ s.open_list, NodeOK map start end_ n
  not_goal : ∀ p, Visited s.visited p → p ≠ end_
  closed : ∀ c c', Visited s.visited c → Adjacent c c' → Traversable map c' →
    Visited s.visited c' ∨
      ∃ m ∈ s.open_list, m.point = c' ∧ ∀ k, Reach map start c k → m.g_cost ≤ k + 1
  init : Visited s.visited start ∨
    (s.open_list = [start_node start end_] ∧ ∀ p, ¬ Visited s.visited p)

/-- Termination measure of the `while` loop. -/
def loopMeasure (s : State) : Nat := 4 * unvisited s.visited + s.open_list.length

/-- Policy that asks for the oldest node of the queue. -/
def oldestFirst : Policy := fun _ => 0

/-- Grid without obstacles. -/
def emptyMap : Grid := List.replicate 10 (List.replicate 10 EMPTY)

/-- The grid `emptyMap` after a search from `(0,0)` to `(0,4)`. -/
def annotatedMap : Grid :=
  [5, 4, 3, 2, 1, -1, -1, -1, -1, -1] :: List.replicate 9 (List.replicate 10 EMPTY)

/-- Grid whose cell `(0,1)` is an obstacle. -/
def obstacleMap : Grid :=
  [-1, -2, -1, -1, -1, -1, -1, -1, -1, -1] :: List.replicate 9 (List.replicate 10 EMPTY)

/-- Grid whose start `(0,0)` is walled in by obstacles at `(0,1)` and `(1,0)`. -/
def walledMap : Grid :=
  [-1, -2, -1, -1, -1, -1, -1, -1, -1, -1] :: [-2, -1, -1, -1, -1, -1, -1, -1, -1, -1] ::
    List.replicate 8 (List.replicate 10 EMPTY)

/-- The cells of the grid that hold a step ordinal (a positive value). -/
def annotatedCells (map : Grid) : Set Point :=
  {p | ∃ v, cell map p = some v ∧ 0 < v}

/-- The grid `obstacleMap` after a search from `(0,0)` to `(0,2)`. -/
def detourMap : Grid :=
  [5, -2, 1, -1, -1, -1, -1, -1, -1, -1] :: [4, 3, 2, -1, -1, -1, -1, -1, -1, -1] ::
    List.replicate 8 (List.replicate 10 EMPTY)

/-- Route from `(0,0)` to `(0,2)` that passes below the cell `(0,1)`. -/
def detourRoute : List Point := [⟨0, 0⟩, ⟨1, 0⟩, ⟨1, 1⟩, ⟨1, 2⟩, ⟨0, 2⟩]

/-- Grid whose cell `(2,2)` is traversable and enclosed by obstacles on its four sides. -/
def enclosedMap : Grid :=
  List.replicate 10 EMPTY :: [-1, -1, -2, -1, -1, -1, -1, -1, -1, -1] ::
    [-1, -2, -1, -2, -1, -1, -1, -1, -1, -1] :: [-1, -1, -2, -1, -1, -1, -1, -1, -1, -1] ::
    List.replicate 6 (List.replicate 10 EMPTY)

/-- Grid whose row 2 consists of obstacles and whose other cells are traversable. -/
def blockedMap : Grid :=
  List.replicate 2 (List.replicate 10 EMPTY) ++ List.replicate 10 OBSTACLE ::
    List.replicate 7 (List.replicate 10 EMPTY)

/-! ## Runs of the search loop -/

/-- State at the head of the `while` loop of `find_path` after `k` complete
iterations; `none` when the loop has ended (or faulted) before. -/
def stateAfter (pol : Policy) (map : Grid) (start end_ : Point) : Nat → Option State
  | 0 => some (initState start end_)
  | k + 1 =>
    match stateAfter pol map start end_ k with
    | none => none
    | some s =>
      match step pol map end_ s with
      | .next s' => some s'
      | _ => none

/-- State of the search from `(0,0)` to `(0,4)` on the obstacle-free grid after one iteration. -/
def demoState : State :=
  (stateAfter oldestFirst emptyMap ⟨0, 0⟩ ⟨0, 4⟩ 1).getD (initState ⟨0, 0⟩ ⟨0, 4⟩)

/-- The node popped from `demoState`. -/
def demoTop : Node :=
  ((pop oldestFirst demoState.open_list).getD (start_node ⟨0, 0⟩ ⟨0, 4⟩, [])).1

/-- The frontier of `demoState` after its top node is popped. -/
def demoRest : List Node :=
  ((pop oldestFirst demoState.open_list).getD (start_node ⟨0, 0⟩ ⟨0, 4⟩, [])).2

/-- The cell of the node's parent (when it has one) paired with the node's own cell. -/
def Node.link (n : Node) : Option Point × Point := (n.parent.map Node.point, n.point)

/-- The node reached from `n` by following `parent` links `i` times; `none`
when the chain ends before. -/
def ancestor : Nat → Node → Option Node
  | 0, n => some n
  | i + 1, n =>
    match n.parent with
    | none => none
    | some q => ancestor i q

/-- Invariant of the nodes allocated by `find_path`: `heap` begins with the
start node; every later node has a parent that is allocated and whose cell is
visited, a cell other than the start, and no two of them share both the cell
of the parent and their own cell. -/
structure HeapInv (map : Grid) (start end_ : Point) (s : State) : Prop where
  heap_ok : ∀ n ∈ s.heap, NodeOK map start end_ n
  open_sub : ∀ n ∈ s.open_list, n ∈ s.heap
  shape : ∃ tl, s.heap = start_node start end_ :: tl ∧
    (∀ n ∈ tl, n.point ≠ start ∧
      ∃ par, n.parent = some par ∧ par ∈ s.heap ∧ Visited s.visited par.point) ∧
    (tl.map Node.link).Nodup

/-- Grid with an obstacle at `(0,1)` and the rest traversable, searched from `(0,0)` to
`(0,2)`: the state after three iterations. -/
def detourState : State :=
  (stateAfter oldestFirst obstacleMap ⟨0, 0⟩ ⟨0, 2⟩ 3).getD (initState ⟨0, 0⟩ ⟨0, 2⟩)

/-- Grid whose row 2 consists of obstacles except for the opening at `(2,4)`. -/
def gapMap : Grid :=
  List.replicate 2 (List.replicate 10 EMPTY) ++
    [-2, -2, -2, -2, -1, -2, -2, -2, -2, -2] :: List.replicate 7 (List.replicate 10 EMPTY)

/-- A route of 9 cells from `(0,0)` to `(4,4)` through the opening `(2,4)`. -/
def gapRoute : List Point :=
  [⟨0, 0⟩, ⟨0, 1⟩, ⟨0, 2⟩, ⟨0, 3⟩, ⟨0, 4⟩, ⟨1, 4⟩, ⟨2, 4⟩, ⟨3, 4⟩, ⟨4, 4⟩]

/-! ## Obstacle generation -/

/-- The values `0, 1, .., MAP_SIZE - 1` of a loop counter, in loop order. -/
def indices : List Int := (List.range MAP_SIZE.toNat).map Int.ofNat

/-- The inner loop `for (int j = 0; j < MAP_SIZE; ++j) map[i][j] = EMPTY;`
over the column indices that remain. -/
def clear_row (i : Int) : List Int → Grid → Option Grid
  | [], map => some map
  | j :: js, map =>
    match set2? map i j EMPTY with
    | none => none
    | some map' => clear_row i js map'

/-- The outer loop `for (int i = 0; i < MAP_SIZE; ++i)` of `initialize_map`
over the row indices that remain. -/
def clear_rows : List Int → Grid → Option Grid
  | [], map => some map
  | i :: is, map =>
    match clear_row i indices map with
    | none => none
    | some map' => clear_rows is map'

/-- The loop `while (obstacles > 0)` of `initialize_map`.  The list holds the
values that the successive calls of `rand()` return; `none` when the list
ends before the loop does, or on an index out of range. -/
def place_obstacles : List Int → Int → Grid → Option Grid
  | ry :: rx :: rest, obstacles, map =>
    if obstacles > 0 then
      match get2? map (Int.tmod ry MAP_SIZE) (Int.tmod rx MAP_SIZE) with
      | none => none
      | some c =>
        if c = EMPTY ∧ ¬ (Int.tmod ry MAP_SIZE = 0 ∧ Int.tmod rx MAP_SIZE = 0) then
          match set2? map (Int.tmod ry MAP_SIZE) (Int.tmod rx MAP_SIZE) OBSTACLE with
          | none => none
          | some map' => place_obstacles rest (obstacles - 1) map'
        else place_obstacles rest obstacles map
    else some map
  | _, obstacles, map => if obstacles > 0 then none else some map

/-- The function `initialize_map`: every cell set to `EMPTY`, then
`(MAP_SIZE * MAP_SIZE) * 20 / 100` obstacles placed at random cells.  The seed
set by `srand(time(0))` only selects the sequence `rands` of values of `rand()`. -/
def initialize_map (map : Grid) (rands : List Int) : Option Grid :=
  match clear_rows indices map with
  | none => none
  | some cleared =>
    place_obstacles rands (Int.tdiv ((MAP_SIZE * MAP_SIZE) * 20) 100) cleared

/-- Number of cells of the grid that hold `OBSTACLE`. -/
def obstacleCount (map : Grid) : Nat :=
  (map.map (fun row => row.count OBSTACLE)).sum

/-- A sequence of values of `rand()`: the first pair hits the start `(0,0)`, the third
pair repeats the second, and values above `MAP_SIZE` are reduced by the remainder. -/
def demoRands : List Int :=
  [0, 0, 1, 1, 1, 1, 11, 12,
   2, 0, 2, 1, 2, 2, 2, 3, 2, 4, 2, 5, 2, 6, 2, 7, 2, 8, 2, 9,
   3, 0, 3, 1, 3, 2, 3, 3, 3, 4, 3, 5, 3, 6, 3, 7, 41, 7]

/-- The grid that `initialize_map` builds from `annotatedMap` with the values `demoRands`. -/
def demoInit : Grid := (initialize_map annotatedMap demoRands).getD []

/-- Invariant of the placement loop: the grid has the right size, holds only
`EMPTY` and `OBSTACLE`, the start is `EMPTY`, and the obstacles placed plus
those still to place make `total`. -/
def PlaceInv (total : Int) (obstacles : Int) (map : Grid) : Prop :=
  WellSized map ∧ Fresh map ∧ cell map ⟨0, 0⟩ = some EMPTY ∧
    (obstacleCount map : Int) + obstacles = total ∧ 0 ≤ obstacles

/-! ## The search with machine integers -/

/-- The value of type `int` (32 bits, two's complement) that an arithmetic
result wraps to on overflow. -/
def wrap (v : Int) : Int := (v + 2147483648) % 4294967296 - 2147483648

/-- Addition of two `int` values. -/
def add_int (a b : Int) : Int := wrap (a + b)

/-- Subtraction of two `int` values. -/
def sub_int (a b : Int) : Int := wrap (a - b)

/-- The library function `abs` on `int`. -/
def abs_int (v : Int) : Int := if v < 0 then wrap (-v) else v

/-- Manhattan distance (`calculate_heuristic`) as computed on `int`. -/
def calculate_heuristic_int (a b : Point) : Int :=
  add_int (abs_int (sub_int a.y b.y)) (abs_int (sub_int a.x b.x))

/-- Constructor `Node(point, g, h, parent)` on `int`: `f_cost` is `g + h` computed on `int`. -/
def Node.new_int (point : Point) (g h : Int) : Option Node → Node
  | none => .root point g h (add_int g h)
  | some q => .child point g h (add_int g h) q

/-- The neighbour loop of `find_path` with every operation on `int`. -/
def expand_int (map : Grid) (end_ : Point) (visited : List (List Bool)) (current : Node) :
    List Point → List Node → Option (List Node)
  | [], acc => some acc
  | dir :: dirs, acc =>
    let ny := add_int current.point.y dir.y
    let nx := add_int current.point.x dir.x
    if 0 ≤ ny ∧ ny < MAP_SIZE ∧ 0 ≤ nx ∧ nx < MAP_SIZE then
      match get2? map ny nx with
      | none => none
      | some c =>
        if c = EMPTY then
          match get2? visited ny nx with
          | none => none
          | some v =>
            if v = false then
              expand_int map end_ visited current dirs
                (acc ++ [Node.new_int ⟨ny, nx⟩ (add_int current.g_cost 1)
                  (calculate_heuristic_int ⟨ny, nx⟩ end_) (some current)])
            else expand_int map end_ visited current dirs acc
        else expand_int map end_ visited current dirs acc
    else expand_int map end_ visited current dirs acc

/-- One iteration of the `while` loop of `find_path` with every operation on `int`. -/
def step_int (pol : Policy) (map : Grid) (end_ : Point) (s : State) : Step :=
  match pop pol s.open_list with
  | none => .exhausted
  | some (current, rest) =>
    let p := current.point
    match get2? s.visited p.y p.x with
    | none => .fault
    | some true => .next { s with open_list := rest }
    | some false =>
      match set2? s.visited p.y p.x true with
      | none => .fault
      | some vis =>
        if p.y = end_.y ∧ p.x = end_.x then .found current
        else
          match expand_int map end_ vis current directions [] with
          | none => .fault
          | some pushed =>
            .next { open_list := rest ++ pushed, visited := vis, heap := s.heap ++ pushed }

/-- The `while` loop of `find_path` with every operation on `int`, at most `fuel` iterations. -/
def search_int (pol : Policy) (map : Grid) (end_ : Point) :
    Nat → State → Option (Option Node)
  | 0, _ => none
  | fuel + 1, s =>
    match step_int pol map end_ s with
    | .fault => none
    | .exhausted => some none
    | .found n => some (some n)
    | .next s' => search_int pol map end_ fuel s'

/-- The path display loop with the counter `step++` on `int`. -/
def annotate_int : Grid → Node → Int → Option Grid
  | map, .root p _ _ _, stp => set2? map p.y p.x stp
  | map, .child p _ _ _ q, stp =>
    match set2? map p.y p.x stp with
    | none => none
    | some map' => annotate_int map' q (add_int stp 1)

/-- The start node, with the heuristic and `f_cost` computed on `int`. -/
def start_node_int (start end_ : Point) : Node :=
  Node.new_int start 0 (calculate_heuristic_int start end_) none

/-- State on entry to the `while` loop, start node computed on `int`. -/
def initState_int (start end_ : Point) : State :=
  { open_list := [start_node_int start end_],
    visited := List.replicate MAP_SIZE.toNat (List.replicate MAP_SIZE.toNat false),
    heap := [start_node_int start end_] }

/-- The terminal node of the search of `find_path`, every operation on `int`. -/
def find_terminal_int (pol : Policy) (map : Grid) (start end_ : Point) :
    Option (Option Node) :=
  search_int pol map end_ searchFuel (initState_int start end_)

/-- The function `find_path` with every arithmetic operation on `int`, so
also for a goal so far outside the grid that the costs overflow; `none`
stands for an index out of range. -/
def find_path_int (pol : Policy) (map : Grid) (start end_ : Point) : Option (Bool × Grid) :=
  match find_terminal_int pol map start end_ with
  | none => none
  | some none => some (false, map)
  | some (some n) =>
    match annotate_int map n 1 with
    | none => none
    | some map' => some (true, map')

/-- State at the head of the `while` loop after `k` iterations, every operation on `int`. -/
def stateAfter_int (pol : Policy) (map : Grid) (start end_ : Point) : Nat → Option State
  | 0 => some (initState_int start end_)
  | k + 1 =>
    match stateAfter_int pol map start end_ k with
    | none => none
    | some s =>
      match step_int pol map end_ s with
      | .next s' => some s'
      | _ => none

/-- Invariant of the loop that index safety needs: the `visited` matrix has
the right size and every cell on the chain of every frontier node is in range. -/
def SafeInv (s : State) : Prop :=
  WellSized s.visited ∧ ∀ n ∈ s.open_list, ∀ p ∈ n.cells, InBounds p

/-- The node that `find_path` allocates on `int` for the neighbour of `current` in
direction `d`. -/
def neighbour_node_int (end_ : Point) (current : Node) (d : Point) : Node :=
  Node.new_int ⟨add_int current.point.y d.y, add_int current.point.x d.x⟩
    (add_int current.g_cost 1)
    (calculate_heuristic_int ⟨add_int current.point.y d.y, add_int current.point.x d.x⟩ end_)
    (some current)

/-- A goal so far outside the grid that the heuristic overflows `int`. -/
def farGoal : Point := ⟨2147483647, 0⟩

/-- State of the search on `int` from `(0,0)` towards `farGoal` on the obstacle-free grid
after one iteration. -/
def farState : State :=
  (stateAfter_int oldestFirst emptyMap ⟨0, 0⟩ farGoal 1).getD (initState_int ⟨0, 0⟩ farGoal)

/-! ## Theorems -/

theorem get2?_eq_some {α : Type} {m : List (List α)} {y x : Int} {v : α} :
    get2? m y x = some v ↔
      0 ≤ y ∧ 0 ≤ x ∧ ∃ row, m[y.toNat]? = some row ∧ row[x.toNat]? = some v := by
  unfold get2?
  constructor
  · intro h
    split at h
    · rename_i hyx
      split at h
      · cases h
      · rename_i row hrow
        exact ⟨hyx.1, hyx.2, row, hrow, h⟩
    · cases h
  · rintro ⟨hy, hx, row, hrow, hv⟩
    rw [if_pos ⟨hy, hx⟩, hrow]
    exact hv

theorem get2?_range {α : Type} {m : List (List α)} {y x : Int} {v : α}
    (hm : WellSized m) (h : get2? m y x = some v) :
    0 ≤ y ∧ y < MAP_SIZE ∧ 0 ≤ x ∧ x < MAP_SIZE := by
  obtain ⟨hy, hx, row, hrow, hv⟩ := get2?_eq_some.mp h
  obtain ⟨h1, h1'⟩ := List.getElem?_eq_some.mp hrow
  obtain ⟨h2, _⟩ := List.getElem?_eq_some.mp hv
  have hrl : row.length = MAP_SIZE.toNat := hm.2 row (h1' ▸ List.getElem_mem h1)
  rw [hm.1] at h1
  rw [hrl] at h2
  have : MAP_SIZE = 10 := rfl
  refine ⟨hy, ?_, hx, ?_⟩ <;> omega

theorem get2?_of_range {α : Type} {m : List (List α)} {y x : Int}
    (hm : WellSized m) (hy : 0 ≤ y) (hy' : y < MAP_SIZE) (hx : 0 ≤ x) (hx' : x < MAP_SIZE) :
    ∃ v, get2? m y x = some v := by
  have h10 : MAP_SIZE = 10 := rfl
  have h1 : y.toNat < m.length := by rw [hm.1]; omega
  have hrl : (m[y.toNat]).length = MAP_SIZE.toNat := hm.2 _ (List.getElem_mem h1)
  have h2 : x.toNat < (m[y.toNat]).length := by rw [hrl]; omega
  refine ⟨(m[y.toNat])[x.toNat], get2?_eq_some.mpr ⟨hy, hx, m[y.toNat], ?_, ?_⟩⟩
  · exact List.getElem?_eq_getElem h1
  · exact List.getElem?_eq_getElem h2

theorem set2?_eq_some {α : Type} {m m' : List (List α)} {y x : Int} {w : α} :
    set2? m y x w = some m' ↔
      0 ≤ y ∧ 0 ≤ x ∧ ∃ row, m[y.toNat]? = some row ∧ x.toNat < row.length ∧
        m' = m.set y.toNat (row.set x.toNat w) := by
  unfold set2?
  constructor
  · intro h
    split at h
    · rename_i hyx
      split at h
      · cases h
      · rename_i row hrow
        split at h
        · rename_i hlt
          exact ⟨hyx.1, hyx.2, row, hrow, hlt, (Option.some.inj h).symm⟩
        · cases h
    · cases h
  · rintro ⟨hy, hx, row, hrow, hlt, rfl⟩
    rw [if_pos ⟨hy, hx⟩, hrow]
    simp [hlt]

theorem set2?_of_get2? {α : Type} {m : List (List α)} {y x : Int} {v : α} (w : α)
    (h : get2? m y x = some v) : ∃ m', set2? m y x w = some m' := by
  obtain ⟨hy, hx, row, hrow, hv⟩ := get2?_eq_some.mp h
  obtain ⟨h2, _⟩ := List.getElem?_eq_some.mp hv
  exact ⟨_, set2?_eq_some.mpr ⟨hy, hx, row, hrow, h2, rfl⟩⟩

theorem get2?_set2? {α : Type} {m m' : List (List α)} {y x : Int} {w : α}
    (h : set2? m y x w = some m') (y' x' : Int) :
    get2? m' y' x' = if y' = y ∧ x' = x then some w else get2? m y' x' := by
  obtain ⟨hy, hx, row, hrow, hlt, rfl⟩ := set2?_eq_some.mp h
  obtain ⟨h1, h1'⟩ := List.getElem?_eq_some.mp hrow
  unfold get2?
  by_cases hb : 0 ≤ y' ∧ 0 ≤ x'
  · rw [if_pos hb, if_pos hb, List.getElem?_set]
    by_cases hyy : y.toNat = y'.toNat
    · have hyeq : y' = y := by omega
      subst hyeq
      rw [if_pos rfl, if_pos h1, hrow]
      simp only [true_and]
      rw [List.getElem?_set]
      by_cases hxx : x.toNat = x'.toNat
      · have hxeq : x' = x := by omega
        subst hxeq
        simp [hlt]
      · have hxne : ¬ x' = x := by omega
        simp [hxx, hxne]
    · have hyne : ¬ y' = y := by omega
      simp [hyy, hyne]
  · rw [if_neg hb, if_neg hb]
    have : ¬ (y' = y ∧ x' = x) := by
      rintro ⟨rfl, rfl⟩
      exact hb ⟨hy, hx⟩
    simp [this]

theorem set2?_wellSized {α : Type} {m m' : List (List α)} {y x : Int} {w : α}
    (hm : WellSized m) (h : set2? m y x w = some m') : WellSized m' := by
  obtain ⟨hy, hx, row, hrow, hlt, rfl⟩ := set2?_eq_some.mp h
  obtain ⟨h1, h1'⟩ := List.getElem?_eq_some.mp hrow
  refine ⟨by simpa using hm.1, ?_⟩
  intro r hr
  rcases List.mem_or_eq_of_mem_set hr with hr | hr
  · exact hm.2 r hr
  · subst hr
    rw [List.length_set]
    exact hm.2 row (h1' ▸ List.getElem_mem h1)

theorem sum_map_set_count (vis : List (List Bool)) (i : Nat) (row row' : List Bool)
    (hrow : vis[i]? = some row) (hc : row'.count false + 1 = row.count false) :
    unvisited (vis.set i row') + 1 = unvisited vis := by
  unfold unvisited
  induction vis generalizing i with
  | nil => simp at hrow
  | cons r rs ih =>
    cases i with
    | zero =>
      simp at hrow
      subst hrow
      simp
      omega
    | succ i =>
      have hrow2 : rs[i]? = some row := by simpa using hrow
      have := ih i hrow2
      simp only [List.set_cons_succ, List.map_cons, List.sum_cons]
      omega

theorem unvisited_set2? {vis vis' : List (List Bool)} {y x : Int}
    (hg : get2? vis y x = some false) (h : set2? vis y x true = some vis') :
    unvisited vis' + 1 = unvisited vis := by
  obtain ⟨hy, hx, row, hrow, hlt, rfl⟩ := set2?_eq_some.mp h
  obtain ⟨_, _, row2, hrow2, hv⟩ := get2?_eq_some.mp hg
  rw [hrow] at hrow2
  cases hrow2
  apply sum_map_set_count _ _ _ _ hrow
  obtain ⟨h2, h2'⟩ := List.getElem?_eq_some.mp hv
  rw [List.count_set _ _ _ _ h2, h2']
  simp
  have : 0 < row.count false := List.count_pos_iff.mpr (h2' ▸ List.getElem_mem h2)
  omega

theorem firstMinIdx_spec : ∀ (l : List Node), l ≠ [] →
    ∃ n, l[firstMinIdx l]? = some n ∧ ∀ m ∈ l, n.f_cost ≤ m.f_cost
  | [], h => absurd rfl h
  | [a], _ => ⟨a, by simp [firstMinIdx], by simp⟩
  | a :: b :: rest, _ => by
    obtain ⟨k, hk, hmin⟩ := firstMinIdx_spec (b :: rest) (by simp)
    simp only [firstMinIdx, hk]
    by_cases h : a.f_cost ≤ k.f_cost
    · rw [if_pos h]
      refine ⟨a, by simp, ?_⟩
      intro m hm
      rcases List.mem_cons.mp hm with rfl | hm
      · exact le_refl _
      · exact le_trans h (hmin m hm)
    · rw [if_neg h]
      refine ⟨k, by simpa using hk, ?_⟩
      intro m hm
      rcases List.mem_cons.mp hm with rfl | hm
      · omega
      · exact hmin m hm

theorem topIdx_spec (pol : Policy) (l : List Node) (hl : l ≠ []) :
    ∃ n, l[topIdx pol l]? = some n ∧ ∀ m ∈ l, n.f_cost ≤ m.f_cost := by
  unfold topIdx
  split
  · rename_i n hn
    by_cases ht : isTop l n = true
    · rw [if_pos ht]
      refine ⟨n, hn, ?_⟩
      intro m hm
      have := List.all_eq_true.mp ht m hm
      simpa using this
    · rw [if_neg ht]
      exact firstMinIdx_spec l hl
  · exact firstMinIdx_spec l hl

theorem pop_eq_none {pol : Policy} {l : List Node} (h : pop pol l = none) : l = [] := by
  by_contra hl
  obtain ⟨n, hn, _⟩ := topIdx_spec pol l hl
  simp [pop, hn] at h

theorem pop_spec {pol : Policy} {l rest : List Node} {n : Node}
    (h : pop pol l = some (n, rest)) :
    n ∈ l ∧ (∀ m ∈ l, n.f_cost ≤ m.f_cost) ∧ (∀ m ∈ rest, m ∈ l) ∧
      (∀ m ∈ l, m ≠ n → m ∈ rest) ∧ rest.length + 1 = l.length := by
  have hl : l ≠ [] := by
    rintro rfl
    simp [pop] at h
  obtain ⟨k, hk, hmin⟩ := topIdx_spec pol l hl
  simp only [pop, hk, Option.some.injEq, Prod.mk.injEq] at h
  obtain ⟨rfl, rfl⟩ := h
  obtain ⟨hlt, _⟩ := List.getElem?_eq_some.mp hk
  refine ⟨List.mem_iff_getElem?.mpr ⟨_, hk⟩, hmin, fun m hm => List.mem_of_mem_eraseIdx hm, ?_, ?_⟩
  · intro m hm hne
    obtain ⟨j, hj⟩ := List.mem_iff_getElem?.mp hm
    refine List.mem_eraseIdx_iff_getElem?.mpr ⟨j, ?_, hj⟩
    rintro rfl
    rw [hk] at hj
    exact hne (Option.some.inj hj).symm
  · rw [List.length_eraseIdx_of_lt hlt]
    omega

theorem expand_spec {map : Grid} {vis : List (List Bool)} (end_ : Point) (current : Node)
    (hm : WellSized map) (hv : WellSized vis) :
    ∀ (dirs : List Point) (acc : List Node),
      ∃ pushed, expand map end_ vis current dirs acc = some (acc ++ pushed) ∧
        pushed.length ≤ dirs.length ∧
        (∀ m ∈ pushed, ∃ d ∈ dirs, Pushable map vis current d ∧
          m = neighbour_node end_ current d) ∧
        (∀ d ∈ dirs, Pushable map vis current d → neighbour_node end_ current d ∈ pushed) := by
  intro dirs
  induction dirs with
  | nil =>
    intro acc
    exact ⟨[], by simp [expand], by simp, by simp, by simp⟩
  | cons d dirs ih =>
    intro acc
    have skip : ¬ Pushable map vis current d →
        expand map end_ vis current (d :: dirs) acc = expand map end_ vis current dirs acc →
        ∃ pushed, expand map end_ vis current (d :: dirs) acc = some (acc ++ pushed) ∧
          pushed.length ≤ (d :: dirs).length ∧
          (∀ m ∈ pushed, ∃ d' ∈ d :: dirs, Pushable map vis current d' ∧
            m = neighbour_node end_ current d') ∧
          (∀ d' ∈ d :: dirs, Pushable map vis current d' →
            neighbour_node end_ current d' ∈ pushed) := by
      intro hnp heq
      obtain ⟨pushed, h1, h2, h3, h4⟩ := ih acc
      refine ⟨pushed, by rw [heq, h1], by simp; omega, ?_, ?_⟩
      · intro m hmem
        obtain ⟨d', hd', hp⟩ := h3 m hmem
        exact ⟨d', List.mem_cons_of_mem _ hd', hp⟩
      · intro d' hd' hp
        rcases List.mem_cons.mp hd' with rfl | hd'
        · exact absurd hp hnp
        · exact h4 d' hd' hp
    by_cases hb : 0 ≤ current.point.y + d.y ∧ current.point.y + d.y < MAP_SIZE ∧
        0 ≤ current.point.x + d.x ∧ current.point.x + d.x < MAP_SIZE
    · obtain ⟨c, hc⟩ := get2?_of_range hm hb.1 hb.2.1 hb.2.2.1 hb.2.2.2
      obtain ⟨v, hvv⟩ := get2?_of_range hv hb.1 hb.2.1 hb.2.2.1 hb.2.2.2
      by_cases hce : c = EMPTY
      · cases v with
        | true =>
          apply skip
          · rintro ⟨_, _, h⟩
            simp only [moved] at h
            rw [hvv] at h
            cases h
          · simp only [expand]
            rw [if_pos hb, hc]
            simp only [hce, if_true, hvv]
            simp
        | false =>
          obtain ⟨pushed, h1, h2, h3, h4⟩ := ih (acc ++ [neighbour_node end_ current d])
          refine ⟨neighbour_node end_ current d :: pushed, ?_, by simp; omega, ?_, ?_⟩
          · simp only [expand]
            rw [if_pos hb, hc]
            simp only [hce, if_true, hvv]
            simp only [neighbour_node, moved] at h1
            simp [h1, neighbour_node, moved]
          · intro m hmem
            rcases List.mem_cons.mp hmem with rfl | hmem
            · exact ⟨d, List.mem_cons_self _ _, ⟨hb, by simpa [cell, moved, hce] using hc, hvv⟩, rfl⟩
            · obtain ⟨d', hd', hp⟩ := h3 m hmem
              exact ⟨d', List.mem_cons_of_mem _ hd', hp⟩
          · intro d' hd' hp
            rcases List.mem_cons.mp hd' with rfl | hd'
            · exact List.mem_cons_self _ _
            · exact List.mem_cons_of_mem _ (h4 d' hd' hp)
      · apply skip
        · rintro ⟨_, h, _⟩
          simp only [cell, moved] at h
          rw [hc] at h
          exact hce (Option.some.inj h)
        · simp only [expand]
          rw [if_pos hb, hc]
          simp [hce]
    · apply skip
      · rintro ⟨h, _⟩
        exact hb h
      · simp only [expand]
        rw [if_neg hb]

theorem point_eq_iff (p q : Point) : (p.y = q.y ∧ p.x = q.x) ↔ p = q := by
  cases p; cases q; simp

theorem adjacent_iff_moved (c c' : Point) :
    Adjacent c c' ↔ ∃ d ∈ directions, c' = moved c d := by
  cases c; cases c'
  simp only [Adjacent, directions, moved, List.mem_cons, List.mem_singleton, exists_eq_or_imp,
    List.not_mem_nil, false_or, or_false, exists_eq_left, Point.mk.injEq, Int.add_zero,
    Int.reduceNeg]
  constructor
  · rintro (h | h | h | h)
    · exact Or.inl ⟨by omega, by omega⟩
    · exact Or.inr (Or.inl ⟨by omega, by omega⟩)
    · exact Or.inr (Or.inr (Or.inl ⟨by omega, by omega⟩))
    · exact Or.inr (Or.inr (Or.inr ⟨by omega, by omega⟩))
  · rintro (h | h | h | h)
    · exact Or.inl ⟨by omega, by omega⟩
    · exact Or.inr (Or.inl ⟨by omega, by omega⟩)
    · exact Or.inr (Or.inr (Or.inl ⟨by omega, by omega⟩))
    · exact Or.inr (Or.inr (Or.inr ⟨by omega, by omega⟩))

theorem adjacent_symm {a b : Point} (h : Adjacent a b) : Adjacent b a := by
  unfold Adjacent at *
  omega

theorem heuristic_nonneg (a b : Point) : 0 ≤ calculate_heuristic a b := by
  unfold calculate_heuristic
  positivity

theorem heuristic_self (b : Point) : calculate_heuristic b b = 0 := by
  simp [calculate_heuristic]

theorem heuristic_step {a a' : Point} (b : Point) (h : Adjacent a a') :
    calculate_heuristic a b ≤ 1 + calculate_heuristic a' b := by
  unfold calculate_heuristic
  unfold Adjacent at h
  have h1 := abs_cases (a.y - b.y)
  have h2 := abs_cases (a.x - b.x)
  have h3 := abs_cases (a'.y - b.y)
  have h4 := abs_cases (a'.x - b.x)
  omega

theorem traversable_inBounds {map : Grid} {p : Point} (hm : WellSized map)
    (h : Traversable map p) : InBounds p :=
  get2?_range hm h

theorem reach_nonneg {map : Grid} {start c : Point} {k : Int} (h : Reach map start c k) :
    0 ≤ k := by
  induction h with
  | base => exact le_refl _
  | move _ _ _ ih => omega

theorem NodeOK.f_eq {map : Grid} {start end_ : Point} {n : Node}
    (h : NodeOK map start end_ n) :
    n.f_cost = n.g_cost + calculate_heuristic n.point end_ := by
  cases n with
  | root p g hh f =>
    obtain ⟨_, _, h3, h4⟩ := h
    simp only [Node.f_cost, Node.g_cost, Node.point]
    rw [h4, h3]
  | child p g hh f q =>
    obtain ⟨h3, h4, _⟩ := h
    simp only [Node.f_cost, Node.g_cost, Node.point]
    rw [h4, h3]

theorem NodeOK.reach {map : Grid} {start end_ : Point} {n : Node}
    (h : NodeOK map start end_ n) : Reach map start n.point n.g_cost := by
  induction n with
  | root p g hh f =>
    obtain ⟨h1, h2, _⟩ := h
    simp only [Node.g_cost, Node.point]
    rw [h1, h2]
    exact Reach.base
  | child p g hh f q ih =>
    obtain ⟨_, _, h3, h4, h5, h6, _⟩ := h
    simp only [Node.g_cost, Node.point]
    rw [h3]
    exact Reach.move (ih h6) h4 h5

theorem NodeOK.inBounds {map : Grid} {start end_ : Point} {n : Node}
    (hm : WellSized map) (hs : InBounds start) (h : NodeOK map start end_ n) :
    InBounds n.point := by
  cases n with
  | root p g hh f =>
    obtain ⟨h1, _⟩ := h
    simp only [Node.point]
    rw [h1]
    exact hs
  | child p g hh f q =>
    obtain ⟨_, _, _, _, h5, _⟩ := h
    exact traversable_inBounds hm h5

theorem start_node_ok (map : Grid) (start end_ : Point) :
    NodeOK map start end_ (start_node start end_) := by
  simp [start_node, Node.new, NodeOK]

theorem frontier_bound {map : Grid} {start end_ : Point} {s : State}
    (hinv : Inv map start end_ s) {c : Point} {k : Int} (hr : Reach map start c k)
    (hnv : ¬ Visited s.visited c) :
    ∃ m ∈ s.open_list, m.f_cost ≤ k + calculate_heuristic c end_ := by
  induction hr with
  | base =>
    rcases hinv.init with h | ⟨h, _⟩
    · exact absurd h hnv
    · refine ⟨start_node start end_, by rw [h]; exact List.mem_singleton.mpr rfl, ?_⟩
      simp [start_node, Node.new, Node.f_cost]
  | @move c c' n hr hadj htr ih =>
    by_cases hc : Visited s.visited c
    · rcases hinv.closed c c' hc hadj htr with h | ⟨m, hm, hp, hg⟩
      · exact absurd h hnv
      · refine ⟨m, hm, ?_⟩
        rw [(hinv.open_ok m hm).f_eq, hp]
        have := hg n hr
        omega
    · obtain ⟨m, hm, hf⟩ := ih hc
      refine ⟨m, hm, ?_⟩
      have := heuristic_step end_ hadj
      omega

theorem pop_shortest {pol : Policy} {map : Grid} {start end_ : Point} {s : State}
    (hinv : Inv map start end_ s) {n : Node} {rest : List Node}
    (hpop : pop pol s.open_list = some (n, rest)) (hnv : ¬ Visited s.visited n.point) :
    Shortest map start n := by
  intro k hk
  obtain ⟨hn, hmin, _⟩ := pop_spec hpop
  obtain ⟨m, hm, hf⟩ := frontier_bound hinv hk hnv
  have h1 := hmin m hm
  have h2 := (hinv.open_ok n hn).f_eq
  omega

theorem visited_set2? {vis vis' : List (List Bool)} {q : Point}
    (h : set2? vis q.y q.x true = some vis') (p : Point) :
    Visited vis' p ↔ p = q ∨ Visited vis p := by
  unfold Visited
  rw [get2?_set2? h]
  by_cases hp : p.y = q.y ∧ p.x = q.x
  · rw [if_pos hp]
    simp [(point_eq_iff p q).mp hp]
  · rw [if_neg hp]
    have : p ≠ q := fun h => hp ((point_eq_iff p q).mpr h)
    simp [this]

theorem inv_discard {pol : Policy} {map : Grid} {start end_ : Point} {s : State}
    (hinv : Inv map start end_ s) {n : Node} {rest : List Node}
    (hpop : pop pol s.open_list = some (n, rest)) (hv : Visited s.visited n.point) :
    Inv map start end_ { s with open_list := rest } := by
  obtain ⟨hn, _, hsub, hrest, _⟩ := pop_spec hpop
  refine ⟨hinv.vis_sized, fun m hm => hinv.open_ok m (hsub m hm), hinv.not_goal, ?_, ?_⟩
  · intro c c' hc hadj htr
    rcases hinv.closed c c' hc hadj htr with h | ⟨m, hm, hp, hg⟩
    · exact Or.inl h
    · by_cases hmn : m = n
      · left
        rw [← hp, hmn]
        exact hv
      · exact Or.inr ⟨m, hrest m hm hmn, hp, hg⟩
  · rcases hinv.init with h | ⟨_, h⟩
    · exact Or.inl h
    · exact absurd hv (h _)

theorem inv_expand {pol : Policy} {map : Grid} {start end_ : Point} {s : State}
    (hm : WellSized map) (hinv : Inv map start end_ s) {n : Node} {rest pushed : List Node}
    {vis : List (List Bool)}
    (hpop : pop pol s.open_list = some (n, rest))
    (hnv : get2? s.visited n.point.y n.point.x = some false)
    (hset : set2? s.visited n.point.y n.point.x true = some vis)
    (hne : n.point ≠ end_)
    (hex : expand map end_ vis n directions [] = some pushed) :
    Inv map start end_ { open_list := rest ++ pushed, visited := vis, heap := s.heap ++ pushed } ∧
      pushed.length ≤ 4 := by
  obtain ⟨hn, _, hsub, hrest, _⟩ := pop_spec hpop
  have hvs : WellSized vis := set2?_wellSized hinv.vis_sized hset
  obtain ⟨pushed', he, hlen, hfrom, hto⟩ := expand_spec end_ n hm hvs directions []
  rw [hex] at he
  simp only [List.nil_append, Option.some.injEq] at he
  subst he
  have hnotv : ¬ Visited s.visited n.point := by
    unfold Visited
    rw [hnv]
    simp
  have hshort : Shortest map start n := pop_shortest hinv hpop hnotv
  have hnok : NodeOK map start end_ n := hinv.open_ok n hn
  refine ⟨⟨hvs, ?_, ?_, ?_, ?_⟩, by simpa [directions] using hlen⟩
  · intro m hmem
    rcases List.mem_append.mp hmem with hmem | hmem
    · exact hinv.open_ok m (hsub m hmem)
    · obtain ⟨d, hd, hp, rfl⟩ := hfrom m hmem
      have hadj : Adjacent n.point (moved n.point d) :=
        (adjacent_iff_moved _ _).mpr ⟨d, hd, rfl⟩
      exact ⟨rfl, rfl, rfl, hadj, hp.2.1, hnok, hshort⟩
  · intro p hp
    rcases (visited_set2? hset p).mp hp with rfl | hp
    · exact hne
    · exact hinv.not_goal p hp
  · intro c c' hc hadj htr
    by_cases hv' : Visited vis c'
    · exact Or.inl hv'
    · right
      have hold : ∀ m ∈ s.open_list, m.point = c' → m ∈ rest ++ pushed := by
        intro m hmem hp
        have hmn : m ≠ n := by
          rintro rfl
          exact hv' ((visited_set2? hset c').mpr (Or.inl hp.symm))
        exact List.mem_append_left _ (hrest m hmem hmn)
      have hnew : c = n.point → ∃ m ∈ rest ++ pushed, m.point = c' ∧
          ∀ k, Reach map start c k → m.g_cost ≤ k + 1 := by
        rintro rfl
        obtain ⟨d, hd, rfl⟩ := (adjacent_iff_moved _ _).mp hadj
        have hb : InBounds (moved n.point d) := traversable_inBounds hm htr
        obtain ⟨v, hv⟩ := get2?_of_range hvs hb.1 hb.2.1 hb.2.2.1 hb.2.2.2
        have hvf : v = false := by
          cases v with
          | false => rfl
          | true => exact absurd hv hv'
        subst hvf
        refine ⟨neighbour_node end_ n d, List.mem_append_right _ (hto d hd ⟨hb, htr, hv⟩),
          rfl, ?_⟩
        intro k hk
        have := hshort k hk
        show n.g_cost + 1 ≤ k + 1
        omega
      rcases (visited_set2? hset c).mp hc with hcn | hc
      · exact hnew hcn
      · rcases hinv.closed c c' hc hadj htr with h | ⟨m, hmem, hp, hg⟩
        · exact absurd ((visited_set2? hset c').mpr (Or.inr h)) hv'
        · exact ⟨m, hold m hmem hp, hp, hg⟩
  · left
    rcases hinv.init with h | ⟨h, _⟩
    · exact (visited_set2? hset start).mpr (Or.inr h)
    · rw [h] at hn
      have hns : n = start_node start end_ := List.mem_singleton.mp hn
      refine (visited_set2? hset start).mpr (Or.inl ?_)
      rw [hns]
      rfl

theorem exhausted_unreachable {map : Grid} {start end_ : Point} {s : State}
    (hinv : Inv map start end_ s) (hempty : s.open_list = []) :
    ∀ k, ¬ Reach map start end_ k := by
  have hstart : Visited s.visited start := by
    rcases hinv.init with h | ⟨h, _⟩
    · exact h
    · rw [hempty] at h
      cases h
  have hall : ∀ c k, Reach map start c k → Visited s.visited c := by
    intro c k hr
    induction hr with
    | base => exact hstart
    | move _ hadj htr ih =>
      rcases hinv.closed _ _ ih hadj htr with h | ⟨m, hm, _⟩
      · exact h
      · rw [hempty] at hm
        cases hm
  intro k hk
  exact hinv.not_goal end_ (hall end_ k hk) rfl

/-- What one iteration of the loop does from a state that satisfies the invariant. -/
theorem step_spec (pol : Policy) {map : Grid} {start end_ : Point} {s : State}
    (hm : WellSized map) (hs : InBounds start) (hinv : Inv map start end_ s) :
    (step pol map end_ s = .exhausted ∧ s.open_list = []) ∨
    (∃ n, step pol map end_ s = .found n ∧ n ∈ s.open_list ∧ n.point = end_ ∧
      Shortest map start n) ∨
    (∃ s', step pol map end_ s = .next s' ∧ Inv map start end_ s' ∧
      loopMeasure s' < loopMeasure s) := by
  cases hpop : pop pol s.open_list with
  | none =>
    left
    exact ⟨by simp [step, hpop], pop_eq_none hpop⟩
  | some top =>
    obtain ⟨n, rest⟩ := top
    obtain ⟨hn, _, _, _, hlen⟩ := pop_spec hpop
    have hb : InBounds n.point := (hinv.open_ok n hn).inBounds hm hs
    obtain ⟨v, hv⟩ := get2?_of_range hinv.vis_sized hb.1 hb.2.1 hb.2.2.1 hb.2.2.2
    cases v with
    | true =>
      right; right
      refine ⟨{ s with open_list := rest }, by simp [step, hpop, hv], inv_discard hinv hpop hv, ?_⟩
      simp only [loopMeasure]
      omega
    | false =>
      obtain ⟨vis, hset⟩ := set2?_of_get2? true hv
      have hnotv : ¬ Visited s.visited n.point := by
        unfold Visited
        rw [hv]
        simp
      by_cases hgoal : n.point.y = end_.y ∧ n.point.x = end_.x
      · right; left
        exact ⟨n, by simp only [step, hpop, hv, hset]; simp [hgoal], hn,
          (point_eq_iff _ _).mp hgoal,
          pop_shortest hinv hpop hnotv⟩
      · right; right
        have hvs : WellSized vis := set2?_wellSized hinv.vis_sized hset
        obtain ⟨pushed, he, _⟩ := expand_spec end_ n hm hvs directions []
        rw [List.nil_append] at he
        have hne : n.point ≠ end_ := fun h => hgoal ((point_eq_iff _ _).mpr h)
        obtain ⟨hinv', hp4⟩ := inv_expand hm hinv hpop hv hset hne he
        refine ⟨_, by simp only [step, hpop, hv, hset]; simp [hgoal, he], hinv', ?_⟩
        have := unvisited_set2? hv hset
        simp only [loopMeasure, List.length_append]
        omega

theorem search_spec (pol : Policy) {map : Grid} {start end_ : Point}
    (hm : WellSized map) (hs : InBounds start) :
    ∀ (fuel : Nat) (s : State), Inv map start end_ s → loopMeasure s < fuel →
      (∃ n, search pol map end_ fuel s = some (some n) ∧ NodeOK map start end_ n ∧
        Shortest map start n ∧ n.point = end_) ∨
      (search pol map end_ fuel s = some none ∧ ∀ k, ¬ Reach map start end_ k) := by
  intro fuel
  induction fuel with
  | zero =>
    intro s _ h
    omega
  | succ fuel ih =>
    intro s hinv hlt
    rcases step_spec pol hm hs hinv with ⟨h, hempty⟩ | ⟨n, h, hn, hp, hsh⟩ | ⟨s', h, hinv', hdec⟩
    · right
      exact ⟨by simp [search, h], exhausted_unreachable hinv hempty⟩
    · left
      exact ⟨n, by simp [search, h], hinv.open_ok n hn, hsh, hp⟩
    · have := ih s' hinv' (by omega)
      simpa [search, h] using this

theorem initState_inv (map : Grid) (start end_ : Point) :
    Inv map start end_ (initState start end_) := by
  have hnone : ∀ p, ¬ Visited (initState start end_).visited p := by
    intro p hp
    obtain ⟨_, _, row, hrow, hv⟩ := get2?_eq_some.mp hp
    simp only [initState] at hrow
    obtain ⟨_, h1⟩ := List.getElem?_eq_some.mp hrow
    rw [List.getElem_replicate] at h1
    subst h1
    obtain ⟨_, h2⟩ := List.getElem?_eq_some.mp hv
    rw [List.getElem_replicate] at h2
    cases h2
  have hsz : WellSized (List.replicate MAP_SIZE.toNat (List.replicate MAP_SIZE.toNat false)) := by
    decide
  refine ⟨hsz, ?_, fun p hp => absurd hp (hnone p), fun c _ hc => absurd hc (hnone c),
    Or.inr ⟨rfl, hnone⟩⟩
  intro n hn
  have : n = start_node start end_ := List.mem_singleton.mp hn
  rw [this]
  exact start_node_ok map start end_

theorem initState_measure (start end_ : Point) :
    loopMeasure (initState start end_) < searchFuel := by
  show 4 * unvisited (List.replicate MAP_SIZE.toNat (List.replicate MAP_SIZE.toNat false)) + 1
    < searchFuel
  decide

/-- The search of `find_path` terminates without fault: it returns a node on
the goal whose chain is a shortest walk, or reports that the goal cannot be
reached. -/
theorem find_terminal_spec (pol : Policy) {map : Grid} {start : Point} (end_ : Point)
    (hm : WellSized map) (hs : InBounds start) :
    (∃ n, find_terminal pol map start end_ = some (some n) ∧ NodeOK map start end_ n ∧
      Shortest map start n ∧ n.point = end_) ∨
    (find_terminal pol map start end_ = some none ∧ ∀ k, ¬ Reach map start end_ k) :=
  search_spec pol hm hs searchFuel (initState start end_) (initState_inv map start end_)
    (initState_measure start end_)

theorem chained_iff_chain' (l : List Point) : Chained l ↔ List.Chain' Adjacent l := by
  induction l with
  | nil => simp [Chained]
  | cons a l ih =>
    cases l with
    | nil => simp [Chained]
    | cons b l => simp [Chained, List.chain'_cons, ih]

theorem chained_reverse {l : List Point} (h : Chained l) : Chained l.reverse := by
  rw [chained_iff_chain', List.chain'_reverse]
  have h' := (chained_iff_chain' l).mp h
  exact h'.imp (fun _ _ hab => adjacent_symm hab)

theorem chained_getElem? {l : List Point} (h : Chained l) {i : Nat} {a b : Point}
    (ha : l[i]? = some a) (hb : l[i + 1]? = some b) : Adjacent a b := by
  induction l generalizing i with
  | nil => simp at ha
  | cons x l ih =>
    cases l with
    | nil => simp at hb
    | cons y l =>
      cases i with
      | zero =>
        simp only [List.getElem?_cons_zero, List.getElem?_cons_succ, Option.some.injEq] at ha hb
        subst ha
        subst hb
        exact h.1
      | succ i =>
        rw [List.getElem?_cons_succ] at ha hb
        exact ih h.2 ha hb

theorem cells_ne_nil (n : Node) : n.cells ≠ [] := by
  cases n <;> simp [Node.cells]

theorem cells_head? (n : Node) : n.cells.head? = some n.point := by
  cases n <;> simp [Node.cells, Node.point]

theorem cells_getElem?_zero (n : Node) : n.cells[0]? = some n.point := by
  cases n <;> simp [Node.cells, Node.point]

theorem NodeOK.cells_getLast? {map : Grid} {start end_ : Point} {n : Node}
    (h : NodeOK map start end_ n) : n.cells.getLast? = some start := by
  induction n with
  | root p g hh f => simp [Node.cells, h.1]
  | child p g hh f q ih =>
    have hq := ih h.2.2.2.2.2.1
    obtain ⟨c, cs, hcs⟩ := List.exists_cons_of_ne_nil (cells_ne_nil q)
    simp only [Node.cells]
    rw [hcs] at hq ⊢
    rw [List.getLast?_cons_cons]
    exact hq

theorem NodeOK.cells_length {map : Grid} {start end_ : Point} {n : Node}
    (h : NodeOK map start end_ n) : (n.cells.length : Int) = n.g_cost + 1 := by
  induction n with
  | root p g hh f => simp [Node.cells, Node.g_cost, h.2.1]
  | child p g hh f q ih =>
    have hq := ih h.2.2.2.2.2.1
    simp only [Node.cells, Node.g_cost, List.length_cons, Nat.cast_add, Nat.cast_one]
    rw [hq, h.2.2.1]

theorem NodeOK.cells_chained {map : Grid} {start end_ : Point} {n : Node}
    (h : NodeOK map start end_ n) : Chained n.cells := by
  induction n with
  | root p g hh f => simp [Node.cells, Chained]
  | child p g hh f q ih =>
    have hq := ih h.2.2.2.2.2.1
    have hadj : Adjacent p q.point := adjacent_symm h.2.2.2.1
    cases q with
    | root p' _ _ _ => exact ⟨hadj, trivial⟩
    | child p' _ _ _ q' => exact ⟨hadj, hq⟩

theorem NodeOK.cells_traversable {map : Grid} {start end_ : Point} {n : Node}
    (h : NodeOK map start end_ n) : ∀ p ∈ n.cells, p = start ∨ Traversable map p := by
  induction n with
  | root p g hh f =>
    intro p' hp'
    left
    simpa [Node.cells, h.1] using hp'
  | child p g hh f q ih =>
    intro p' hp'
    rcases List.mem_cons.mp hp' with rfl | hp'
    · exact Or.inr h.2.2.2.2.1
    · exact ih h.2.2.2.2.2.1 p' hp'

theorem NodeOK.cells_reach {map : Grid} {start end_ : Point} {n : Node}
    (h : NodeOK map start end_ n) : ∀ p ∈ n.cells, ∃ k, Reach map start p k ∧ k ≤ n.g_cost := by
  induction n with
  | root p g hh f =>
    intro p' hp'
    have : p' = p := by simpa [Node.cells] using hp'
    subst this
    exact ⟨_, (NodeOK.reach h), le_refl _⟩
  | child p g hh f q ih =>
    intro p' hp'
    rcases List.mem_cons.mp hp' with rfl | hp'
    · exact ⟨_, (NodeOK.reach h), le_refl _⟩
    · obtain ⟨k, hk, hle⟩ := ih h.2.2.2.2.2.1 p' hp'
      refine ⟨k, hk, ?_⟩
      have h2 : g = q.g_cost + 1 := h.2.2.1
      show k ≤ g
      omega

theorem NodeOK.cells_nodup {map : Grid} {start end_ : Point} {n : Node}
    (h : NodeOK map start end_ n) (hs : Shortest map start n) : n.cells.Nodup := by
  induction n with
  | root p g hh f => simp [Node.cells]
  | child p g hh f q ih =>
    simp only [Node.cells, List.nodup_cons]
    refine ⟨?_, ih h.2.2.2.2.2.1 h.2.2.2.2.2.2⟩
    intro hmem
    obtain ⟨k, hk, hle⟩ := NodeOK.cells_reach h.2.2.2.2.2.1 p hmem
    have h1 : g ≤ k := hs k hk
    have h2 : g = q.g_cost + 1 := h.2.2.1
    omega

theorem NodeOK.cells_inBounds {map : Grid} {start end_ : Point} {n : Node}
    (hm : WellSized map) (hst : InBounds start) (h : NodeOK map start end_ n) :
    ∀ p ∈ n.cells, InBounds p := by
  intro p hp
  rcases NodeOK.cells_traversable h p hp with rfl | hp
  · exact hst
  · exact traversable_inBounds hm hp

theorem cell_set2? {map map' : Grid} {q : Point} {w : Int}
    (h : set2? map q.y q.x w = some map') (p : Point) :
    cell map' p = if p = q then some w else cell map p := by
  unfold cell
  rw [get2?_set2? h]
  by_cases hp : p.y = q.y ∧ p.x = q.x
  · rw [if_pos hp, if_pos ((point_eq_iff p q).mp hp)]
  · rw [if_neg hp, if_neg (fun h => hp ((point_eq_iff p q).mpr h))]

/-- The path display loop succeeds on a chain of in-range cells: cells off
the chain keep their value, and when the chain does not repeat a cell the
cell at position `i` of the chain holds `stp + i`. -/
theorem annotate_spec : ∀ (n : Node) (map : Grid) (stp : Int), WellSized map →
    (∀ p ∈ n.cells, InBounds p) →
    ∃ map', annotate map n stp = some map' ∧ WellSized map' ∧
      (∀ p, p ∉ n.cells → cell map' p = cell map p) ∧
      (n.cells.Nodup → ∀ (i : Nat) (p : Point), n.cells[i]? = some p →
        cell map' p = some (stp + i)) := by
  intro n
  induction n with
  | root q g hh f =>
    intro map stp hm hb
    have hq : InBounds q := hb q (by simp [Node.cells])
    obtain ⟨v, hv⟩ := get2?_of_range hm hq.1 hq.2.1 hq.2.2.1 hq.2.2.2
    obtain ⟨map', hset⟩ := set2?_of_get2? stp hv
    refine ⟨map', hset, set2?_wellSized hm hset, ?_, ?_⟩
    · intro p hp
      rw [cell_set2? hset, if_neg]
      simpa [Node.cells] using hp
    · intro _ i p hi
      cases i with
      | zero =>
        simp only [Node.cells, List.getElem?_cons_zero, Option.some.injEq] at hi
        subst hi
        rw [cell_set2? hset, if_pos rfl]
        simp
      | succ i => simp [Node.cells] at hi
  | child q g hh f par ih =>
    intro map stp hm hb
    have hq : InBounds q := hb q (by simp [Node.cells])
    obtain ⟨v, hv⟩ := get2?_of_range hm hq.1 hq.2.1 hq.2.2.1 hq.2.2.2
    obtain ⟨map1, hset⟩ := set2?_of_get2? stp hv
    obtain ⟨map', han, hsz, hoff, hon⟩ := ih map1 (stp + 1) (set2?_wellSized hm hset)
      (fun p hp => hb p (List.mem_cons_of_mem _ hp))
    refine ⟨map', by simp only [annotate, hset, han], hsz, ?_, ?_⟩
    · intro p hp
      simp only [Node.cells, List.mem_cons, not_or] at hp
      rw [hoff p hp.2, cell_set2? hset, if_neg hp.1]
    · intro hnd i p hi
      simp only [Node.cells, List.nodup_cons] at hnd
      cases i with
      | zero =>
        simp only [Node.cells, List.getElem?_cons_zero, Option.some.injEq] at hi
        subst hi
        rw [hoff _ hnd.1, cell_set2? hset, if_pos rfl]
        simp
      | succ i =>
        simp only [Node.cells, List.getElem?_cons_succ] at hi
        rw [hon hnd.2 i p hi]
        congr 1
        push_cast
        ring

theorem reach_of_chained {map : Grid} {start : Point} :
    ∀ (path : List Point) (c : Point) (k : Int), Reach map start c k → Chained (c :: path) →
      (∀ p ∈ path, Traversable map p) → ∀ g, (c :: path).getLast? = some g →
      Reach map start g (k + path.length) := by
  intro path
  induction path with
  | nil =>
    intro c k hr _ _ g hg
    simp only [List.getLast?_singleton, Option.some.injEq] at hg
    subst hg
    simpa using hr
  | cons b path ih =>
    intro c k hr hch htr g hg
    rw [List.getLast?_cons_cons] at hg
    have := ih b (k + 1) (Reach.move hr hch.1 (htr b (List.mem_cons_self _ _))) hch.2
      (fun p hp => htr p (List.mem_cons_of_mem _ hp)) g hg
    have heq : k + 1 + (path.length : Int) = k + ((b :: path).length : Int) := by
      push_cast [List.length_cons]
      ring
    rw [← heq]
    exact this

theorem route_reach {map : Grid} {start goal : Point} {path : List Point}
    (h : Route map start goal path) : Reach map start goal ((path.length : Int) - 1) := by
  obtain ⟨hhead, hlast, hch, htr⟩ := h
  cases path with
  | nil => simp at hhead
  | cons c path =>
    simp only [List.head?_cons, Option.some.injEq] at hhead
    subst hhead
    have := reach_of_chained path c 0 Reach.base hch
      (fun p hp => htr p (List.mem_cons_of_mem _ hp)) goal hlast
    have heq : ((c :: path).length : Int) - 1 = 0 + (path.length : Int) := by
      push_cast [List.length_cons]
      ring
    rw [heq]
    exact this

theorem chain_route {map : Grid} {start end_ : Point} {n : Node}
    (h : NodeOK map start end_ n) (hst : Traversable map start) :
    Route map start n.point n.cells.reverse := by
  refine ⟨?_, ?_, chained_reverse h.cells_chained, ?_⟩
  · rw [List.head?_reverse]
    exact h.cells_getLast?
  · rw [List.getLast?_reverse]
    exact cells_head? n
  · intro p hp
    rcases h.cells_traversable p (List.mem_reverse.mp hp) with rfl | hp
    · exact hst
    · exact hp

theorem fresh_cell {map : Grid} (hf : Fresh map) {p : Point} {v : Int}
    (h : cell map p = some v) : v = EMPTY ∨ v = OBSTACLE := by
  obtain ⟨_, _, row, hrow, hv⟩ := get2?_eq_some.mp h
  obtain ⟨h1, h1'⟩ := List.getElem?_eq_some.mp hrow
  obtain ⟨h2, h2'⟩ := List.getElem?_eq_some.mp hv
  exact hf row (h1' ▸ List.getElem_mem h1) v (h2' ▸ List.getElem_mem h2)

theorem start_traversable {map : Grid} {start : Point} (hm : WellSized map) (hf : Fresh map)
    (hs : InBounds start) (hso : cell map start ≠ some OBSTACLE) : Traversable map start := by
  obtain ⟨v, hv⟩ := get2?_of_range hm hs.1 hs.2.1 hs.2.2.1 hs.2.2.2
  rcases fresh_cell hf hv with rfl | rfl
  · exact hv
  · exact absurd hv hso

/-- A search that ends within `fuel` iterations ends with the same result
within any larger number of iterations. -/
theorem search_fuel_mono (pol : Policy) (map : Grid) (end_ : Point) :
    ∀ (fuel : Nat) (s : State) (r : Option Node), search pol map end_ fuel s = some r →
      ∀ k, search pol map end_ (fuel + k) s = some r := by
  intro fuel
  induction fuel with
  | zero =>
    intro s r h
    simp [search] at h
  | succ fuel ih =>
    intro s r h k
    have hk : fuel + 1 + k = (fuel + k) + 1 := by omega
    rw [hk]
    simp only [search] at h ⊢
    cases hstep : step pol map end_ s with
    | fault => simp [hstep] at h
    | exhausted => simpa [hstep] using h
    | found n => simpa [hstep] using h
    | next s' =>
      simp only [hstep] at h ⊢
      exact ih s' r h k

/-- The fuel that `find_path` supplies is enough: on a grid of the right size
with the start in range, any larger fuel gives the same terminal node. -/
theorem find_terminal_fuel (pol : Policy) {map : Grid} {start : Point} (end_ : Point)
    (hm : WellSized map) (hs : InBounds start) (fuel : Nat) (hfuel : searchFuel ≤ fuel) :
    search pol map end_ fuel (initState start end_) = find_terminal pol map start end_ := by
  obtain ⟨k, rfl⟩ := Nat.exists_eq_add_of_le hfuel
  rcases find_terminal_spec pol end_ hm hs with ⟨n, ht, _⟩ | ⟨ht, _⟩
  · rw [ht]
    exact search_fuel_mono pol map end_ searchFuel _ _ ht k
  · rw [ht]
    exact search_fuel_mono pol map end_ searchFuel _ _ ht k

/-- Whenever the model of `find_path` returns, it returns `false` with the
map it was given or `true` with the map annotated along the chain of the
terminal node. -/
theorem find_path_cases (pol : Policy) (map : Grid) (start end_ : Point) {b : Bool}
    {map' : Grid} (h : find_path pol map start end_ = some (b, map')) :
    (b = false ∧ map' = map ∧ find_terminal pol map start end_ = some none) ∨
    (b = true ∧ ∃ n, find_terminal pol map start end_ = some (some n) ∧
      annotate map n 1 = some map') := by
  unfold find_path at h
  split at h
  · cases h
  · simp only [Option.some.injEq, Prod.mk.injEq] at h
    rename_i ht
    exact Or.inl ⟨h.1.symm, h.2.symm, ht⟩
  · rename_i n ht
    split at h
    · cases h
    · rename_i m hm
      simp only [Option.some.injEq, Prod.mk.injEq] at h
      exact Or.inr ⟨h.1.symm, n, ht, h.2 ▸ hm⟩

/-- Total correctness of the model of `find_path` on a grid of the right
size with the start in range: it never faults or runs out of fuel. -/
theorem find_path_spec (pol : Policy) {map : Grid} {start : Point} (end_ : Point)
    (hm : WellSized map) (hs : InBounds start) :
    (find_path pol map start end_ = some (false, map) ∧
      find_terminal pol map start end_ = some none ∧ ∀ k, ¬ Reach map start end_ k) ∨
    (∃ n map', find_path pol map start end_ = some (true, map') ∧
      find_terminal pol map start end_ = some (some n) ∧ NodeOK map start end_ n ∧
      Shortest map start n ∧ n.point = end_ ∧ WellSized map' ∧
      (∀ p, p ∉ n.cells → cell map' p = cell map p) ∧
      (∀ (i : Nat) (p : Point), n.cells[i]? = some p → cell map' p = some (1 + (i : Int)))) := by
  rcases find_terminal_spec pol end_ hm hs with ⟨n, ht, hok, hsh, hp⟩ | ⟨ht, hun⟩
  · right
    obtain ⟨map', han, hsz, hoff, hon⟩ :=
      annotate_spec n map 1 hm (hok.cells_inBounds hm hs)
    exact ⟨n, map', by simp [find_path, ht, han], ht, hok, hsh, hp, hsz, hoff,
      hon (hok.cells_nodup hsh)⟩
  · left
    exact ⟨by simp [find_path, ht], ht, hun⟩

/-- Structure of a successful call on a grid of the right size. -/
theorem find_path_true_spec (pol : Policy) {map map' : Grid} {start end_ : Point}
    (hm : WellSized map) (hs : InBounds start)
    (h : find_path pol map start end_ = some (true, map')) :
    ∃ n, find_terminal pol map start end_ = some (some n) ∧ NodeOK map start end_ n ∧
      Shortest map start n ∧ n.point = end_ ∧ WellSized map' ∧
      (∀ p, p ∉ n.cells → cell map' p = cell map p) ∧
      (∀ (i : Nat) (p : Point), n.cells[i]? = some p → cell map' p = some (1 + (i : Int))) := by
  rcases find_path_spec pol end_ hm hs with ⟨hf, _⟩ | ⟨n, m, hf, rest⟩
  · rw [hf] at h
    cases h
  · rw [hf] at h
    simp only [Option.some.injEq, Prod.mk.injEq, true_and] at h
    subst h
    exact ⟨n, rest⟩

theorem cells_last_index {map : Grid} {start end_ : Point} {n : Node}
    (h : NodeOK map start end_ n) : n.cells[n.cells.length - 1]? = some start := by
  rw [← List.getLast?_eq_getElem?]
  exact h.cells_getLast?

theorem heuristic_reach {map : Grid} {a c : Point} {k : Int} (h : Reach map a c k) :
    calculate_heuristic a c ≤ k := by
  induction h with
  | base => rw [heuristic_self]
  | @move c c' n _ hadj _ ih =>
    have : calculate_heuristic a c' ≤ 1 + calculate_heuristic a c := by
      unfold calculate_heuristic
      unfold Adjacent at hadj
      have h1 := abs_cases (a.y - c.y)
      have h2 := abs_cases (a.x - c.x)
      have h3 := abs_cases (a.y - c'.y)
      have h4 := abs_cases (a.x - c'.x)
      omega
    omega

/-- C1 (optimality): on a grid of EMPTY and OBSTACLE cells, with the start in
range and not an obstacle and the goal in range and reachable from the start
over traversable cells, `find_path` returns `true`, and the ordinal `L` it
writes on the start cell is the number of cells of a shortest route: some
route has `L` cells and no route has fewer. -/
theorem find_path_optimal (pol : Policy) (map : Grid) (start end_ : Point)
    (hm : WellSized map) (hf : Fresh map) (hs : InBounds start)
    (hso : cell map start ≠ some OBSTACLE) (_hg : InBounds end_)
    (hreach : ∃ path, Route map start end_ path) :
    ∃ map' L, find_path pol map start end_ = some (true, map') ∧
      cell map' start = some L ∧
      (∃ path, Route map start end_ path ∧ (path.length : Int) = L) ∧
      ∀ path, Route map start end_ path → L ≤ (path.length : Int) := by
  obtain ⟨path0, hroute0⟩ := hreach
  rcases find_path_spec pol end_ hm hs with ⟨_, _, hun⟩ | ⟨n, map', hfp, _, hok, hsh, hp, _, _, hon⟩
  · exact absurd (route_reach hroute0) (hun _)
  · have hlen := hok.cells_length
    have hpos : 0 < n.cells.length := List.length_pos.mpr (cells_ne_nil n)
    refine ⟨map', (n.cells.length : Int), hfp, ?_, ?_, ?_⟩
    · rw [hon _ start (cells_last_index hok)]
      congr 1
      omega
    · refine ⟨n.cells.reverse, ?_, by simp⟩
      rw [← hp]
      exact chain_route hok (start_traversable hm hf hs hso)
    · intro path hroute
      have h1 := route_reach hroute
      rw [← hp] at h1
      have h2 := hsh _ h1
      omega

/-- Witness of C1: the obstacle-free grid, start `(0,0)`, goal `(0,4)`. -/
theorem find_path_optimal_witness :
    ∃ map' L, find_path oldestFirst emptyMap ⟨0, 0⟩ ⟨0, 4⟩ = some (true, map') ∧
      cell map' ⟨0, 0⟩ = some L ∧
      (∃ path, Route emptyMap ⟨0, 0⟩ ⟨0, 4⟩ path ∧ (path.length : Int) = L) ∧
      ∀ path, Route emptyMap ⟨0, 0⟩ ⟨0, 4⟩ path → L ≤ (path.length : Int) :=
  find_path_optimal oldestFirst emptyMap ⟨0, 0⟩ ⟨0, 4⟩ (by decide) (by decide) (by decide)
    (by decide) (by decide) ⟨[⟨0, 0⟩, ⟨0, 1⟩, ⟨0, 2⟩, ⟨0, 3⟩, ⟨0, 4⟩], by decide⟩

/-- C2 (completeness): on a grid of EMPTY and OBSTACLE cells, with the start
in range and not an obstacle and the goal in range, `find_path` returns, and
it returns `false` exactly when no route over traversable cells connects the
start to the goal. -/
theorem find_path_complete (pol : Policy) (map : Grid) (start end_ : Point)
    (hm : WellSized map) (hf : Fresh map) (hs : InBounds start)
    (hso : cell map start ≠ some OBSTACLE) (_hg : InBounds end_) :
    ∃ b map', find_path pol map start end_ = some (b, map') ∧
      (b = false ↔ ¬ ∃ path, Route map start end_ path) := by
  rcases find_path_spec pol end_ hm hs with ⟨hfp, _, hun⟩ | ⟨n, map', hfp, _, hok, _, hp, _⟩
  · refine ⟨false, map, hfp, ?_⟩
    simp only [true_iff]
    rintro ⟨path, hroute⟩
    exact hun _ (route_reach hroute)
  · refine ⟨true, map', hfp, ?_⟩
    simp only [Bool.true_eq_false, false_iff, not_not]
    refine ⟨n.cells.reverse, ?_⟩
    rw [← hp]
    exact chain_route hok (start_traversable hm hf hs hso)

/-- Witness of C2: the start `(0,0)` walled in, goal `(5,5)`. -/
theorem find_path_complete_witness :
    ∃ b map', find_path oldestFirst walledMap ⟨0, 0⟩ ⟨5, 5⟩ = some (b, map') ∧
      (b = false ↔ ¬ ∃ path, Route walledMap ⟨0, 0⟩ ⟨5, 5⟩ path) :=
  find_path_complete oldestFirst walledMap ⟨0, 0⟩ ⟨5, 5⟩ (by decide) (by decide) (by decide)
    (by decide) (by decide)

theorem on_chain_of_nonneg {map map' : Grid} {cs : List Point} (hf : Fresh map)
    (hoff : ∀ p, p ∉ cs → cell map' p = cell map p) {p : Point} {v : Int}
    (hv : cell map' p = some v) (h0 : 0 ≤ v) : p ∈ cs := by
  by_contra hp
  rw [hoff p hp] at hv
  have hE : EMPTY = -1 := rfl
  have hO : OBSTACLE = -2 := rfl
  rcases fresh_cell hf hv with h | h <;> omega

theorem index_of_ordinal {map' : Grid} {cs : List Point}
    (hon : ∀ (i : Nat) (p : Point), cs[i]? = some p → cell map' p = some (1 + (i : Int)))
    {p : Point} {v : Int} (hp : p ∈ cs) (hv : cell map' p = some v) :
    ∃ i : Nat, cs[i]? = some p ∧ v = 1 + (i : Int) ∧ i < cs.length := by
  obtain ⟨i, hi⟩ := List.mem_iff_getElem?.mp hp
  have := hon i p hi
  rw [hv] at this
  exact ⟨i, hi, Option.some.inj this, (List.getElem?_eq_some.mp hi).1⟩

/-- C3 (numbering direction): when `find_path` returns `true` on a grid of
EMPTY and OBSTACLE cells with the start in range and not an obstacle, the goal
cell holds ordinal 1 and the start cell holds `L`, which is the highest value
in the grid and the number of annotated cells. -/
theorem find_path_numbering (pol : Policy) (map map' : Grid) (start end_ : Point)
    (hm : WellSized map) (hf : Fresh map) (hs : InBounds start)
    (_hso : cell map start ≠ some OBSTACLE)
    (h : find_path pol map start end_ = some (true, map')) :
    cell map' end_ = some 1 ∧
      ∃ L, cell map' start = some L ∧ (∀ p v, cell map' p = some v → v ≤ L) ∧
        ((annotatedCells map').ncard : Int) = L := by
  obtain ⟨n, _, hok, hsh, hp, _, hoff, hon⟩ := find_path_true_spec pol hm hs h
  have hpos : 0 < n.cells.length := List.length_pos.mpr (cells_ne_nil n)
  refine ⟨?_, (n.cells.length : Int), ?_, ?_, ?_⟩
  · have := hon 0 end_ (hp ▸ cells_getElem?_zero n)
    simpa using this
  · rw [hon _ start (cells_last_index hok)]
    congr 1
    omega
  · intro p v hv
    by_cases h0 : 0 ≤ v
    · obtain ⟨i, _, hvi, hlt⟩ := index_of_ordinal hon (on_chain_of_nonneg hf hoff hv h0) hv
      omega
    · omega
  · have hset : annotatedCells map' = ↑(n.cells.toFinset) := by
      ext p
      simp only [annotatedCells, Set.mem_setOf_eq, Finset.mem_coe, List.mem_toFinset]
      constructor
      · rintro ⟨v, hv, h0⟩
        exact on_chain_of_nonneg hf hoff hv (le_of_lt h0)
      · intro hmem
        obtain ⟨i, hi⟩ := List.mem_iff_getElem?.mp hmem
        exact ⟨_, hon i p hi, by omega⟩
    rw [hset, Set.ncard_coe_Finset, List.toFinset_card_of_nodup (hok.cells_nodup hsh)]

/-- Witness of C3: the obstacle-free grid, start `(0,0)`, goal `(0,4)`. -/
theorem find_path_numbering_witness :
    find_path oldestFirst emptyMap ⟨0, 0⟩ ⟨0, 4⟩ = some (true, annotatedMap) ∧
    cell annotatedMap ⟨0, 4⟩ = some 1 ∧
      ∃ L, cell annotatedMap ⟨0, 0⟩ = some L ∧ (∀ p v, cell annotatedMap p = some v → v ≤ L) ∧
        ((annotatedCells annotatedMap).ncard : Int) = L :=
  ⟨by decide, find_path_numbering oldestFirst emptyMap annotatedMap ⟨0, 0⟩ ⟨0, 4⟩ (by decide)
    (by decide) (by decide) (by decide) (by decide)⟩

/-- C4 (annotation integrity): when `find_path` returns `true` on a grid of
EMPTY and OBSTACLE cells with the start in range and not an obstacle, then
with `L` the ordinal on the start cell: the goal holds 1, every ordinal `k`
in `1..L` is held by exactly one cell, no cell holds another non-negative
value, and the cells holding `k` and `k + 1` are 4-directional neighbours. -/
theorem find_path_chain (pol : Policy) (map map' : Grid) (start end_ : Point)
    (hm : WellSized map) (hf : Fresh map) (hs : InBounds start)
    (_hso : cell map start ≠ some OBSTACLE)
    (h : find_path pol map start end_ = some (true, map')) :
    ∃ L, cell map' end_ = some 1 ∧ cell map' start = some L ∧
      (∀ k, 1 ≤ k → k ≤ L → ∃! p, cell map' p = some k) ∧
      (∀ p v, cell map' p = some v → 0 ≤ v → 1 ≤ v ∧ v ≤ L) ∧
      (∀ k p q, 1 ≤ k → k < L → cell map' p = some k → cell map' q = some (k + 1) →
        Adjacent p q) := by
  obtain ⟨n, _, hok, hsh, hp, _, hoff, hon⟩ := find_path_true_spec pol hm hs h
  have hpos : 0 < n.cells.length := List.length_pos.mpr (cells_ne_nil n)
  have hidx : ∀ p v, cell map' p = some v → 0 ≤ v →
      ∃ i : Nat, n.cells[i]? = some p ∧ v = 1 + (i : Int) ∧ i < n.cells.length :=
    fun p v hv h0 => index_of_ordinal hon (on_chain_of_nonneg hf hoff hv h0) hv
  refine ⟨(n.cells.length : Int), ?_, ?_, ?_, ?_, ?_⟩
  · have := hon 0 end_ (hp ▸ cells_getElem?_zero n)
    simpa using this
  · rw [hon _ start (cells_last_index hok)]
    congr 1
    omega
  · intro k h1 hk
    have hlt : (k - 1).toNat < n.cells.length := by omega
    refine ⟨n.cells[(k - 1).toNat], ?_, ?_⟩
    · show cell map' _ = some k
      rw [hon _ _ (List.getElem?_eq_getElem hlt)]
      congr 1
      omega
    · intro q hq
      obtain ⟨i, hi, hvi, _⟩ := hidx q k hq (by omega)
      have hik : i = (k - 1).toNat := by omega
      subst hik
      rw [List.getElem?_eq_getElem hlt] at hi
      exact (Option.some.inj hi).symm
  · intro p v hv h0
    obtain ⟨i, _, hvi, hlt⟩ := hidx p v hv h0
    omega
  · intro k p q h1 hk hpk hqk
    obtain ⟨i, hi, hvi, _⟩ := hidx p k hpk (by omega)
    obtain ⟨j, hj, hvj, _⟩ := hidx q (k + 1) hqk (by omega)
    have hji : j = i + 1 := by omega
    subst hji
    exact chained_getElem? hok.cells_chained hi hj

/-- Witness of C4: the obstacle-free grid, start `(0,0)`, goal `(0,4)`. -/
theorem find_path_chain_witness :
    find_path oldestFirst emptyMap ⟨0, 0⟩ ⟨0, 4⟩ = some (true, annotatedMap) ∧
    ∃ L, cell annotatedMap ⟨0, 4⟩ = some 1 ∧ cell annotatedMap ⟨0, 0⟩ = some L ∧
      (∀ k, 1 ≤ k → k ≤ L → ∃! p, cell annotatedMap p = some k) ∧
      (∀ p v, cell annotatedMap p = some v → 0 ≤ v → 1 ≤ v ∧ v ≤ L) ∧
      (∀ k p q, 1 ≤ k → k < L → cell annotatedMap p = some k →
        cell annotatedMap q = some (k + 1) → Adjacent p q) :=
  ⟨by decide, find_path_chain oldestFirst emptyMap annotatedMap ⟨0, 0⟩ ⟨0, 4⟩ (by decide)
    (by decide) (by decide) (by decide) (by decide)⟩

theorem annotate_frame : ∀ (n : Node) (map map' : Grid) (stp : Int),
    annotate map n stp = some map' → ∀ p, p ∉ n.cells → cell map' p = cell map p := by
  intro n
  induction n with
  | root q g hh f =>
    intro map map' stp h p hp
    rw [cell_set2? h, if_neg]
    simpa [Node.cells] using hp
  | child q g hh f par ih =>
    intro map map' stp h p hp
    simp only [annotate] at h
    split at h
    · cases h
    · rename_i map1 hset
      simp only [Node.cells, List.mem_cons, not_or] at hp
      rw [ih map1 map' (stp + 1) h p hp.2, cell_set2? hset, if_neg hp.1]

/-- C5 (frame of a successful search): when `find_path` returns `true`, the
search ended on a terminal node `n`, and every cell that is not on the
predecessor chain of `n` has the value it had before the call; on a grid of
the right size with the start in range that chain runs from the goal to the
start. -/
theorem find_path_frame (pol : Policy) (map map' : Grid) (start end_ : Point)
    (h : find_path pol map start end_ = some (true, map')) :
    ∃ n, find_terminal pol map start end_ = some (some n) ∧
      (∀ p, p ∉ n.cells → cell map' p = cell map p) ∧
      (WellSized map → InBounds start →
        n.cells.head? = some end_ ∧ n.cells.getLast? = some start) := by
  rcases find_path_cases pol map start end_ h with ⟨hb, _⟩ | ⟨_, n, ht, han⟩
  · cases hb
  · refine ⟨n, ht, annotate_frame n map map' 1 han, ?_⟩
    intro hm hs
    obtain ⟨n', ht', hok, _, hp, _⟩ := find_path_true_spec pol hm hs h
    rw [ht] at ht'
    simp only [Option.some.injEq] at ht'
    subst ht'
    exact ⟨hp ▸ cells_head? n, hok.cells_getLast?⟩

/-- Witness of C5: the grid with an obstacle at `(0,1)`, start `(0,0)`, goal `(0,2)`. -/
theorem find_path_frame_witness :
    find_path oldestFirst obstacleMap ⟨0, 0⟩ ⟨0, 2⟩ = some (true, detourMap) ∧
    ∃ n, find_terminal oldestFirst obstacleMap ⟨0, 0⟩ ⟨0, 2⟩ = some (some n) ∧
      (∀ p, p ∉ n.cells → cell detourMap p = cell obstacleMap p) ∧
      n.cells.head? = some ⟨0, 2⟩ ∧ n.cells.getLast? = some ⟨0, 0⟩ := by
  obtain ⟨n, ht, hframe, hchain⟩ :=
    find_path_frame oldestFirst obstacleMap detourMap ⟨0, 0⟩ ⟨0, 2⟩ (by decide)
  exact ⟨by decide, n, ht, hframe, hchain (by decide) (by decide)⟩

/-- C6 (failure leaves the grid untouched): when `find_path` returns `false`,
the grid after the call is the grid before the call. -/
theorem find_path_failure_unchanged (pol : Policy) (map map' : Grid) (start end_ : Point)
    (h : find_path pol map start end_ = some (false, map')) : map' = map := by
  rcases find_path_cases pol map start end_ h with ⟨_, hmap, _⟩ | ⟨hb, _⟩
  · exact hmap
  · cases hb

/-- Witness of C6: the start `(0,0)` walled in, goal `(5,5)`. -/
theorem find_path_failure_unchanged_witness :
    find_path oldestFirst walledMap ⟨0, 0⟩ ⟨5, 5⟩ = some (false, walledMap) ∧
      walledMap = walledMap :=
  ⟨by decide, find_path_failure_unchanged oldestFirst walledMap walledMap ⟨0, 0⟩ ⟨5, 5⟩
    (by decide)⟩

/-- A search whose goal is its start succeeds for every tie-breaking policy:
the chain is the start cell alone, which receives ordinal 1, and every other
cell keeps its value. -/
theorem find_path_self (pol : Policy) (map : Grid) (c : Point) (hm : WellSized map)
    (hc : InBounds c) :
    ∃ map' n, find_path pol map c c = some (true, map') ∧
      find_terminal pol map c c = some (some n) ∧ n.cells = [c] ∧
      cell map' c = some 1 ∧ ∀ p, p ≠ c → cell map' p = cell map p := by
  rcases find_path_spec pol c hm hc with ⟨_, _, hun⟩ | ⟨n, map', hfp, ht, hok, hsh, hp, _, hoff, hon⟩
  · exact absurd Reach.base (hun 0)
  · have hg : n.g_cost ≤ 0 := hsh 0 (hp ▸ Reach.base)
    have hlen := hok.cells_length
    have h0 := reach_nonneg hok.reach
    have hl1 : n.cells.length = 1 := by omega
    have hcells : n.cells = [c] := by
      have h1 := cells_getElem?_zero n
      rw [hp] at h1
      match hn : n.cells, hl1, h1 with
      | [x], _, h1 =>
        simp only [hn, List.getElem?_cons_zero, Option.some.injEq] at h1
        rw [h1]
    refine ⟨map', n, hfp, ht, hcells, ?_, ?_⟩
    · have := hon 0 c (by rw [hcells]; rfl)
      simpa using this
    · intro p hpc
      exact hoff p (by rw [hcells]; simpa using hpc)

/-- C7, as stated, fails: on the grid left by an earlier search, whose cell
`(0,0)` holds ordinal 5, a search with start and goal `(0,0)` satisfies the
preconditions and succeeds for every tie-breaking policy, and the cell
`(0,0)` receives ordinal 1 although it was not Traversable before the call. -/
theorem find_path_obstacles_kept_counterexample :
    find_path oldestFirst emptyMap ⟨0, 0⟩ ⟨0, 4⟩ = some (true, annotatedMap) ∧
    WellSized annotatedMap ∧ InBounds (⟨0, 0⟩ : Point) ∧
    cell annotatedMap ⟨0, 0⟩ ≠ some OBSTACLE ∧ cell annotatedMap ⟨0, 0⟩ = some 5 ∧
    ¬ Traversable annotatedMap ⟨0, 0⟩ ∧
    ∀ pol : Policy, ∃ map' n, find_path pol annotatedMap ⟨0, 0⟩ ⟨0, 0⟩ = some (true, map') ∧
      find_terminal pol annotatedMap ⟨0, 0⟩ ⟨0, 0⟩ = some (some n) ∧
      (⟨0, 0⟩ : Point) ∈ n.cells ∧ cell map' ⟨0, 0⟩ = some 1 := by
  refine ⟨by decide, by decide, by decide, by decide, by decide, by decide, ?_⟩
  intro pol
  obtain ⟨map', n, hfp, ht, hcells, h1, _⟩ :=
    find_path_self pol annotatedMap ⟨0, 0⟩ (by decide) (by decide)
  exact ⟨map', n, hfp, ht, by rw [hcells]; exact List.mem_singleton.mpr rfl, h1⟩

/-- C7 (amended): for every grid of the right size, start in range and not
an obstacle, goal in range, and whatever `find_path` returns: every cell
that was an Obstacle is still an Obstacle; every cell whose value changed,
and every cell of the chain that is annotated, was not an Obstacle: it was
Traversable or it is the start cell. -/
theorem find_path_obstacles_kept (pol : Policy) (map map' : Grid) (start end_ : Point)
    (b : Bool) (hm : WellSized map) (hs : InBounds start)
    (hso : cell map start ≠ some OBSTACLE) (_hg : InBounds end_)
    (h : find_path pol map start end_ = some (b, map')) :
    (∀ p, cell map p = some OBSTACLE → cell map' p = some OBSTACLE) ∧
    (∀ p, cell map' p ≠ cell map p →
      cell map p ≠ some OBSTACLE ∧ (p = start ∨ Traversable map p)) ∧
    (∀ n, find_terminal pol map start end_ = some (some n) → ∀ p ∈ n.cells,
      cell map p ≠ some OBSTACLE ∧ (p = start ∨ Traversable map p)) := by
  have hE : EMPTY ≠ OBSTACLE := by decide
  rcases find_path_spec pol end_ hm hs with ⟨hfp, ht, _⟩ | ⟨n, m, hfp, ht, hok, _, _, _, hoff, _⟩
  · rw [hfp] at h
    simp only [Option.some.injEq, Prod.mk.injEq] at h
    obtain ⟨_, rfl⟩ := h
    refine ⟨fun p hp => hp, fun p hp => absurd rfl hp, ?_⟩
    intro n hn
    rw [ht] at hn
    cases hn
  · rw [hfp] at h
    simp only [Option.some.injEq, Prod.mk.injEq] at h
    obtain ⟨_, rfl⟩ := h
    have hchain : ∀ p ∈ n.cells, cell map p ≠ some OBSTACLE ∧ (p = start ∨ Traversable map p) := by
      intro p hp
      rcases hok.cells_traversable p hp with rfl | htr
      · exact ⟨hso, Or.inl rfl⟩
      · refine ⟨?_, Or.inr htr⟩
        rw [htr]
        intro hc
        exact hE (Option.some.inj hc)
    refine ⟨?_, ?_, ?_⟩
    · intro p hp
      by_cases hmem : p ∈ n.cells
      · exact absurd hp (hchain p hmem).1
      · rw [hoff p hmem]
        exact hp
    · intro p hp
      by_cases hmem : p ∈ n.cells
      · exact hchain p hmem
      · exact absurd (hoff p hmem) hp
    · intro n' hn'
      rw [ht] at hn'
      simp only [Option.some.injEq] at hn'
      subst hn'
      exact hchain

/-- Witness of C7 (amended): the grid with an obstacle at `(0,1)`, start `(0,0)`, goal `(0,2)`. -/
theorem find_path_obstacles_kept_witness :
    find_path oldestFirst obstacleMap ⟨0, 0⟩ ⟨0, 2⟩ = some (true, detourMap) ∧
    (∀ p, cell obstacleMap p = some OBSTACLE → cell detourMap p = some OBSTACLE) ∧
    (∀ p, cell detourMap p ≠ cell obstacleMap p →
      cell obstacleMap p ≠ some OBSTACLE ∧ (p = ⟨0, 0⟩ ∨ Traversable obstacleMap p)) ∧
    (∀ n, find_terminal oldestFirst obstacleMap ⟨0, 0⟩ ⟨0, 2⟩ = some (some n) → ∀ p ∈ n.cells,
      cell obstacleMap p ≠ some OBSTACLE ∧ (p = ⟨0, 0⟩ ∨ Traversable obstacleMap p)) :=
  ⟨by decide, find_path_obstacles_kept oldestFirst obstacleMap detourMap ⟨0, 0⟩ ⟨0, 2⟩ true
    (by decide) (by decide) (by decide) (by decide) (by decide)⟩

/-- C8 (admissibility): `calculate_heuristic a b` is the Manhattan distance
`|a.y - b.y| + |a.x - b.x|`, it is non-negative, and it is at most the number
of moves of every route from `a` to `b` over traversable cells. -/
theorem heuristic_admissible (map : Grid) (a b : Point) :
    calculate_heuristic a b = |a.y - b.y| + |a.x - b.x| ∧ 0 ≤ calculate_heuristic a b ∧
      ∀ path, Route map a b path → calculate_heuristic a b ≤ (path.length : Int) - 1 :=
  ⟨rfl, heuristic_nonneg a b, fun _ hroute => heuristic_reach (route_reach hroute)⟩

/-- Witness of C8: the detour of 4 moves from `(0,0)` to `(0,2)` around the
obstacle at `(0,1)` has at least as many moves as the heuristic value. -/
theorem heuristic_admissible_witness :
    Route obstacleMap ⟨0, 0⟩ ⟨0, 2⟩ detourRoute ∧
      calculate_heuristic ⟨0, 0⟩ ⟨0, 2⟩ ≤ (detourRoute.length : Int) - 1 :=
  ⟨by decide, (heuristic_admissible obstacleMap ⟨0, 0⟩ ⟨0, 2⟩).2.2 detourRoute (by decide)⟩

/-- C9 (consistency): for 4-directional neighbours `a`, `a'` the heuristic to
any goal `b` satisfies `h(a, b) ≤ 1 + h(a', b)`, and `h(b, b) = 0`. -/
theorem heuristic_consistent (a a' b : Point) :
    (Adjacent a a' → calculate_heuristic a b ≤ 1 + calculate_heuristic a' b) ∧
      calculate_heuristic b b = 0 :=
  ⟨fun h => heuristic_step b h, heuristic_self b⟩

/-- Witness of C9: `a = (2,3)`, `a' = (2,4)`, goal `(0,0)`. -/
theorem heuristic_consistent_witness :
    Adjacent ⟨2, 3⟩ ⟨2, 4⟩ ∧
      calculate_heuristic ⟨2, 3⟩ ⟨0, 0⟩ ≤ 1 + calculate_heuristic ⟨2, 4⟩ ⟨0, 0⟩ :=
  ⟨by decide, (heuristic_consistent ⟨2, 3⟩ ⟨2, 4⟩ ⟨0, 0⟩).1 (by decide)⟩

/-- C10 (obstacle goal): for every grid of the right size, start in range
and not an obstacle, and goal in range on an Obstacle cell, the search of
`find_path` ends with an empty frontier and `find_path` returns `false` with
the grid unchanged. -/
theorem find_path_obstacle_goal (pol : Policy) (map : Grid) (start end_ : Point)
    (hm : WellSized map) (hs : InBounds start) (hso : cell map start ≠ some OBSTACLE)
    (_hg : InBounds end_) (hgo : cell map end_ = some OBSTACLE) :
    find_path pol map start end_ = some (false, map) ∧
      find_terminal pol map start end_ = some none := by
  have hE : EMPTY ≠ OBSTACLE := by decide
  rcases find_path_spec pol end_ hm hs with ⟨hfp, ht, _⟩ | ⟨n, m, _, _, hok, _, hp, _⟩
  · exact ⟨hfp, ht⟩
  · exfalso
    rcases hok.cells_traversable n.point (List.mem_of_mem_head? (cells_head? n)) with h | h
    · rw [hp] at h
      exact hso (h ▸ hgo)
    · rw [hp] at h
      unfold Traversable at h
      rw [hgo] at h
      exact hE (Option.some.inj h).symm

/-- Witness of C10: the grid with an obstacle at `(0,1)`, start `(0,0)`, goal `(0,1)`. -/
theorem find_path_obstacle_goal_witness :
    find_path oldestFirst obstacleMap ⟨0, 0⟩ ⟨0, 1⟩ = some (false, obstacleMap) ∧
      find_terminal oldestFirst obstacleMap ⟨0, 0⟩ ⟨0, 1⟩ = some none :=
  find_path_obstacle_goal oldestFirst obstacleMap ⟨0, 0⟩ ⟨0, 1⟩ (by decide) (by decide)
    (by decide) (by decide) (by decide)

/-- C11 (zero-length case): for every grid of the right size and every cell
`c` in range that is traversable, whatever its neighbours hold,
`find_path(grid, c, c)` returns `true`, writes ordinal 1 on `c` and leaves
every other cell unchanged. -/
theorem find_path_zero_length (pol : Policy) (map : Grid) (c : Point) (hm : WellSized map)
    (hc : InBounds c) (_ht : Traversable map c) :
    ∃ map', find_path pol map c c = some (true, map') ∧ cell map' c = some 1 ∧
      ∀ p, p ≠ c → cell map' p = cell map p := by
  obtain ⟨map', _, hfp, _, _, h1, hoff⟩ := find_path_self pol map c hm hc
  exact ⟨map', hfp, h1, hoff⟩

/-- Witnesses of C11: start = goal = `(0,0)` on the obstacle-free grid, and
start = goal = `(2,2)` enclosed by obstacles. -/
theorem find_path_zero_length_witness :
    (∃ map', find_path oldestFirst emptyMap ⟨0, 0⟩ ⟨0, 0⟩ = some (true, map') ∧
      cell map' ⟨0, 0⟩ = some 1 ∧ ∀ p, p ≠ ⟨0, 0⟩ → cell map' p = cell emptyMap p) ∧
    (cell enclosedMap ⟨1, 2⟩ = some OBSTACLE ∧ cell enclosedMap ⟨3, 2⟩ = some OBSTACLE ∧
      cell enclosedMap ⟨2, 1⟩ = some OBSTACLE ∧ cell enclosedMap ⟨2, 3⟩ = some OBSTACLE) ∧
    (∃ map', find_path oldestFirst enclosedMap ⟨2, 2⟩ ⟨2, 2⟩ = some (true, map') ∧
      cell map' ⟨2, 2⟩ = some 1 ∧ ∀ p, p ≠ ⟨2, 2⟩ → cell map' p = cell enclosedMap p) :=
  ⟨find_path_zero_length oldestFirst emptyMap ⟨0, 0⟩ (by decide) (by decide) (by decide),
    by decide,
    find_path_zero_length oldestFirst enclosedMap ⟨2, 2⟩ (by decide) (by decide) (by decide)⟩

theorem reach_above_row {map : Grid} {start : Point} {r : Int}
    (hrow : ∀ x, 0 ≤ x → x < MAP_SIZE → cell map ⟨r, x⟩ = some OBSTACLE) (hs : start.y < r)
    {c : Point} {k : Int} (h : Reach map start c k) (hm : WellSized map) : c.y < r := by
  induction h with
  | base => exact hs
  | @move c c' n _ hadj htr ih =>
    have hb := traversable_inBounds hm htr
    have hne : c'.y ≠ r := by
      intro hy
      have := hrow c'.x hb.2.2.1 hb.2.2.2
      rw [← hy] at this
      unfold Traversable at htr
      rw [show (⟨c'.y, c'.x⟩ : Point) = c' from rfl, htr] at this
      exact absurd (Option.some.inj this) (by decide)
    unfold Adjacent at hadj
    omega

theorem reach_below_row {map : Grid} {start : Point} {r : Int}
    (hrow : ∀ x, 0 ≤ x → x < MAP_SIZE → cell map ⟨r, x⟩ = some OBSTACLE) (hs : r < start.y)
    {c : Point} {k : Int} (h : Reach map start c k) (hm : WellSized map) : r < c.y := by
  induction h with
  | base => exact hs
  | @move c c' n _ hadj htr ih =>
    have hb := traversable_inBounds hm htr
    have hne : c'.y ≠ r := by
      intro hy
      have := hrow c'.x hb.2.2.1 hb.2.2.2
      rw [← hy] at this
      unfold Traversable at htr
      rw [show (⟨c'.y, c'.x⟩ : Point) = c' from rfl, htr] at this
      exact absurd (Option.some.inj this) (by decide)
    unfold Adjacent at hadj
    omega

/-- C14 (blocked row): on a grid of the right size with the start in range,
when every cell of some row `r` lying strictly between the row of the start
and the row of the goal is an Obstacle, `find_path` returns `false` and the
grid is unchanged. -/
theorem find_path_blocked_row (pol : Policy) (map : Grid) (start end_ : Point) (r : Int)
    (hm : WellSized map) (hs : InBounds start)
    (hrow : ∀ x, 0 ≤ x → x < MAP_SIZE → cell map ⟨r, x⟩ = some OBSTACLE)
    (hbetween : (start.y < r ∧ r < end_.y) ∨ (end_.y < r ∧ r < start.y)) :
    find_path pol map start end_ = some (false, map) := by
  rcases find_path_spec pol end_ hm hs with ⟨hfp, _⟩ | ⟨n, m, _, _, hok, _, hp, _⟩
  · exact hfp
  · exfalso
    have hr := hok.reach
    rw [hp] at hr
    rcases hbetween with ⟨h1, h2⟩ | ⟨h1, h2⟩
    · have := reach_above_row hrow h1 hr hm
      omega
    · have := reach_below_row hrow h2 hr hm
      omega

/-- Witness of C14: start `(0,0)`, goal `(4,4)`, row 2 blocked, all other cells traversable. -/
theorem find_path_blocked_row_witness :
    find_path oldestFirst blockedMap ⟨0, 0⟩ ⟨4, 4⟩ = some (false, blockedMap) :=
  find_path_blocked_row oldestFirst blockedMap ⟨0, 0⟩ ⟨4, 4⟩ 2 (by decide) (by decide)
    (by
      intro x h0 h1
      have h10 : MAP_SIZE = 10 := rfl
      have : x = 0 ∨ x = 1 ∨ x = 2 ∨ x = 3 ∨ x = 4 ∨ x = 5 ∨ x = 6 ∨ x = 7 ∨ x = 8 ∨ x = 9 := by
        omega
      rcases this with h | h | h | h | h | h | h | h | h | h <;> subst h <;> decide)
    (by decide)

theorem expand_pushes_empty (map : Grid) (end_ : Point) (vis : List (List Bool))
    (current : Node) :
    ∀ (dirs : List Point) (acc res : List Node),
      expand map end_ vis current dirs acc = some res →
      (∀ m ∈ acc, cell map m.point = some EMPTY) → ∀ m ∈ res, cell map m.point = some EMPTY := by
  intro dirs
  induction dirs with
  | nil =>
    intro acc res h hacc
    simp only [expand, Option.some.injEq] at h
    subst h
    exact hacc
  | cons d dirs ih =>
    intro acc res h hacc
    simp only [expand] at h
    split at h
    · split at h
      · cases h
      · rename_i c hc
        split at h
        · rename_i hce
          split at h
          · cases h
          · rename_i v hv
            split at h
            · refine ih _ res h ?_
              intro m hm
              rcases List.mem_append.mp hm with hm | hm
              · exact hacc m hm
              · rw [List.mem_singleton.mp hm]
                show get2? map _ _ = some EMPTY
                rw [← hce]
                exact hc
            · exact ih acc res h hacc
        · exact ih acc res h hacc
    · exact ih acc res h hacc

/-- C20 (annotated cells block a second search): the neighbour loop pushes
nodes only for cells that hold `EMPTY`; and when `find_path` returned `true`
with the start different from the goal, a second call on the annotated grid
with the same start and goal, under any tie-breaking, returns `false` and
leaves that grid unchanged, while the first call changed the grid. -/
theorem find_path_second_search (pol pol' : Policy) (map map' : Grid) (start end_ : Point)
    (hm : WellSized map) (hs : InBounds start) (hne : start ≠ end_)
    (h : find_path pol map start end_ = some (true, map')) :
    (∀ vis current pushed, expand map' end_ vis current directions [] = some pushed →
      ∀ m ∈ pushed, cell map' m.point = some EMPTY) ∧
    cell map' end_ = some 1 ∧
    find_path pol' map' start end_ = some (false, map') ∧
    find_path pol' map' start end_ ≠ find_path pol map start end_ := by
  obtain ⟨n, _, hok, _, hp, hm', _, hon⟩ := find_path_true_spec pol hm hs h
  have hgoal : cell map' end_ = some 1 := by
    have := hon 0 end_ (hp ▸ cells_getElem?_zero n)
    simpa using this
  have hsecond : find_path pol' map' start end_ = some (false, map') := by
    rcases find_path_spec pol' end_ hm' hs with ⟨hfp, _⟩ | ⟨n', m, _, _, hok', _, hp', _⟩
    · exact hfp
    · exfalso
      rcases hok'.cells_traversable n'.point (List.mem_of_mem_head? (cells_head? n')) with h1 | h1
      · exact hne (hp' ▸ h1).symm
      · rw [hp'] at h1
        unfold Traversable at h1
        rw [hgoal] at h1
        exact absurd (Option.some.inj h1) (by decide)
  refine ⟨?_, hgoal, hsecond, ?_⟩
  · intro vis current pushed hex
    exact expand_pushes_empty map' end_ vis current directions [] pushed hex (by simp)
  · rw [hsecond, h]
    simp

/-- Witness of C20: the obstacle-free grid, start `(0,0)`, goal `(0,4)`, then the same
search on the annotated grid. -/
theorem find_path_second_search_witness :
    find_path oldestFirst emptyMap ⟨0, 0⟩ ⟨0, 4⟩ = some (true, annotatedMap) ∧
    find_path oldestFirst annotatedMap ⟨0, 0⟩ ⟨0, 4⟩ = some (false, annotatedMap) :=
  ⟨by decide, (find_path_second_search oldestFirst oldestFirst emptyMap annotatedMap ⟨0, 0⟩
    ⟨0, 4⟩ (by decide) (by decide) (by decide) (by decide)).2.2.1⟩

theorem stateAfter_succ {pol : Policy} {map : Grid} {start end_ : Point} {k : Nat} {s' : State}
    (h : stateAfter pol map start end_ (k + 1) = some s') :
    ∃ s, stateAfter pol map start end_ k = some s ∧ step pol map end_ s = .next s' := by
  simp only [stateAfter] at h
  split at h
  · cases h
  · rename_i s hs
    split at h
    · rename_i s'' hstep
      simp only [Option.some.injEq] at h
      subst h
      exact ⟨s, hs, hstep⟩
    · cases h

/-- Every state of a run satisfies the loop invariant. -/
theorem stateAfter_inv (pol : Policy) {map : Grid} {start : Point} (end_ : Point)
    (hm : WellSized map) (hs : InBounds start) :
    ∀ (k : Nat) (s : State), stateAfter pol map start end_ k = some s →
      Inv map start end_ s := by
  intro k
  induction k with
  | zero =>
    intro s h
    simp only [stateAfter, Option.some.injEq] at h
    subst h
    exact initState_inv map start end_
  | succ k ih =>
    intro s' h
    obtain ⟨s, hs', hstep⟩ := stateAfter_succ h
    rcases step_spec pol hm hs (ih s hs') with ⟨h1, _⟩ | ⟨n, h1, _⟩ | ⟨s'', h1, hinv, _⟩
    · rw [h1] at hstep
      cases hstep
    · rw [h1] at hstep
      cases hstep
    · rw [h1] at hstep
      simp only [Step.next.injEq] at hstep
      subst hstep
      exact hinv

/-- The states `stateAfter` are the states the loop of `find_path` goes
through: after `k` iterations the search continues from `stateAfter k`. -/
theorem search_stateAfter (pol : Policy) (map : Grid) (start end_ : Point) :
    ∀ (k : Nat) (s : State), stateAfter pol map start end_ k = some s →
      ∀ fuel, search pol map end_ (k + fuel) (initState start end_) =
        search pol map end_ fuel s := by
  intro k
  induction k with
  | zero =>
    intro s h fuel
    simp only [stateAfter, Option.some.injEq] at h
    subst h
    rw [Nat.zero_add]
  | succ k ih =>
    intro s' h fuel
    obtain ⟨s, hs, hstep⟩ := stateAfter_succ h
    have hk : k + 1 + fuel = k + (fuel + 1) := by omega
    rw [hk, ih s hs (fuel + 1)]
    simp only [search, hstep]

/-- C15 (finalized cost is the shortest distance): at every iteration of a
run of `find_path` on a grid of EMPTY and OBSTACLE cells (start in range and
not an obstacle, goal in range), the popped node `n` has its cell in range;
when the cell is not yet visited, `n.g_cost` is the minimum number of moves of
a route from the start to that cell (some route has `g_cost + 1` cells, none
has fewer) and the iteration marks the cell (it ends the search on `n` or
continues with the cell visited); when the cell is already visited the
iteration only discards the node. -/
theorem finalized_cost_shortest (pol : Policy) (map : Grid) (start end_ : Point)
    (hm : WellSized map) (hf : Fresh map) (hs : InBounds start)
    (hso : cell map start ≠ some OBSTACLE) (_hg : InBounds end_)
    (k : Nat) (s : State) (n : Node) (rest : List Node)
    (hrun : stateAfter pol map start end_ k = some s)
    (hpop : pop pol s.open_list = some (n, rest)) :
    (∃ v, get2? s.visited n.point.y n.point.x = some v) ∧
    (get2? s.visited n.point.y n.point.x = some false →
      (∃ path, Route map start n.point path ∧ (path.length : Int) = n.g_cost + 1) ∧
      (∀ path, Route map start n.point path → n.g_cost + 1 ≤ (path.length : Int)) ∧
      (step pol map end_ s = .found n ∨
        ∃ s', step pol map end_ s = .next s' ∧ Visited s'.visited n.point)) ∧
    (get2? s.visited n.point.y n.point.x = some true →
      step pol map end_ s = .next { s with open_list := rest }) := by
  have hinv := stateAfter_inv pol end_ hm hs k s hrun
  obtain ⟨hn, _, _, _, _⟩ := pop_spec hpop
  have hok := hinv.open_ok n hn
  have hb : InBounds n.point := hok.inBounds hm hs
  refine ⟨get2?_of_range hinv.vis_sized hb.1 hb.2.1 hb.2.2.1 hb.2.2.2, ?_, ?_⟩
  · intro hv
    have hnotv : ¬ Visited s.visited n.point := by
      unfold Visited
      rw [hv]
      simp
    have hsh := pop_shortest hinv hpop hnotv
    refine ⟨⟨n.cells.reverse, chain_route hok (start_traversable hm hf hs hso), ?_⟩, ?_, ?_⟩
    · rw [List.length_reverse]
      exact hok.cells_length
    · intro path hroute
      have := hsh _ (route_reach hroute)
      omega
    · obtain ⟨vis, hset⟩ := set2?_of_get2? true hv
      by_cases hgoal : n.point.y = end_.y ∧ n.point.x = end_.x
      · left
        simp only [step, hpop, hv, hset]
        simp [hgoal]
      · right
        obtain ⟨pushed, he, _⟩ :=
          expand_spec end_ n hm (set2?_wellSized hinv.vis_sized hset) directions []
        rw [List.nil_append] at he
        refine ⟨{ open_list := rest ++ pushed, visited := vis, heap := s.heap ++ pushed },
          by simp only [step, hpop, hv, hset]; simp [hgoal, he], ?_⟩
        exact (visited_set2? hset n.point).mpr (Or.inl rfl)
  · intro hv
    simp [step, hpop, hv]

/-- Witness of C15: the second iteration of the search from `(0,0)` to `(0,4)` on the
obstacle-free grid. -/
theorem finalized_cost_shortest_witness :
    stateAfter oldestFirst emptyMap ⟨0, 0⟩ ⟨0, 4⟩ 1 = some demoState ∧
    pop oldestFirst demoState.open_list = some (demoTop, demoRest) ∧
    demoTop.point = ⟨0, 1⟩ ∧ demoTop.g_cost = 1 ∧
    (∃ v, get2? demoState.visited demoTop.point.y demoTop.point.x = some v) ∧
    (get2? demoState.visited demoTop.point.y demoTop.point.x = some false →
      (∃ path, Route emptyMap ⟨0, 0⟩ demoTop.point path ∧
        (path.length : Int) = demoTop.g_cost + 1) ∧
      (∀ path, Route emptyMap ⟨0, 0⟩ demoTop.point path →
        demoTop.g_cost + 1 ≤ (path.length : Int)) ∧
      (step oldestFirst emptyMap ⟨0, 4⟩ demoState = .found demoTop ∨
        ∃ s', step oldestFirst emptyMap ⟨0, 4⟩ demoState = .next s' ∧
          Visited s'.visited demoTop.point)) ∧
    (get2? demoState.visited demoTop.point.y demoTop.point.x = some true →
      step oldestFirst emptyMap ⟨0, 4⟩ demoState =
        .next { demoState with open_list := demoRest }) :=
  ⟨by decide, by decide, by decide, by decide,
    finalized_cost_shortest oldestFirst emptyMap ⟨0, 0⟩ ⟨0, 4⟩ (by decide) (by decide)
      (by decide) (by decide) (by decide) 1 demoState demoTop demoRest (by decide) (by decide)⟩

theorem expand_sublist {map : Grid} {vis : List (List Bool)} (end_ : Point) (current : Node)
    (hm : WellSized map) (hv : WellSized vis) :
    ∀ (dirs : List Point) (acc : List Node),
      ∃ ds : List Point, ds.Sublist dirs ∧ (∀ d ∈ ds, Pushable map vis current d) ∧
        expand map end_ vis current dirs acc =
          some (acc ++ ds.map (neighbour_node end_ current)) := by
  intro dirs
  induction dirs with
  | nil =>
    intro acc
    exact ⟨[], List.Sublist.refl _, by simp, by simp [expand]⟩
  | cons d dirs ih =>
    intro acc
    have skip : expand map end_ vis current (d :: dirs) acc =
        expand map end_ vis current dirs acc →
        ∃ ds : List Point, ds.Sublist (d :: dirs) ∧ (∀ d' ∈ ds, Pushable map vis current d') ∧
          expand map end_ vis current (d :: dirs) acc =
            some (acc ++ ds.map (neighbour_node end_ current)) := by
      intro heq
      obtain ⟨ds, h1, h2, h3⟩ := ih acc
      exact ⟨ds, List.Sublist.cons _ h1, h2, by rw [heq, h3]⟩
    by_cases hb : 0 ≤ current.point.y + d.y ∧ current.point.y + d.y < MAP_SIZE ∧
        0 ≤ current.point.x + d.x ∧ current.point.x + d.x < MAP_SIZE
    · obtain ⟨c, hc⟩ := get2?_of_range hm hb.1 hb.2.1 hb.2.2.1 hb.2.2.2
      obtain ⟨v, hvv⟩ := get2?_of_range hv hb.1 hb.2.1 hb.2.2.1 hb.2.2.2
      by_cases hce : c = EMPTY
      · cases v with
        | true =>
          apply skip
          simp only [expand]
          rw [if_pos hb, hc]
          simp only [hce, if_true, hvv]
          simp
        | false =>
          obtain ⟨ds, h1, h2, h3⟩ := ih (acc ++ [neighbour_node end_ current d])
          refine ⟨d :: ds, List.Sublist.cons₂ _ h1, ?_, ?_⟩
          · intro d' hd'
            rcases List.mem_cons.mp hd' with rfl | hd'
            · exact ⟨hb, by simpa [cell, moved, hce] using hc, hvv⟩
            · exact h2 d' hd'
          · simp only [expand]
            rw [if_pos hb, hc]
            simp only [hce, if_true, hvv]
            simp only [neighbour_node, moved] at h3
            simp [h3, neighbour_node, moved]
      · apply skip
        simp only [expand]
        rw [if_pos hb, hc]
        simp [hce]
    · apply skip
      simp only [expand]
      rw [if_neg hb]

/-- The two ways an iteration continues the loop: it discards a node whose
cell is visited, or it marks the cell of the popped node and pushes a node for
each pushable direction. -/
theorem step_next_cases (pol : Policy) {map : Grid} {start end_ : Point} {s s' : State}
    (hm : WellSized map) (hs : InBounds start) (hinv : Inv map start end_ s)
    (hstep : step pol map end_ s = .next s') :
    (∃ n rest, pop pol s.open_list = some (n, rest) ∧ Visited s.visited n.point ∧
      s' = { s with open_list := rest }) ∨
    (∃ (n : Node) (rest : List Node) (vis : List (List Bool)) (ds : List Point), pop pol s.open_list = some (n, rest) ∧
      get2? s.visited n.point.y n.point.x = some false ∧
      set2? s.visited n.point.y n.point.x true = some vis ∧ n.point ≠ end_ ∧
      ds.Sublist directions ∧ (∀ d ∈ ds, Pushable map vis n d) ∧
      s' = { open_list := rest ++ ds.map (neighbour_node end_ n), visited := vis,
             heap := s.heap ++ ds.map (neighbour_node end_ n) }) := by
  cases hpop : pop pol s.open_list with
  | none => simp [step, hpop] at hstep
  | some top =>
    obtain ⟨n, rest⟩ := top
    obtain ⟨hn, _⟩ := pop_spec hpop
    have hb : InBounds n.point := (hinv.open_ok n hn).inBounds hm hs
    obtain ⟨v, hv⟩ := get2?_of_range hinv.vis_sized hb.1 hb.2.1 hb.2.2.1 hb.2.2.2
    cases v with
    | true =>
      left
      simp only [step, hpop, hv, Step.next.injEq] at hstep
      exact ⟨n, rest, rfl, hv, hstep.symm⟩
    | false =>
      right
      obtain ⟨vis, hset⟩ := set2?_of_get2? true hv
      by_cases hgoal : n.point.y = end_.y ∧ n.point.x = end_.x
      · simp only [step, hpop, hv, hset] at hstep
        simp [hgoal] at hstep
      · obtain ⟨ds, hsub, hpush, he⟩ :=
          expand_sublist end_ n hm (set2?_wellSized hinv.vis_sized hset) directions []
        rw [List.nil_append] at he
        simp only [step, hpop, hv, hset] at hstep
        simp only [hgoal, if_false, he, Step.next.injEq] at hstep
        exact ⟨n, rest, vis, ds, rfl, hv, hset, fun h => hgoal ((point_eq_iff _ _).mpr h),
          hsub, hpush, hstep.symm⟩

theorem next_inv (pol : Policy) {map : Grid} {start end_ : Point} {s s' : State}
    (hm : WellSized map) (hs : InBounds start) (hinv : Inv map start end_ s)
    (hstep : step pol map end_ s = .next s') :
    Inv map start end_ s' ∧ loopMeasure s' < loopMeasure s := by
  rcases step_spec pol hm hs hinv with ⟨h1, _⟩ | ⟨n, h1, _⟩ | ⟨s'', h1, hinv', hlt⟩
  · rw [h1] at hstep
    cases hstep
  · rw [h1] at hstep
    cases hstep
  · rw [h1] at hstep
    simp only [Step.next.injEq] at hstep
    subst hstep
    exact ⟨hinv', hlt⟩

theorem moved_injective (c : Point) {d d' : Point} (h : moved c d = moved c d') : d = d' := by
  cases d; cases d'
  simp only [moved, Point.mk.injEq] at h
  simp only [Point.mk.injEq]
  omega

theorem moved_ne (c : Point) {d : Point} (hd : d ∈ directions) : moved c d ≠ c := by
  intro h
  cases c
  simp only [moved, Point.mk.injEq] at h
  simp only [directions, List.mem_cons, List.mem_singleton, List.not_mem_nil, or_false] at hd
  rcases hd with rfl | rfl | rfl | rfl <;> simp at h

theorem link_neighbour_node (end_ : Point) (n : Node) (d : Point) :
    (neighbour_node end_ n d).link = (some n.point, moved n.point d) := rfl

theorem heapInv_next (pol : Policy) {map : Grid} {start end_ : Point} {s s' : State}
    (hm : WellSized map) (hs : InBounds start) (hinv : Inv map start end_ s)
    (hh : HeapInv map start end_ s) (hstep : step pol map end_ s = .next s') :
    HeapInv map start end_ s' := by
  obtain ⟨hinv', _⟩ := next_inv pol hm hs hinv hstep
  rcases step_next_cases pol hm hs hinv hstep with
    ⟨n, rest, hpop, _, rfl⟩ | ⟨n, rest, vis, ds, hpop, hv, hset, _, hsub, hpush, rfl⟩
  · obtain ⟨_, _, hrest, _⟩ := pop_spec hpop
    exact ⟨hh.heap_ok, fun m hmem => hh.open_sub m (hrest m hmem), hh.shape⟩
  · obtain ⟨hn, _, hrest, _⟩ := pop_spec hpop
    have hnotv : ¬ Visited s.visited n.point := by
      unfold Visited
      rw [hv]
      simp
    have hmono : ∀ p, Visited s.visited p → Visited vis p :=
      fun p hp => (visited_set2? hset p).mpr (Or.inr hp)
    have hcur : Visited vis n.point := (visited_set2? hset n.point).mpr (Or.inl rfl)
    have hstart : Visited vis start := by
      rcases hinv'.init with h | ⟨_, h⟩
      · exact h
      · exact absurd hcur (h _)
    obtain ⟨tl, hheap, htl, hnd⟩ := hh.shape
    refine ⟨?_, ?_, tl ++ ds.map (neighbour_node end_ n), ?_, ?_, ?_⟩
    · intro m hmem
      rcases List.mem_append.mp hmem with hmem | hmem
      · exact hh.heap_ok m hmem
      · exact hinv'.open_ok m (List.mem_append_right _ hmem)
    · intro m hmem
      rcases List.mem_append.mp hmem with hmem | hmem
      · exact List.mem_append_left _ (hh.open_sub m (hrest m hmem))
      · exact List.mem_append_right _ hmem
    · show s.heap ++ _ = _
      rw [hheap]
      rfl
    · intro m hmem
      rcases List.mem_append.mp hmem with hmem | hmem
      · obtain ⟨h1, par, h2, h3, h4⟩ := htl m hmem
        exact ⟨h1, par, h2, List.mem_append_left _ h3, hmono _ h4⟩
      · obtain ⟨d, hd, rfl⟩ := List.mem_map.mp hmem
        refine ⟨?_, n, rfl, List.mem_append_left _ (hh.open_sub n hn), hcur⟩
        intro hpt
        have hp := (hpush d hd).2.2
        have hpt' : moved n.point d = start := hpt
        rw [hpt'] at hp
        unfold Visited at hstart
        rw [hstart] at hp
        cases hp
    · rw [List.map_append, List.nodup_append]
      refine ⟨hnd, ?_, ?_⟩
      · rw [List.map_map]
        refine List.Nodup.map_on ?_ (hsub.nodup (by decide))
        intro d _ d' _ heq
        simp only [Function.comp_apply, link_neighbour_node, Prod.mk.injEq] at heq
        exact moved_injective n.point heq.2
      · intro x hx1 hx2
        obtain ⟨m, hm1, rfl⟩ := List.mem_map.mp hx1
        obtain ⟨m', hm2, heq⟩ := List.mem_map.mp hx2
        obtain ⟨d, _, rfl⟩ := List.mem_map.mp hm2
        obtain ⟨_, par, hpar, _, hvis⟩ := htl m hm1
        rw [link_neighbour_node] at heq
        simp only [Node.link, hpar, Option.map_some', Prod.mk.injEq, Option.some.injEq] at heq
        rw [← heq.1] at hvis
        exact hnotv hvis

theorem initState_heapInv (map : Grid) (start end_ : Point) :
    HeapInv map start end_ (initState start end_) := by
  refine ⟨?_, fun n hn => hn, [], rfl, by simp, by simp⟩
  intro n hn
  have : n = start_node start end_ := List.mem_singleton.mp hn
  rw [this]
  exact start_node_ok map start end_

/-- Every state of a run satisfies the invariant of the allocated nodes. -/
theorem stateAfter_heapInv (pol : Policy) {map : Grid} {start : Point} (end_ : Point)
    (hm : WellSized map) (hs : InBounds start) :
    ∀ (k : Nat) (s : State), stateAfter pol map start end_ k = some s →
      HeapInv map start end_ s := by
  intro k
  induction k with
  | zero =>
    intro s h
    simp only [stateAfter, Option.some.injEq] at h
    subst h
    exact initState_heapInv map start end_
  | succ k ih =>
    intro s' h
    obtain ⟨s, hs', hstep⟩ := stateAfter_succ h
    exact heapInv_next pol hm hs (stateAfter_inv pol end_ hm hs k s hs') (ih s hs') hstep

/-- The number of iterations of a run is bounded by the initial value of the measure. -/
theorem stateAfter_measure (pol : Policy) {map : Grid} {start : Point} (end_ : Point)
    (hm : WellSized map) (hs : InBounds start) :
    ∀ (k : Nat) (s : State), stateAfter pol map start end_ k = some s →
      k + loopMeasure s < searchFuel := by
  intro k
  induction k with
  | zero =>
    intro s h
    simp only [stateAfter, Option.some.injEq] at h
    subst h
    have := initState_measure start end_
    omega
  | succ k ih =>
    intro s' h
    obtain ⟨s, hs', hstep⟩ := stateAfter_succ h
    have h1 := ih s hs'
    have h2 := (next_inv pol hm hs (stateAfter_inv pol end_ hm hs k s hs') hstep).2
    omega

theorem NodeOK.costs {map : Grid} {start end_ : Point} {n : Node}
    (h : NodeOK map start end_ n) :
    n.f_cost = n.g_cost + n.h_cost ∧ n.h_cost = calculate_heuristic n.point end_ := by
  cases n with
  | root p g hh f => exact ⟨h.2.2.2, h.2.2.1⟩
  | child p g hh f q => exact ⟨h.2.1, h.1⟩

theorem NodeOK.parent_none {map : Grid} {start end_ : Point} {n : Node}
    (h : NodeOK map start end_ n) (hp : n.parent = none) : n = start_node start end_ := by
  cases n with
  | root p g hh f =>
    obtain ⟨h1, h2, h3, h4⟩ := h
    subst h1 h2 h3 h4
    rfl
  | child p g hh f q => simp [Node.parent] at hp

theorem NodeOK.parent_some {map : Grid} {start end_ : Point} {n par : Node}
    (h : NodeOK map start end_ n) (hp : n.parent = some par) :
    n.g_cost = par.g_cost + 1 ∧ Adjacent par.point n.point ∧ NodeOK map start end_ par := by
  cases n with
  | root p g hh f => simp [Node.parent] at hp
  | child p g hh f q =>
    simp only [Node.parent, Option.some.injEq] at hp
    subst hp
    exact ⟨h.2.2.1, h.2.2.2.1, h.2.2.2.2.2.1⟩

theorem NodeOK.g_nonneg {map : Grid} {start end_ : Point} {n : Node}
    (h : NodeOK map start end_ n) : 0 ≤ n.g_cost :=
  reach_nonneg h.reach

theorem NodeOK.ancestor_exists {map : Grid} {start end_ : Point} :
    ∀ (i : Nat) (n : Node), NodeOK map start end_ n → (i : Int) ≤ n.g_cost →
      ∃ m, AStar.ancestor i n = some m ∧ m.g_cost = n.g_cost - i ∧ NodeOK map start end_ m := by
  intro i
  induction i with
  | zero =>
    intro n h _
    exact ⟨n, rfl, by simp, h⟩
  | succ i ih =>
    intro n h hi
    cases hpar : n.parent with
    | none =>
      have := h.parent_none hpar
      rw [this] at hi
      simp [start_node, Node.new, Node.g_cost] at hi
      omega
    | some q =>
      obtain ⟨hg, _, hq⟩ := h.parent_some hpar
      obtain ⟨m, hm, hmg, hmok⟩ := ih q hq (by push_cast at hi; omega)
      refine ⟨m, by simp only [AStar.ancestor, hpar]; exact hm, ?_, hmok⟩
      push_cast
      omega

theorem NodeOK.ancestor_start {map : Grid} {start end_ : Point} {n : Node}
    (h : NodeOK map start end_ n) :
    AStar.ancestor n.g_cost.toNat n = some (start_node start end_) ∧
      AStar.ancestor (n.g_cost.toNat + 1) n = none := by
  have h0 := h.g_nonneg
  obtain ⟨m, hm, hmg, hmok⟩ := NodeOK.ancestor_exists n.g_cost.toNat n h (by omega)
  have hroot : m.parent = none := by
    cases hpar : m.parent with
    | none => rfl
    | some q =>
      obtain ⟨hg, _, hq⟩ := hmok.parent_some hpar
      have := hq.g_nonneg
      omega
  have hms := hmok.parent_none hroot
  subst hms
  refine ⟨hm, ?_⟩
  have key : ∀ (i : Nat) (a b : Node), AStar.ancestor i a = some b → b.parent = none →
      AStar.ancestor (i + 1) a = none := by
    intro i
    induction i with
    | zero =>
      intro a b hab hb
      simp only [AStar.ancestor, Option.some.injEq] at hab
      subst hab
      simp [AStar.ancestor, hb]
    | succ i ih =>
      intro a b hab hb
      cases hpar : a.parent with
      | none => simp [AStar.ancestor, hpar]
      | some q =>
        simp only [AStar.ancestor, hpar] at hab
        have := ih q b hab hb
        simp only [AStar.ancestor, hpar]
        exact this
  exact key _ n _ hm hroot

theorem heap_count_start {map : Grid} {start end_ : Point} {s : State}
    (hh : HeapInv map start end_ s) :
    s.heap.countP (fun n => decide (n.point = start)) = 1 := by
  obtain ⟨tl, hheap, htl, _⟩ := hh.shape
  rw [hheap, List.countP_cons_of_pos]
  · have : tl.countP (fun n => decide (n.point = start)) = 0 := by
      rw [List.countP_eq_zero]
      intro n hn
      simpa using (htl n hn).1
    rw [this]
  · simp [start_node, Node.new, Node.point]

theorem heap_count_other {map : Grid} {start end_ : Point} {s : State}
    (hh : HeapInv map start end_ s) {c : Point} (hc : c ≠ start) :
    s.heap.countP (fun n => decide (n.point = c)) ≤ 4 := by
  obtain ⟨tl, hheap, htl, hnd⟩ := hh.shape
  have hsn : ¬ (decide ((start_node start end_).point = c) = true) := by
    simp only [decide_eq_true_eq]
    intro h
    exact hc h.symm
  rw [hheap, List.countP_cons, if_neg hsn, Nat.add_zero, List.countP_eq_length_filter]
  have hnd' : ((tl.filter (fun n => decide (n.point = c))).map Node.link).Nodup :=
    List.Nodup.sublist ((List.filter_sublist tl).map Node.link) hnd
  have hsub : (tl.filter (fun n => decide (n.point = c))).map Node.link ⊆
      directions.map (fun d => (some (moved c d), c)) := by
    intro x hx
    obtain ⟨n, hn, rfl⟩ := List.mem_map.mp hx
    obtain ⟨hntl, hpt⟩ := List.mem_filter.mp hn
    have hpt' : n.point = c := by simpa using hpt
    obtain ⟨_, par, hpar, _, _⟩ := htl n hntl
    have hok : NodeOK map start end_ n := hh.heap_ok n (by rw [hheap]; exact List.mem_cons_of_mem _ hntl)
    obtain ⟨_, hadj, _⟩ := hok.parent_some hpar
    rw [hpt'] at hadj
    obtain ⟨d, hd, hmv⟩ := (adjacent_iff_moved _ _).mp (adjacent_symm hadj)
    refine List.mem_map.mpr ⟨d, hd, ?_⟩
    simp only [Node.link, hpar, Option.map_some', hpt', hmv]
  have := (List.subperm_of_subset hnd' hsub).length_le
  simpa [directions] using this

/-- C16 (termination and push bound): on a grid of the right size with the
start and the goal in range, `find_path` returns (the search loop and the
reconstruction loop end; any fuel of at least `searchFuel` gives the same
terminal node; a run has fewer than `searchFuel` iterations), and at every
iteration of the run: exactly one allocated node is on the start cell, at most
four allocated nodes are on any other cell, and an iteration that continues
the loop keeps every visited cell visited and marks at most one cell, which
was not visited before. -/
theorem search_terminates_push_bound (pol : Policy) (map : Grid) (start end_ : Point)
    (hm : WellSized map) (hs : InBounds start) (_hg : InBounds end_) :
    (∃ b map', find_path pol map start end_ = some (b, map')) ∧
    (∀ fuel, searchFuel ≤ fuel →
      search pol map end_ fuel (initState start end_) = find_terminal pol map start end_) ∧
    (∀ k s, stateAfter pol map start end_ k = some s →
      k < searchFuel ∧
      s.heap.countP (fun n => decide (n.point = start)) = 1 ∧
      (∀ c, c ≠ start → s.heap.countP (fun n => decide (n.point = c)) ≤ 4) ∧
      (∀ s', step pol map end_ s = .next s' →
        (∀ p, Visited s.visited p → Visited s'.visited p) ∧
        (s'.visited = s.visited ∨
          ∃ c, ¬ Visited s.visited c ∧
            ∀ p, Visited s'.visited p ↔ (p = c ∨ Visited s.visited p)))) := by
  refine ⟨?_, ?_, ?_⟩
  · rcases find_path_spec pol end_ hm hs with ⟨hfp, _⟩ | ⟨n, m, hfp, _⟩
    · exact ⟨_, _, hfp⟩
    · exact ⟨_, _, hfp⟩
  · intro fuel hfuel
    exact find_terminal_fuel pol end_ hm hs fuel hfuel
  · intro k s hrun
    have hinv := stateAfter_inv pol end_ hm hs k s hrun
    have hh := stateAfter_heapInv pol end_ hm hs k s hrun
    have hmeas := stateAfter_measure pol end_ hm hs k s hrun
    refine ⟨by omega, heap_count_start hh, fun c hc => heap_count_other hh hc, ?_⟩
    intro s' hstep
    rcases step_next_cases pol hm hs hinv hstep with
      ⟨n, rest, _, _, rfl⟩ | ⟨n, rest, vis, ds, _, hv, hset, _, _, _, rfl⟩
    · exact ⟨fun p hp => hp, Or.inl rfl⟩
    · refine ⟨fun p hp => (visited_set2? hset p).mpr (Or.inr hp), Or.inr ⟨n.point, ?_, ?_⟩⟩
      · unfold Visited
        rw [hv]
        simp
      · intro p
        exact visited_set2? hset p

/-- Witness of C16: the search from `(0,0)` to `(0,2)` around the obstacle at `(0,1)`. -/
theorem search_terminates_push_bound_witness :
    stateAfter oldestFirst obstacleMap ⟨0, 0⟩ ⟨0, 2⟩ 3 = some detourState ∧
    (∃ b map', find_path oldestFirst obstacleMap ⟨0, 0⟩ ⟨0, 2⟩ = some (b, map')) ∧
    detourState.heap.countP (fun n => decide (n.point = ⟨0, 0⟩)) = 1 ∧
    ∀ c, c ≠ ⟨0, 0⟩ → detourState.heap.countP (fun n => decide (n.point = c)) ≤ 4 :=
  ⟨by decide,
    (search_terminates_push_bound oldestFirst obstacleMap ⟨0, 0⟩ ⟨0, 2⟩ (by decide) (by decide)
      (by decide)).1,
    ((search_terminates_push_bound oldestFirst obstacleMap ⟨0, 0⟩ ⟨0, 2⟩ (by decide) (by decide)
      (by decide)).2.2 3 detourState (by decide)).2.1,
    ((search_terminates_push_bound oldestFirst obstacleMap ⟨0, 0⟩ ⟨0, 2⟩ (by decide) (by decide)
      (by decide)).2.2 3 detourState (by decide)).2.2.1⟩

/-- C17 (predecessor-chain invariant): on a grid of the right size with the
start in range, at every iteration of a run the start node is allocated, and
every allocated node `n` has `f_cost = g_cost + h_cost` with `h_cost` the
heuristic of its cell; it is the start node (`g_cost` 0, no parent) or it has
an allocated parent with `g_cost = parent.g_cost + 1` on a neighbouring cell;
the `i`-th ancestor of `n` exists for every `i ≤ g_cost` and has cost
`g_cost - i`, the ancestor after exactly `g_cost` links is the start node,
and the chain ends there. -/
theorem predecessor_chain_invariant (pol : Policy) (map : Grid) (start end_ : Point)
    (hm : WellSized map) (hs : InBounds start) (k : Nat) (s : State)
    (hrun : stateAfter pol map start end_ k = some s) :
    start_node start end_ ∈ s.heap ∧ (∀ n ∈ s.open_list, n ∈ s.heap) ∧
    ∀ n ∈ s.heap,
      n.f_cost = n.g_cost + n.h_cost ∧ n.h_cost = calculate_heuristic n.point end_ ∧
      ((n = start_node start end_ ∧ n.g_cost = 0 ∧ n.parent = none) ∨
        (n ≠ start_node start end_ ∧ ∃ par, n.parent = some par ∧ par ∈ s.heap ∧
          n.g_cost = par.g_cost + 1 ∧ Adjacent par.point n.point)) ∧
      (∀ i : Nat, (i : Int) ≤ n.g_cost →
        ∃ m, ancestor i n = some m ∧ m.g_cost = n.g_cost - i) ∧
      0 ≤ n.g_cost ∧ ancestor n.g_cost.toNat n = some (start_node start end_) ∧
      ancestor (n.g_cost.toNat + 1) n = none := by
  have hh := stateAfter_heapInv pol end_ hm hs k s hrun
  obtain ⟨tl, hheap, htl, _⟩ := hh.shape
  refine ⟨by rw [hheap]; exact List.mem_cons_self _ _, hh.open_sub, ?_⟩
  intro n hn
  have hok := hh.heap_ok n hn
  refine ⟨hok.costs.1, hok.costs.2, ?_, ?_, hok.g_nonneg, hok.ancestor_start.1,
    hok.ancestor_start.2⟩
  · rw [hheap] at hn
    rcases List.mem_cons.mp hn with rfl | hn
    · exact Or.inl ⟨rfl, rfl, rfl⟩
    · right
      obtain ⟨hpt, par, hpar, hparh, _⟩ := htl n hn
      obtain ⟨hg, hadj, _⟩ := hok.parent_some hpar
      refine ⟨?_, par, hpar, hparh, hg, hadj⟩
      intro heq
      rw [heq] at hpar
      cases hpar
  · intro i hi
    obtain ⟨m, hm1, hm2, _⟩ := NodeOK.ancestor_exists i n hok hi
    exact ⟨m, hm1, hm2⟩

/-- Witness of C17: the state after three iterations of the search from `(0,0)` to `(0,2)`
around the obstacle at `(0,1)`. -/
theorem predecessor_chain_invariant_witness :
    stateAfter oldestFirst obstacleMap ⟨0, 0⟩ ⟨0, 2⟩ 3 = some detourState ∧
    detourState.heap.length = 6 ∧
    start_node ⟨0, 0⟩ ⟨0, 2⟩ ∈ detourState.heap ∧
    ∀ n ∈ detourState.heap,
      0 ≤ n.g_cost ∧ ancestor n.g_cost.toNat n = some (start_node ⟨0, 0⟩ ⟨0, 2⟩) :=
  ⟨by decide, by decide,
    (predecessor_chain_invariant oldestFirst obstacleMap ⟨0, 0⟩ ⟨0, 2⟩ (by decide) (by decide)
      3 detourState (by decide)).1,
    fun n hn =>
      ⟨((predecessor_chain_invariant oldestFirst obstacleMap ⟨0, 0⟩ ⟨0, 2⟩ (by decide)
          (by decide) 3 detourState (by decide)).2.2 n hn).2.2.2.2.1,
        ((predecessor_chain_invariant oldestFirst obstacleMap ⟨0, 0⟩ ⟨0, 2⟩ (by decide)
          (by decide) 3 detourState (by decide)).2.2 n hn).2.2.2.2.2.1⟩⟩

theorem heuristic_step_right (a : Point) {c c' : Point} (h : Adjacent c c') :
    calculate_heuristic a c' ≤ 1 + calculate_heuristic a c := by
  unfold calculate_heuristic
  unfold Adjacent at h
  have h1 := abs_cases (a.y - c.y)
  have h2 := abs_cases (a.x - c.x)
  have h3 := abs_cases (a.y - c'.y)
  have h4 := abs_cases (a.x - c'.x)
  omega

/-- The cell at position `i` of the chain of a node is at most `g_cost - i`
moves (in Manhattan distance) from the start and at most `i` from the node's
own cell. -/
theorem NodeOK.cell_bounds {map : Grid} {start end_ : Point} {n : Node}
    (h : NodeOK map start end_ n) :
    ∀ (i : Nat) (p : Point), n.cells[i]? = some p →
      calculate_heuristic start p ≤ n.g_cost - i ∧ calculate_heuristic p n.point ≤ i := by
  induction n with
  | root p0 g hh f =>
    intro i p hi
    cases i with
    | zero =>
      simp only [Node.cells, List.getElem?_cons_zero, Option.some.injEq] at hi
      subst hi
      have hr := heuristic_reach (NodeOK.reach h)
      simp only [Node.point] at hr ⊢
      rw [heuristic_self]
      simp only [Nat.cast_zero, sub_zero]
      exact ⟨hr, le_refl _⟩
    | succ i => simp [Node.cells] at hi
  | child p0 g hh f q ih =>
    intro i p hi
    cases i with
    | zero =>
      simp only [Node.cells, List.getElem?_cons_zero, Option.some.injEq] at hi
      subst hi
      have hr := heuristic_reach (NodeOK.reach h)
      simp only [Node.point] at hr ⊢
      rw [heuristic_self]
      simp only [Nat.cast_zero, sub_zero]
      exact ⟨hr, le_refl _⟩
    | succ i =>
      simp only [Node.cells, List.getElem?_cons_succ] at hi
      obtain ⟨h1, h2⟩ := ih h.2.2.2.2.2.1 i p hi
      have hg : g = q.g_cost + 1 := h.2.2.1
      have hstep := heuristic_step_right p h.2.2.2.1
      simp only [Node.g_cost, Node.point]
      push_cast
      constructor <;> omega

theorem chained_crosses (r : Int) : ∀ (l : List Point), Chained l → ∀ a b : Point,
    l.head? = some a → l.getLast? = some b → b.y ≤ r → r ≤ a.y → ∃ p ∈ l, p.y = r := by
  intro l
  induction l with
  | nil =>
    intro _ a b ha
    simp at ha
  | cons x l ih =>
    intro hch a b ha hb hbr hra
    simp only [List.head?_cons, Option.some.injEq] at ha
    subst ha
    cases l with
    | nil =>
      simp only [List.getLast?_singleton, Option.some.injEq] at hb
      subst hb
      exact ⟨x, List.mem_singleton.mpr rfl, by omega⟩
    | cons y l =>
      by_cases hx : x.y = r
      · exact ⟨x, List.mem_cons_self _ _, hx⟩
      · rw [List.getLast?_cons_cons] at hb
        have hadj : Adjacent x y := hch.1
        obtain ⟨p, hp, hpy⟩ := ih hch.2 y b rfl hb hbr (by unfold Adjacent at hadj; omega)
        exact ⟨p, List.mem_cons_of_mem _ hp, hpy⟩

theorem reach_along_row {map : Grid} {start : Point}
    (hfree : ∀ p, InBounds p → cell map p = some EMPTY) (hs : InBounds start) :
    ∀ (d : Nat) (c : Point), InBounds c → c.y = start.y → |c.x - start.x| = (d : Int) →
      Reach map start c d := by
  intro d
  induction d with
  | zero =>
    intro c _ hy hx
    have hx0 : c.x = start.x := by
      have := abs_cases (c.x - start.x)
      simp only [Nat.cast_zero] at hx
      omega
    have : c = start := (point_eq_iff c start).mp ⟨hy, hx0⟩
    rw [this]
    exact Reach.base
  | succ d ih =>
    intro c hc hy hx
    have hab := abs_cases (c.x - start.x)
    push_cast at hx
    by_cases hlt : start.x < c.x
    · have hb : InBounds ⟨c.y, c.x - 1⟩ := by
        unfold InBounds at *
        simp only
        omega
      have hprev := ih ⟨c.y, c.x - 1⟩ hb hy (by
        have := abs_cases (c.x - 1 - start.x)
        simp only
        omega)
      have := @Reach.move map start _ c _ hprev (by unfold Adjacent; simp) (hfree c hc)
      simpa using this
    · have hb : InBounds ⟨c.y, c.x + 1⟩ := by
        unfold InBounds at *
        simp only
        omega
      have hprev := ih ⟨c.y, c.x + 1⟩ hb hy (by
        have := abs_cases (c.x + 1 - start.x)
        simp only
        omega)
      have := @Reach.move map start _ c _ hprev (by unfold Adjacent; simp) (hfree c hc)
      simpa using this

theorem emptyMap_free (p : Point) (hp : InBounds p) : cell emptyMap p = some EMPTY := by
  have h10 : MAP_SIZE = 10 := rfl
  obtain ⟨h1, h2, h3, h4⟩ := hp
  refine get2?_eq_some.mpr ⟨h1, h3, List.replicate 10 EMPTY, ?_, ?_⟩
  · rw [emptyMap, List.getElem?_replicate, if_pos (by omega)]
  · rw [List.getElem?_replicate, if_pos (by omega)]

/-- C12 (straight horizontal route): on an obstacle-free grid of the right
size, for a start and a goal in range in the same row, `d` columns apart,
`find_path` returns `true`; the start holds `d + 1`; every cell of that row
between goal and start holds 1 plus its distance to the goal; every other
cell is unchanged, so every other cell in range still holds `EMPTY`. -/
theorem find_path_straight_row (pol : Policy) (map : Grid) (start end_ : Point)
    (hm : WellSized map) (hfree : ∀ p, InBounds p → cell map p = some EMPTY)
    (hs : InBounds start) (hg : InBounds end_) (hrow : start.y = end_.y) :
    ∃ map', find_path pol map start end_ = some (true, map') ∧
      cell map' start = some (|start.x - end_.x| + 1) ∧ cell map' end_ = some 1 ∧
      (∀ p, p.y = end_.y → min start.x end_.x ≤ p.x → p.x ≤ max start.x end_.x →
        cell map' p = some (|p.x - end_.x| + 1)) ∧
      (∀ p, ¬ (p.y = end_.y ∧ min start.x end_.x ≤ p.x ∧ p.x ≤ max start.x end_.x) →
        cell map' p = cell map p) ∧
      (∀ p, InBounds p →
        ¬ (p.y = end_.y ∧ min start.x end_.x ≤ p.x ∧ p.x ≤ max start.x end_.x) →
        cell map' p = some EMPTY) := by
  have hd0 := abs_cases (end_.x - start.x)
  have hreach : Reach map start end_ (|end_.x - start.x|.toNat : Int) :=
    reach_along_row hfree hs _ end_ hg hrow.symm (by omega)
  rcases find_path_spec pol end_ hm hs with ⟨_, _, hun⟩ | ⟨n, map', hfp, _, hok, hsh, hp, _, hoff, hon⟩
  · exact absurd hreach (hun _)
  · have hle : n.g_cost ≤ |end_.x - start.x| := by
      have := hsh _ (by rw [hp]; exact hreach)
      omega
    have hge : |end_.x - start.x| ≤ n.g_cost := by
      have h1 := heuristic_reach hok.reach
      rw [hp] at h1
      unfold calculate_heuristic at h1
      have h2 := abs_cases (start.y - end_.y)
      have h3 := abs_cases (start.x - end_.x)
      omega
    have hlen := hok.cells_length
    have hswap : |start.x - end_.x| = |end_.x - start.x| := abs_sub_comm _ _
    -- every cell of the chain lies on the segment, at the position of its index
    have hchain : ∀ (i : Nat) (p : Point), n.cells[i]? = some p →
        p.y = end_.y ∧ min start.x end_.x ≤ p.x ∧ p.x ≤ max start.x end_.x ∧
          |p.x - end_.x| = (i : Int) := by
      intro i p hi
      obtain ⟨h1, h2⟩ := hok.cell_bounds i p hi
      rw [hp] at h2
      unfold calculate_heuristic at h1 h2
      have a1 := abs_cases (start.y - p.y)
      have a2 := abs_cases (start.x - p.x)
      have a3 := abs_cases (p.y - end_.y)
      have a4 := abs_cases (p.x - end_.x)
      have m1 := min_le_left start.x end_.x
      have m2 := min_le_right start.x end_.x
      have m3 := le_max_left start.x end_.x
      have m4 := le_max_right start.x end_.x
      rcases min_choice start.x end_.x with hmin | hmin <;>
        rcases max_choice start.x end_.x with hmax | hmax <;>
        refine ⟨by omega, by omega, by omega, by omega⟩
    have hseg : ∀ p, p.y = end_.y → min start.x end_.x ≤ p.x → p.x ≤ max start.x end_.x →
        ∃ i : Nat, n.cells[i]? = some p ∧ |p.x - end_.x| = (i : Int) := by
      intro p hy hlo hhi
      have a4 := abs_cases (p.x - end_.x)
      have hilt : |p.x - end_.x|.toNat < n.cells.length := by
        rcases min_choice start.x end_.x with hmin | hmin <;>
          rcases max_choice start.x end_.x with hmax | hmax <;> omega
      have hq := hchain _ _ (List.getElem?_eq_getElem hilt)
      have a5 := abs_cases ((n.cells[|p.x - end_.x|.toNat]).x - end_.x)
      have hpq : n.cells[|p.x - end_.x|.toNat] = p := by
        apply (point_eq_iff _ _).mp
        refine ⟨by omega, ?_⟩
        rcases min_choice start.x end_.x with hmin | hmin <;>
          rcases max_choice start.x end_.x with hmax | hmax <;> omega
      refine ⟨|p.x - end_.x|.toNat, ?_, by omega⟩
      rw [List.getElem?_eq_getElem hilt, hpq]
    have hfill : ∀ p, p.y = end_.y → min start.x end_.x ≤ p.x → p.x ≤ max start.x end_.x →
        cell map' p = some (|p.x - end_.x| + 1) := by
      intro p hy hlo hhi
      obtain ⟨i, hi, habs⟩ := hseg p hy hlo hhi
      rw [hon i p hi, habs]
      congr 1
      omega
    have hrest : ∀ p, ¬ (p.y = end_.y ∧ min start.x end_.x ≤ p.x ∧ p.x ≤ max start.x end_.x) →
        cell map' p = cell map p := by
      intro p hnot
      apply hoff
      intro hmem
      obtain ⟨i, hi⟩ := List.mem_iff_getElem?.mp hmem
      obtain ⟨h1, h2, h3, _⟩ := hchain i p hi
      exact hnot ⟨h1, h2, h3⟩
    refine ⟨map', hfp, ?_, ?_, hfill, hrest, ?_⟩
    · exact hfill start hrow (min_le_left _ _) (le_max_left _ _)
    · have := hfill end_ rfl (min_le_right _ _) (le_max_right _ _)
      simpa using this
    · intro p hp' hnot
      rw [hrest p hnot]
      exact hfree p hp'

/-- Witness of C12: the obstacle-free grid, start `(0,0)`, goal `(0,4)`: ordinal 1 at
`(0,4)`, 2 at `(0,3)`, 3 at `(0,2)`, 4 at `(0,1)`, 5 at `(0,0)`. -/
theorem find_path_straight_row_witness :
    find_path oldestFirst emptyMap ⟨0, 0⟩ ⟨0, 4⟩ = some (true, annotatedMap) ∧
    cell annotatedMap ⟨0, 4⟩ = some 1 ∧ cell annotatedMap ⟨0, 3⟩ = some 2 ∧
    cell annotatedMap ⟨0, 2⟩ = some 3 ∧ cell annotatedMap ⟨0, 1⟩ = some 4 ∧
    cell annotatedMap ⟨0, 0⟩ = some 5 ∧
    ∃ map', find_path oldestFirst emptyMap ⟨0, 0⟩ ⟨0, 4⟩ = some (true, map') ∧
      cell map' ⟨0, 0⟩ = some (|(0 : Int) - 4| + 1) ∧ cell map' ⟨0, 4⟩ = some 1 ∧
      (∀ p : Point, p.y = 0 → min (0 : Int) 4 ≤ p.x → p.x ≤ max (0 : Int) 4 →
        cell map' p = some (|p.x - 4| + 1)) ∧
      (∀ p : Point, ¬ (p.y = 0 ∧ min (0 : Int) 4 ≤ p.x ∧ p.x ≤ max (0 : Int) 4) →
        cell map' p = cell emptyMap p) ∧
      (∀ p : Point, InBounds p →
        ¬ (p.y = 0 ∧ min (0 : Int) 4 ≤ p.x ∧ p.x ≤ max (0 : Int) 4) →
        cell map' p = some EMPTY) :=
  ⟨by decide, by decide, by decide, by decide, by decide, by decide,
    find_path_straight_row oldestFirst emptyMap ⟨0, 0⟩ ⟨0, 4⟩ (by decide)
      emptyMap_free
      (by decide) (by decide) (by decide)⟩

theorem gapMap_row2 (p : Point) (hy : p.y = 2) (ht : Traversable gapMap p) : p = ⟨2, 4⟩ := by
  have hb := traversable_inBounds (by decide : WellSized gapMap) ht
  have h10 : MAP_SIZE = 10 := rfl
  obtain ⟨py, px⟩ := p
  simp only at hy hb
  subst hy
  have : px = 0 ∨ px = 1 ∨ px = 2 ∨ px = 3 ∨ px = 4 ∨ px = 5 ∨ px = 6 ∨ px = 7 ∨ px = 8 ∨
      px = 9 := by
    unfold InBounds at hb
    simp only at hb
    omega
  rcases this with h | h | h | h | h | h | h | h | h | h <;> subst h <;>
    first
      | rfl
      | exact absurd ht (by decide)

/-- C13 (detour through the single opening): on the grid whose row 2 is all
Obstacle except `(2,4)` and whose other cells are Traversable, `find_path`
from `(0,0)` to `(4,4)` returns `true` for every tie-breaking, with ordinal 9
on `(0,0)`, ordinal 1 on `(4,4)`, and the opening `(2,4)` annotated (with
ordinal 3). -/
theorem find_path_detour (pol : Policy) :
    (∀ x, 0 ≤ x → x < MAP_SIZE → x ≠ 4 → cell gapMap ⟨2, x⟩ = some OBSTACLE) ∧
    cell gapMap ⟨2, 4⟩ = some EMPTY ∧
    (∀ p, InBounds p → p.y ≠ 2 → cell gapMap p = some EMPTY) ∧
    ∃ map', find_path pol gapMap ⟨0, 0⟩ ⟨4, 4⟩ = some (true, map') ∧
      cell map' ⟨0, 0⟩ = some 9 ∧ cell map' ⟨4, 4⟩ = some 1 ∧ cell map' ⟨2, 4⟩ = some 3 := by
  have h10 : MAP_SIZE = 10 := rfl
  have hm : WellSized gapMap := by decide
  have hs : InBounds (⟨0, 0⟩ : Point) := by decide
  refine ⟨?_, by decide, ?_, ?_⟩
  · intro x h0 h1 h4
    have : x = 0 ∨ x = 1 ∨ x = 2 ∨ x = 3 ∨ x = 5 ∨ x = 6 ∨ x = 7 ∨ x = 8 ∨ x = 9 := by omega
    rcases this with h | h | h | h | h | h | h | h | h <;> subst h <;> decide
  · intro p hp hy
    obtain ⟨v, hv⟩ := get2?_of_range hm hp.1 hp.2.1 hp.2.2.1 hp.2.2.2
    obtain ⟨_, _, row, hrow, hcell⟩ := get2?_eq_some.mp hv
    have hrow' : row = List.replicate 10 EMPTY := by
      obtain ⟨py, px⟩ := p
      simp only at hy hrow hp
      unfold InBounds at hp
      simp only at hp
      have : py = 0 ∨ py = 1 ∨ py = 3 ∨ py = 4 ∨ py = 5 ∨ py = 6 ∨ py = 7 ∨ py = 8 ∨
          py = 9 := by omega
      rcases this with h | h | h | h | h | h | h | h | h <;> subst h <;>
        · simp only [gapMap] at hrow
          exact (Option.some.inj hrow).symm
    subst hrow'
    rw [List.getElem?_replicate] at hcell
    split at hcell
    · rw [Option.some.inj hcell]
      exact hv
    · cases hcell
  · have hroute : Route gapMap ⟨0, 0⟩ ⟨4, 4⟩ gapRoute := by decide
    have hreach : Reach gapMap ⟨0, 0⟩ ⟨4, 4⟩ 8 := route_reach hroute
    rcases find_path_spec pol ⟨4, 4⟩ hm hs with
      ⟨_, _, hun⟩ | ⟨n, map', hfp, _, hok, hsh, hp, _, _, hon⟩
    · exact absurd hreach (hun _)
    · have hle : n.g_cost ≤ 8 := hsh _ (by rw [hp]; exact hreach)
      have hge : 8 ≤ n.g_cost := by
        have h1 := heuristic_reach hok.reach
        rw [hp] at h1
        have h2 : calculate_heuristic ⟨0, 0⟩ ⟨4, 4⟩ = 8 := by decide
        omega
      have hlen := hok.cells_length
      have hlen9 : n.cells.length = 9 := by omega
      refine ⟨map', hfp, ?_, ?_, ?_⟩
      · have := hon _ _ (cells_last_index hok)
        rw [this, hlen9]
        rfl
      · have := hon 0 ⟨4, 4⟩ (hp ▸ cells_getElem?_zero n)
        simpa using this
      · obtain ⟨p, hpmem, hpy⟩ := chained_crosses 2 n.cells hok.cells_chained ⟨4, 4⟩ ⟨0, 0⟩
          (hp ▸ cells_head? n) hok.cells_getLast? (by decide) (by decide)
        have hp24 : p = ⟨2, 4⟩ := by
          rcases hok.cells_traversable p hpmem with h | h
          · rw [h] at hpy
            exact absurd hpy (by decide)
          · exact gapMap_row2 p hpy h
        subst hp24
        obtain ⟨i, hi⟩ := List.mem_iff_getElem?.mp hpmem
        obtain ⟨b1, b2⟩ := hok.cell_bounds i _ hi
        rw [hp] at b2
        have c1 : calculate_heuristic ⟨0, 0⟩ ⟨2, 4⟩ = 6 := by decide
        have c2 : calculate_heuristic ⟨2, 4⟩ ⟨4, 4⟩ = 2 := by decide
        rw [c1] at b1
        rw [c2] at b2
        have hi2 : i = 2 := by omega
        subst hi2
        have := hon 2 _ hi
        rw [this]
        rfl

/-- Witness of C13: the search under the policy `oldestFirst`. -/
theorem find_path_detour_witness :
    ∃ map', find_path oldestFirst gapMap ⟨0, 0⟩ ⟨4, 4⟩ = some (true, map') ∧
      cell map' ⟨0, 0⟩ = some 9 ∧ cell map' ⟨4, 4⟩ = some 1 ∧ cell map' ⟨2, 4⟩ = some 3 :=
  (find_path_detour oldestFirst).2.2.2

theorem mem_indices (j : Int) : j ∈ indices ↔ 0 ≤ j ∧ j < MAP_SIZE := by
  have h : indices = [0, 1, 2, 3, 4, 5, 6, 7, 8, 9] := by decide
  have h10 : MAP_SIZE = 10 := rfl
  rw [h]
  simp only [List.mem_cons, List.mem_singleton, List.not_mem_nil, or_false]
  omega

theorem clear_row_spec (i : Int) (hi : 0 ≤ i ∧ i < MAP_SIZE) :
    ∀ (js : List Int) (map : Grid), WellSized map → (∀ j ∈ js, 0 ≤ j ∧ j < MAP_SIZE) →
      ∃ map', clear_row i js map = some map' ∧ WellSized map' ∧
        ∀ p, cell map' p = if p.y = i ∧ p.x ∈ js then some EMPTY else cell map p := by
  intro js
  induction js with
  | nil =>
    intro map hm _
    exact ⟨map, rfl, hm, by simp⟩
  | cons j js ih =>
    intro map hm hjs
    have hj := hjs j (List.mem_cons_self _ _)
    obtain ⟨v, hv⟩ := get2?_of_range hm hi.1 hi.2 hj.1 hj.2
    obtain ⟨map1, hset⟩ := set2?_of_get2? EMPTY hv
    obtain ⟨map', h1, h2, h3⟩ := ih map1 (set2?_wellSized hm hset)
      (fun j' hj' => hjs j' (List.mem_cons_of_mem _ hj'))
    refine ⟨map', by simp only [clear_row, hset]; exact h1, h2, ?_⟩
    intro p
    rw [h3 p]
    have hc := @cell_set2? _ _ ⟨i, j⟩ _ hset p
    by_cases hp : p.y = i ∧ p.x ∈ js
    · rw [if_pos hp, if_pos ⟨hp.1, List.mem_cons_of_mem _ hp.2⟩]
    · rw [if_neg hp, hc]
      by_cases hpq : p = ⟨i, j⟩
      · rw [if_pos hpq, if_pos]
        rw [hpq]
        exact ⟨rfl, List.mem_cons_self _ _⟩
      · rw [if_neg hpq, if_neg]
        rintro ⟨hy, hx⟩
        rcases List.mem_cons.mp hx with hx | hx
        · exact hpq ((point_eq_iff p ⟨i, j⟩).mp ⟨hy, hx⟩)
        · exact hp ⟨hy, hx⟩

theorem clear_rows_spec :
    ∀ (is : List Int) (map : Grid), WellSized map → (∀ i ∈ is, 0 ≤ i ∧ i < MAP_SIZE) →
      ∃ map', clear_rows is map = some map' ∧ WellSized map' ∧
        ∀ p, cell map' p = if p.y ∈ is ∧ p.x ∈ indices then some EMPTY else cell map p := by
  intro is
  induction is with
  | nil =>
    intro map hm _
    exact ⟨map, rfl, hm, by simp⟩
  | cons i is ih =>
    intro map hm his
    obtain ⟨map1, h1, h2, h3⟩ := clear_row_spec i (his i (List.mem_cons_self _ _)) indices map hm
      (fun j hj => (mem_indices j).mp hj)
    obtain ⟨map', g1, g2, g3⟩ := ih map1 h2 (fun i' hi' => his i' (List.mem_cons_of_mem _ hi'))
    refine ⟨map', by simp only [clear_rows, h1]; exact g1, g2, ?_⟩
    intro p
    rw [g3 p, h3 p]
    by_cases hx : p.x ∈ indices
    · by_cases hy : p.y ∈ is
      · rw [if_pos ⟨hy, hx⟩, if_pos ⟨List.mem_cons_of_mem _ hy, hx⟩]
      · rw [if_neg (fun h => hy h.1)]
        by_cases hyi : p.y = i
        · rw [if_pos ⟨hyi, hx⟩, if_pos ⟨hyi ▸ List.mem_cons_self _ _, hx⟩]
        · rw [if_neg (fun h => hyi h.1), if_neg]
          rintro ⟨h, _⟩
          rcases List.mem_cons.mp h with h | h
          · exact hyi h
          · exact hy h
    · rw [if_neg (fun h => hx h.2), if_neg (fun h => hx h.2), if_neg (fun h => hx h.2)]

theorem cells_all_empty {map : Grid} (hm : WellSized map)
    (h : ∀ p, InBounds p → cell map p = some EMPTY) :
    ∀ row ∈ map, ∀ v ∈ row, v = EMPTY := by
  intro row hrow v hv
  obtain ⟨i, hi⟩ := List.mem_iff_getElem?.mp hrow
  obtain ⟨j, hj⟩ := List.mem_iff_getElem?.mp hv
  have hc : cell map ⟨(i : Int), (j : Int)⟩ = some v :=
    get2?_eq_some.mpr ⟨Int.ofNat_nonneg i, Int.ofNat_nonneg j, row, by simpa using hi,
      by simpa using hj⟩
  have hb : InBounds ⟨(i : Int), (j : Int)⟩ := get2?_range hm hc
  rw [h _ hb] at hc
  exact (Option.some.inj hc).symm

theorem obstacleCount_zero {map : Grid} (h : ∀ row ∈ map, ∀ v ∈ row, v = EMPTY) :
    obstacleCount map = 0 := by
  unfold obstacleCount
  apply List.sum_eq_zero
  intro k hk
  obtain ⟨row, hrow, rfl⟩ := List.mem_map.mp hk
  rw [List.count_eq_zero]
  intro hmem
  exact absurd (h row hrow _ hmem) (by decide)

theorem sum_count_set (a : Int) (map : Grid) (i : Nat) (row row' : List Int)
    (hrow : map[i]? = some row) (hc : row'.count a = row.count a + 1) :
    ((map.set i row').map (fun r => r.count a)).sum = (map.map (fun r => r.count a)).sum + 1 := by
  induction map generalizing i with
  | nil => simp at hrow
  | cons r rs ih =>
    cases i with
    | zero =>
      simp only [List.getElem?_cons_zero, Option.some.injEq] at hrow
      subst hrow
      simp only [List.set_cons_zero, List.map_cons, List.sum_cons]
      omega
    | succ i =>
      have hrow2 : rs[i]? = some row := by simpa using hrow
      have := ih i hrow2
      simp only [List.set_cons_succ, List.map_cons, List.sum_cons]
      omega

theorem obstacleCount_set2? {map map' : Grid} {y x : Int}
    (hg : get2? map y x = some EMPTY) (h : set2? map y x OBSTACLE = some map') :
    obstacleCount map' = obstacleCount map + 1 := by
  obtain ⟨_, _, row, hrow, hlt, rfl⟩ := set2?_eq_some.mp h
  obtain ⟨_, _, row2, hrow2, hv⟩ := get2?_eq_some.mp hg
  rw [hrow] at hrow2
  cases hrow2
  apply sum_count_set _ _ _ _ _ hrow
  obtain ⟨h2, h2'⟩ := List.getElem?_eq_some.mp hv
  rw [List.count_set _ _ _ _ h2, h2']
  have : (EMPTY == OBSTACLE) = false := by decide
  simp [this]

theorem fresh_set2? {map map' : Grid} {y x : Int} {v : Int} (hf : Fresh map)
    (hv : v = EMPTY ∨ v = OBSTACLE) (h : set2? map y x v = some map') : Fresh map' := by
  obtain ⟨_, _, row, hrow, _, rfl⟩ := set2?_eq_some.mp h
  intro r hr w hw
  rcases List.mem_or_eq_of_mem_set hr with hr | hr
  · exact hf r hr w hw
  · subst hr
    rcases List.mem_or_eq_of_mem_set hw with hw | hw
    · exact hf row (List.mem_iff_getElem?.mpr ⟨_, hrow⟩) w hw
    · rw [hw]
      exact hv

theorem place_obstacles_spec (total : Int) :
    ∀ (rands : List Int) (obstacles : Int) (map map' : Grid), (∀ r ∈ rands, 0 ≤ r) →
      PlaceInv total obstacles map → place_obstacles rands obstacles map = some map' →
      PlaceInv total 0 map'
  | [], obstacles, map, map', _, hinv, h => by
    simp only [place_obstacles] at h
    split at h
    · cases h
    · simp only [Option.some.injEq] at h
      subst h
      obtain ⟨h1, h2, h3, h4, h5⟩ := hinv
      have : obstacles = 0 := by omega
      subst this
      exact ⟨h1, h2, h3, h4, h5⟩
  | [_], obstacles, map, map', _, hinv, h => by
    simp only [place_obstacles] at h
    split at h
    · cases h
    · simp only [Option.some.injEq] at h
      subst h
      obtain ⟨h1, h2, h3, h4, h5⟩ := hinv
      have : obstacles = 0 := by omega
      subst this
      exact ⟨h1, h2, h3, h4, h5⟩
  | ry :: rx :: rest, obstacles, map, map', hr, hinv, h => by
    have hrest : ∀ r ∈ rest, 0 ≤ r :=
      fun r hmem => hr r (List.mem_cons_of_mem _ (List.mem_cons_of_mem _ hmem))
    simp only [place_obstacles] at h
    split at h
    · rename_i hpos
      split at h
      · cases h
      · rename_i c hc
        split at h
        · rename_i hcond
          split at h
          · cases h
          · rename_i map1 hset
            obtain ⟨h1, h2, h3, h4, h5⟩ := hinv
            refine place_obstacles_spec total rest (obstacles - 1) map1 map' hrest ?_ h
            refine ⟨set2?_wellSized h1 hset, fresh_set2? h2 (Or.inr rfl) hset, ?_, ?_, by omega⟩
            · have := @cell_set2? _ _ ⟨Int.tmod ry MAP_SIZE, Int.tmod rx MAP_SIZE⟩ _ hset ⟨0, 0⟩
              rw [this, if_neg]
              · exact h3
              · intro heq
                have := (point_eq_iff _ _).mpr heq
                exact hcond.2 ⟨this.1.symm, this.2.symm⟩
            · have := obstacleCount_set2? (hcond.1 ▸ hc) hset
              rw [this]
              push_cast
              omega
        · exact place_obstacles_spec total rest obstacles map map' hrest hinv h
    · simp only [Option.some.injEq] at h
      subst h
      obtain ⟨h1, h2, h3, h4, h5⟩ := hinv
      have : obstacles = 0 := by omega
      subst this
      exact ⟨h1, h2, h3, h4, h5⟩

/-- C18 (obstacle generation): for every grid of the right size, whatever it
holds, and every sequence of non-negative values of `rand()` on which the
placement loop finishes, the grid that `initialize_map` leaves has the right
size, contains exactly `(MAP_SIZE * MAP_SIZE) * 20 / 100 = 20` cells holding
`OBSTACLE`, every other cell holds `EMPTY`, and the start `(0,0)` holds
`EMPTY`. -/
theorem initialize_map_obstacles (map map' : Grid) (rands : List Int) (hm : WellSized map)
    (hr : ∀ r ∈ rands, 0 ≤ r) (h : initialize_map map rands = some map') :
    WellSized map' ∧ Int.tdiv ((MAP_SIZE * MAP_SIZE) * 20) 100 = 20 ∧
      obstacleCount map' = 20 ∧
      (∀ p, InBounds p → cell map' p = some OBSTACLE ∨ cell map' p = some EMPTY) ∧
      Fresh map' ∧ cell map' ⟨0, 0⟩ = some EMPTY := by
  have htot : Int.tdiv ((MAP_SIZE * MAP_SIZE) * 20) 100 = 20 := by decide
  unfold initialize_map at h
  obtain ⟨cleared, hc1, hc2, hc3⟩ := clear_rows_spec indices map hm
    (fun i hi => (mem_indices i).mp hi)
  rw [hc1, htot] at h
  have hempty : ∀ p, InBounds p → cell cleared p = some EMPTY := by
    intro p hp
    rw [hc3 p, if_pos]
    exact ⟨(mem_indices _).mpr ⟨hp.1, hp.2.1⟩, (mem_indices _).mpr ⟨hp.2.2.1, hp.2.2.2⟩⟩
  have hall := cells_all_empty hc2 hempty
  have hinv : PlaceInv 20 20 cleared := by
    refine ⟨hc2, fun row hrow v hv => Or.inl (hall row hrow v hv), hempty _ (by decide), ?_,
      by decide⟩
    rw [obstacleCount_zero hall]
    rfl
  obtain ⟨h1, h2, h3, h4, _⟩ := place_obstacles_spec 20 rands 20 cleared map' hr hinv h
  refine ⟨h1, htot, by omega, ?_, h2, h3⟩
  intro p hp
  obtain ⟨v, hv⟩ := get2?_of_range h1 hp.1 hp.2.1 hp.2.2.1 hp.2.2.2
  rcases fresh_cell h2 hv with hv' | hv'
  · right
    rw [← hv']
    exact hv
  · left
    rw [← hv']
    exact hv

/-- Witness of C18: `initialize_map` on a grid that holds ordinals of an earlier search,
with the values `demoRands`. -/
theorem initialize_map_obstacles_witness :
    initialize_map annotatedMap demoRands = some demoInit ∧
    WellSized demoInit ∧ Int.tdiv ((MAP_SIZE * MAP_SIZE) * 20) 100 = 20 ∧
      obstacleCount demoInit = 20 ∧
      (∀ p, InBounds p → cell demoInit p = some OBSTACLE ∨ cell demoInit p = some EMPTY) ∧
      Fresh demoInit ∧ cell demoInit ⟨0, 0⟩ = some EMPTY :=
  ⟨by decide, initialize_map_obstacles annotatedMap demoInit demoRands (by decide) (by decide)
    (by decide)⟩

theorem cells_new_int (p : Point) (g h : Int) (cur : Node) :
    (Node.new_int p g h (some cur)).cells = p :: cur.cells := rfl

theorem point_mem_cells (n : Node) : n.point ∈ n.cells :=
  List.mem_of_mem_head? (cells_head? n)

theorem expand_int_spec {map : Grid} {vis : List (List Bool)} (end_ : Point) (current : Node)
    (hm : WellSized map) (hv : WellSized vis) (hcur : ∀ p ∈ current.cells, InBounds p) :
    ∀ (dirs : List Point) (acc : List Node),
      ∃ pushed, expand_int map end_ vis current dirs acc = some (acc ++ pushed) ∧
        pushed.length ≤ dirs.length ∧ ∀ m ∈ pushed, ∀ p ∈ m.cells, InBounds p := by
  intro dirs
  induction dirs with
  | nil =>
    intro acc
    exact ⟨[], by simp [expand_int], by simp, by simp⟩
  | cons d dirs ih =>
    intro acc
    have skip : expand_int map end_ vis current (d :: dirs) acc =
        expand_int map end_ vis current dirs acc →
        ∃ pushed, expand_int map end_ vis current (d :: dirs) acc = some (acc ++ pushed) ∧
          pushed.length ≤ (d :: dirs).length ∧ ∀ m ∈ pushed, ∀ p ∈ m.cells, InBounds p := by
      intro heq
      obtain ⟨pushed, h1, h2, h3⟩ := ih acc
      exact ⟨pushed, by rw [heq, h1], by simp; omega, h3⟩
    by_cases hb : 0 ≤ add_int current.point.y d.y ∧ add_int current.point.y d.y < MAP_SIZE ∧
        0 ≤ add_int current.point.x d.x ∧ add_int current.point.x d.x < MAP_SIZE
    · obtain ⟨c, hc⟩ := get2?_of_range hm hb.1 hb.2.1 hb.2.2.1 hb.2.2.2
      obtain ⟨v, hvv⟩ := get2?_of_range hv hb.1 hb.2.1 hb.2.2.1 hb.2.2.2
      by_cases hce : c = EMPTY
      · cases v with
        | true =>
          apply skip
          simp only [expand_int]
          rw [if_pos hb, hc]
          simp only [hce, if_true, hvv]
          simp
        | false =>
          obtain ⟨pushed, h1, h2, h3⟩ := ih (acc ++ [neighbour_node_int end_ current d])
          refine ⟨neighbour_node_int end_ current d :: pushed, ?_, by simp; omega, ?_⟩
          · simp only [expand_int]
            rw [if_pos hb, hc]
            simp only [hce, if_true, hvv]
            simp only [neighbour_node_int] at h1
            simp [h1, neighbour_node_int]
          · intro m hmem p hp
            rcases List.mem_cons.mp hmem with rfl | hmem
            · rw [neighbour_node_int, cells_new_int] at hp
              rcases List.mem_cons.mp hp with rfl | hp
              · exact hb
              · exact hcur p hp
            · exact h3 m hmem p hp
      · apply skip
        simp only [expand_int]
        rw [if_pos hb, hc]
        simp [hce]
    · apply skip
      simp only [expand_int]
      rw [if_neg hb]

/-- What one iteration on `int` does from a state that satisfies `SafeInv`:
it never faults. -/
theorem step_int_spec (pol : Policy) {map : Grid} (end_ : Point) {s : State}
    (hm : WellSized map) (hinv : SafeInv s) :
    (step_int pol map end_ s = .exhausted ∧ s.open_list = []) ∨
    (∃ n, step_int pol map end_ s = .found n ∧ n ∈ s.open_list) ∨
    (∃ s', step_int pol map end_ s = .next s' ∧ SafeInv s' ∧
      loopMeasure s' < loopMeasure s) := by
  cases hpop : pop pol s.open_list with
  | none =>
    left
    exact ⟨by simp [step_int, hpop], pop_eq_none hpop⟩
  | some top =>
    obtain ⟨n, rest⟩ := top
    obtain ⟨hn, _, hsub, _, hlen⟩ := pop_spec hpop
    have hb : InBounds n.point := hinv.2 n hn n.point (point_mem_cells n)
    obtain ⟨v, hv⟩ := get2?_of_range hinv.1 hb.1 hb.2.1 hb.2.2.1 hb.2.2.2
    cases v with
    | true =>
      right; right
      refine ⟨{ s with open_list := rest }, by simp [step_int, hpop, hv],
        ⟨hinv.1, fun m hmem => hinv.2 m (hsub m hmem)⟩, ?_⟩
      simp only [loopMeasure]
      omega
    | false =>
      obtain ⟨vis, hset⟩ := set2?_of_get2? true hv
      by_cases hgoal : n.point.y = end_.y ∧ n.point.x = end_.x
      · right; left
        exact ⟨n, by simp only [step_int, hpop, hv, hset]; simp [hgoal], hn⟩
      · right; right
        have hvs : WellSized vis := set2?_wellSized hinv.1 hset
        obtain ⟨pushed, he, hlen4, hcells⟩ :=
          expand_int_spec end_ n hm hvs (hinv.2 n hn) directions []
        rw [List.nil_append] at he
        refine ⟨{ open_list := rest ++ pushed, visited := vis, heap := s.heap ++ pushed },
          by simp only [step_int, hpop, hv, hset]; simp [hgoal, he], ⟨hvs, ?_⟩, ?_⟩
        · intro m hmem
          rcases List.mem_append.mp hmem with hmem | hmem
          · exact hinv.2 m (hsub m hmem)
          · exact hcells m hmem
        · have := unvisited_set2? hv hset
          have h4 : directions.length = 4 := rfl
          simp only [loopMeasure, List.length_append]
          omega

theorem search_int_spec (pol : Policy) {map : Grid} (end_ : Point) (hm : WellSized map) :
    ∀ (fuel : Nat) (s : State), SafeInv s → loopMeasure s < fuel →
      (∃ n, search_int pol map end_ fuel s = some (some n) ∧ ∀ p ∈ n.cells, InBounds p) ∨
      search_int pol map end_ fuel s = some none := by
  intro fuel
  induction fuel with
  | zero =>
    intro s _ h
    omega
  | succ fuel ih =>
    intro s hinv hlt
    rcases step_int_spec pol end_ hm hinv with ⟨h, _⟩ | ⟨n, h, hn⟩ | ⟨s', h, hinv', hdec⟩
    · right
      simp [search_int, h]
    · left
      exact ⟨n, by simp [search_int, h], hinv.2 n hn⟩
    · have := ih s' hinv' (by omega)
      simpa [search_int, h] using this

theorem initState_int_safe {start : Point} (end_ : Point) (hs : InBounds start) :
    SafeInv (initState_int start end_) := by
  have hsz : WellSized (List.replicate MAP_SIZE.toNat (List.replicate MAP_SIZE.toNat false)) := by
    decide
  refine ⟨hsz, ?_⟩
  intro n hn p hp
  have hn' : n = start_node_int start end_ := List.mem_singleton.mp hn
  rw [hn'] at hp
  have : p = start := by simpa [start_node_int, Node.new_int, Node.cells] using hp
  rw [this]
  exact hs

theorem initState_int_measure (start end_ : Point) :
    loopMeasure (initState_int start end_) < searchFuel := by
  show 4 * unvisited (List.replicate MAP_SIZE.toNat (List.replicate MAP_SIZE.toNat false)) + 1
    < searchFuel
  decide

theorem stateAfter_int_succ {pol : Policy} {map : Grid} {start end_ : Point} {k : Nat}
    {s' : State} (h : stateAfter_int pol map start end_ (k + 1) = some s') :
    ∃ s, stateAfter_int pol map start end_ k = some s ∧ step_int pol map end_ s = .next s' := by
  simp only [stateAfter_int] at h
  split at h
  · cases h
  · rename_i s hs
    split at h
    · rename_i s'' hstep
      simp only [Option.some.injEq] at h
      subst h
      exact ⟨s, hs, hstep⟩
    · cases h

theorem stateAfter_int_safe (pol : Policy) {map : Grid} {start : Point} (end_ : Point)
    (hm : WellSized map) (hs : InBounds start) :
    ∀ (k : Nat) (s : State), stateAfter_int pol map start end_ k = some s → SafeInv s := by
  intro k
  induction k with
  | zero =>
    intro s h
    simp only [stateAfter_int, Option.some.injEq] at h
    subst h
    exact initState_int_safe end_ hs
  | succ k ih =>
    intro s' h
    obtain ⟨s, hs', hstep⟩ := stateAfter_int_succ h
    rcases step_int_spec pol end_ hm (ih s hs') with ⟨h1, _⟩ | ⟨n, h1, _⟩ | ⟨s'', h1, hinv, _⟩
    · rw [h1] at hstep
      cases hstep
    · rw [h1] at hstep
      cases hstep
    · rw [h1] at hstep
      simp only [Step.next.injEq] at hstep
      subst hstep
      exact hinv

/-- The states `stateAfter_int` are the states the loop on `int` goes through. -/
theorem search_int_stateAfter (pol : Policy) (map : Grid) (start end_ : Point) :
    ∀ (k : Nat) (s : State), stateAfter_int pol map start end_ k = some s →
      ∀ fuel, search_int pol map end_ (k + fuel) (initState_int start end_) =
        search_int pol map end_ fuel s := by
  intro k
  induction k with
  | zero =>
    intro s h fuel
    simp only [stateAfter_int, Option.some.injEq] at h
    subst h
    rw [Nat.zero_add]
  | succ k ih =>
    intro s' h fuel
    obtain ⟨s, hs, hstep⟩ := stateAfter_int_succ h
    have hk : k + 1 + fuel = k + (fuel + 1) := by omega
    rw [hk, ih s hs (fuel + 1)]
    simp only [search_int, hstep]

theorem annotate_int_total : ∀ (n : Node) (map : Grid) (stp : Int), WellSized map →
    (∀ p ∈ n.cells, InBounds p) → ∃ map', annotate_int map n stp = some map' := by
  intro n
  induction n with
  | root q g hh f =>
    intro map stp hm hb
    have hq : InBounds q := hb q (by simp [Node.cells])
    obtain ⟨v, hv⟩ := get2?_of_range hm hq.1 hq.2.1 hq.2.2.1 hq.2.2.2
    exact set2?_of_get2? stp hv
  | child q g hh f par ih =>
    intro map stp hm hb
    have hq : InBounds q := hb q (by simp [Node.cells])
    obtain ⟨v, hv⟩ := get2?_of_range hm hq.1 hq.2.1 hq.2.2.1 hq.2.2.2
    obtain ⟨map1, hset⟩ := set2?_of_get2? stp hv
    obtain ⟨map', han⟩ := ih map1 (add_int stp 1) (set2?_wellSized hm hset)
      (fun p hp => hb p (List.mem_cons_of_mem _ hp))
    exact ⟨map', by simp only [annotate_int, hset, han]⟩

/-- The search on `int` ends without fault for every goal. -/
theorem find_terminal_int_spec (pol : Policy) {map : Grid} {start : Point} (end_ : Point)
    (hm : WellSized map) (hs : InBounds start) :
    (∃ n, find_terminal_int pol map start end_ = some (some n) ∧ ∀ p ∈ n.cells, InBounds p) ∨
    find_terminal_int pol map start end_ = some none :=
  search_int_spec pol end_ hm searchFuel (initState_int start end_)
    (initState_int_safe end_ hs) (initState_int_measure start end_)

theorem wrap_eq (v : Int) (h1 : -2147483648 ≤ v) (h2 : v < 2147483648) : wrap v = v := by
  unfold wrap
  omega

theorem heuristic_int_eq {a b : Point} (ha : InBounds a) (hb : InBounds b) :
    calculate_heuristic_int a b = calculate_heuristic a b := by
  have h10 : MAP_SIZE = 10 := rfl
  unfold InBounds at ha hb
  have e1 : sub_int a.y b.y = a.y - b.y := wrap_eq _ (by omega) (by omega)
  have e2 : sub_int a.x b.x = a.x - b.x := wrap_eq _ (by omega) (by omega)
  have a1 : abs_int (a.y - b.y) = |a.y - b.y| := by
    have := abs_cases (a.y - b.y)
    unfold abs_int
    split
    · rw [wrap_eq _ (by omega) (by omega)]
      omega
    · omega
  have a2 : abs_int (a.x - b.x) = |a.x - b.x| := by
    have := abs_cases (a.x - b.x)
    unfold abs_int
    split
    · rw [wrap_eq _ (by omega) (by omega)]
      omega
    · omega
  have c1 := abs_cases (a.y - b.y)
  have c2 := abs_cases (a.x - b.x)
  unfold calculate_heuristic_int calculate_heuristic
  rw [e1, e2, a1, a2]
  exact wrap_eq _ (by omega) (by omega)

theorem heuristic_le {a b : Point} (ha : InBounds a) (hb : InBounds b) :
    0 ≤ calculate_heuristic a b ∧ calculate_heuristic a b ≤ 18 := by
  have h10 : MAP_SIZE = 10 := rfl
  unfold InBounds at ha hb
  have c1 := abs_cases (a.y - b.y)
  have c2 := abs_cases (a.x - b.x)
  unfold calculate_heuristic
  omega

theorem neighbour_node_int_eq {end_ : Point} {current : Node} {d : Point}
    (hd : d ∈ directions) (hcur : InBounds current.point) (hg0 : 0 ≤ current.g_cost)
    (hg1 : current.g_cost ≤ 1000000) (hend : InBounds end_)
    (hb : InBounds (moved current.point d)) :
    neighbour_node_int end_ current d = neighbour_node end_ current d := by
  have h10 : MAP_SIZE = 10 := rfl
  have hdy : -1 ≤ d.y ∧ d.y ≤ 1 ∧ -1 ≤ d.x ∧ d.x ≤ 1 := by
    simp only [directions, List.mem_cons, List.mem_singleton, List.not_mem_nil, or_false] at hd
    rcases hd with rfl | rfl | rfl | rfl <;> decide
  have hc := hcur
  unfold InBounds at hc
  have ey : add_int current.point.y d.y = current.point.y + d.y :=
    wrap_eq _ (by omega) (by omega)
  have ex : add_int current.point.x d.x = current.point.x + d.x :=
    wrap_eq _ (by omega) (by omega)
  have eg : add_int current.g_cost 1 = current.g_cost + 1 := wrap_eq _ (by omega) (by omega)
  have hh := heuristic_le hb hend
  unfold neighbour_node_int neighbour_node
  rw [ey, ex, eg]
  show Node.new_int (moved current.point d) _ (calculate_heuristic_int (moved current.point d) end_)
    _ = _
  rw [heuristic_int_eq hb hend]
  show Node.child _ _ _ (add_int _ _) _ = Node.child _ _ _ _ _
  rw [show add_int (current.g_cost + 1) (calculate_heuristic (moved current.point d) end_) =
    current.g_cost + 1 + calculate_heuristic (moved current.point d) end_ from
      wrap_eq _ (by omega) (by omega)]

/-- On a node of the grid with a small cost and a goal on the grid, the
neighbour loop on `int` pushes the same nodes as the exact one. -/
theorem expand_int_eq (map : Grid) {end_ : Point} (vis : List (List Bool)) {current : Node}
    (hcur : InBounds current.point) (hg0 : 0 ≤ current.g_cost)
    (hg1 : current.g_cost ≤ 1000000) (hend : InBounds end_) :
    ∀ (dirs : List Point), (∀ d ∈ dirs, d ∈ directions) → ∀ (acc : List Node),
      expand_int map end_ vis current dirs acc = expand map end_ vis current dirs acc := by
  intro dirs
  induction dirs with
  | nil =>
    intro _ acc
    rfl
  | cons d dirs ih =>
    intro hdirs acc
    have hd : d ∈ directions := hdirs d (List.mem_cons_self _ _)
    have ih' := ih (fun d' hd' => hdirs d' (List.mem_cons_of_mem _ hd'))
    have h10 : MAP_SIZE = 10 := rfl
    have hdy : -1 ≤ d.y ∧ d.y ≤ 1 ∧ -1 ≤ d.x ∧ d.x ≤ 1 := by
      simp only [directions, List.mem_cons, List.mem_singleton, List.not_mem_nil, or_false] at hd
      rcases hd with rfl | rfl | rfl | rfl <;> decide
    have hc := hcur
    unfold InBounds at hc
    have ey : add_int current.point.y d.y = current.point.y + d.y :=
      wrap_eq _ (by omega) (by omega)
    have ex : add_int current.point.x d.x = current.point.x + d.x :=
      wrap_eq _ (by omega) (by omega)
    by_cases hb : 0 ≤ current.point.y + d.y ∧ current.point.y + d.y < MAP_SIZE ∧
        0 ≤ current.point.x + d.x ∧ current.point.x + d.x < MAP_SIZE
    · have hnode := neighbour_node_int_eq hd hcur hg0 hg1 hend hb
      simp only [neighbour_node_int, neighbour_node, moved, ey, ex] at hnode
      simp only [expand_int, expand, ey, ex, if_pos hb, hnode, ih']
    · simp only [expand_int, expand, ey, ex, if_neg hb, ih']

theorem step_int_eq (pol : Policy) (map : Grid) {end_ : Point} {s : State}
    (hopen : ∀ n ∈ s.open_list, InBounds n.point ∧ 0 ≤ n.g_cost ∧ n.g_cost ≤ 1000000)
    (hend : InBounds end_) : step_int pol map end_ s = step pol map end_ s := by
  cases hpop : pop pol s.open_list with
  | none => simp [step_int, step, hpop]
  | some top =>
    obtain ⟨n, rest⟩ := top
    obtain ⟨hn, _⟩ := pop_spec hpop
    obtain ⟨h1, h2, h3⟩ := hopen n hn
    simp only [step_int, step, hpop]
    have := fun vis => expand_int_eq map vis h1 h2 h3 hend directions (fun d hd => hd) []
    simp only [this]

theorem neighbour_node_g (end_ : Point) (n : Node) (d : Point) :
    (neighbour_node end_ n d).g_cost = n.g_cost + 1 := rfl

/-- With the goal on the grid, the loop on `int` and the exact loop give the
same result, and a terminal node has a cost of at most the bound on the
frontier plus the number of iterations. -/
theorem search_int_eq (pol : Policy) {map : Grid} {start end_ : Point}
    (hm : WellSized map) (hs : InBounds start) (hend : InBounds end_) :
    ∀ (fuel : Nat) (s : State) (b : Int), Inv map start end_ s →
      (∀ n ∈ s.open_list, n.g_cost ≤ b) → b + fuel ≤ 1000000 →
      search_int pol map end_ fuel s = search pol map end_ fuel s ∧
        ∀ n, search pol map end_ fuel s = some (some n) → n.g_cost ≤ b + fuel := by
  intro fuel
  induction fuel with
  | zero =>
    intro s b _ _ _
    exact ⟨rfl, fun n hn => by simp [search] at hn⟩
  | succ fuel ih =>
    intro s b hinv hb hfuel
    have hopen : ∀ n ∈ s.open_list, InBounds n.point ∧ 0 ≤ n.g_cost ∧ n.g_cost ≤ 1000000 := by
      intro n hn
      have hok := hinv.open_ok n hn
      have := hb n hn
      exact ⟨hok.inBounds hm hs, hok.g_nonneg, by push_cast at hfuel; omega⟩
    have hstep := step_int_eq pol map hopen hend
    rcases step_spec pol hm hs hinv with ⟨h, _⟩ | ⟨n, h, hn, _⟩ | ⟨s', h, hinv', _⟩
    · refine ⟨by simp only [search_int, search, hstep, h], ?_⟩
      intro n hn
      simp [search, h] at hn
    · refine ⟨by simp only [search_int, search, hstep, h], ?_⟩
      intro n' hn'
      simp only [search, h, Option.some.injEq] at hn'
      subst hn'
      have := hb n hn
      push_cast
      omega
    · have hb' : ∀ m ∈ s'.open_list, m.g_cost ≤ b + 1 := by
        rcases step_next_cases pol hm hs hinv h with
          ⟨n, rest, hpop, _, rfl⟩ | ⟨n, rest, vis, ds, hpop, _, _, _, _, _, rfl⟩
        · obtain ⟨_, _, hsub, _⟩ := pop_spec hpop
          intro m hmem
          have := hb m (hsub m hmem)
          omega
        · obtain ⟨hn, _, hsub, _⟩ := pop_spec hpop
          intro m hmem
          rcases List.mem_append.mp hmem with hmem | hmem
          · have := hb m (hsub m hmem)
            omega
          · obtain ⟨d, _, rfl⟩ := List.mem_map.mp hmem
            rw [neighbour_node_g]
            have := hb n hn
            omega
      obtain ⟨e1, e2⟩ := ih s' (b + 1) hinv' hb' (by push_cast at hfuel ⊢; omega)
      refine ⟨by simp only [search_int, search, hstep, h]; exact e1, ?_⟩
      intro n hn
      simp only [search, h] at hn
      have := e2 n hn
      push_cast
      omega

theorem start_node_int_eq {start end_ : Point} (hs : InBounds start) (hend : InBounds end_) :
    start_node_int start end_ = start_node start end_ := by
  have hh := heuristic_le hs hend
  unfold start_node_int start_node
  rw [heuristic_int_eq hs hend]
  show Node.root _ _ _ (add_int _ _) = Node.root _ _ _ _
  rw [show add_int 0 (calculate_heuristic start end_) = 0 + calculate_heuristic start end_ from
    wrap_eq _ (by omega) (by omega)]

theorem annotate_int_eq : ∀ (n : Node) (map : Grid) (stp : Int), 0 ≤ stp →
    stp + n.cells.length ≤ 2000000 → annotate_int map n stp = annotate map n stp := by
  intro n
  induction n with
  | root q g hh f =>
    intro map stp _ _
    rfl
  | child q g hh f par ih =>
    intro map stp h0 hlen
    simp only [Node.cells, List.length_cons] at hlen
    push_cast at hlen
    have e : add_int stp 1 = stp + 1 := wrap_eq _ (by omega) (by omega)
    simp only [annotate_int, annotate, e]
    cases set2? map q.y q.x stp with
    | none => rfl
    | some map1 => exact ih map1 (stp + 1) (by omega) (by omega)

/-- With the goal on the grid (the contract of `find_path`, which `main`
enforces), no operation overflows: `find_path` computed on `int` and the
exact `find_path` are the same function. -/
theorem find_path_int_eq (pol : Policy) {map : Grid} {start end_ : Point}
    (hm : WellSized map) (hs : InBounds start) (hend : InBounds end_) :
    find_terminal_int pol map start end_ = find_terminal pol map start end_ ∧
      find_path_int pol map start end_ = find_path pol map start end_ := by
  have hinit : initState_int start end_ = initState start end_ := by
    unfold initState_int initState
    rw [start_node_int_eq hs hend]
  have hfuel : (0 : Int) + (searchFuel : Nat) ≤ 1000000 := by decide
  obtain ⟨e1, e2⟩ := search_int_eq pol hm hs hend searchFuel (initState start end_) 0
    (initState_inv map start end_)
    (by
      intro n hn
      have : n = start_node start end_ := List.mem_singleton.mp hn
      rw [this]
      exact le_refl _)
    hfuel
  have hterm : find_terminal_int pol map start end_ = find_terminal pol map start end_ := by
    unfold find_terminal_int find_terminal
    rw [hinit]
    exact e1
  refine ⟨hterm, ?_⟩
  unfold find_path_int find_path
  rw [hterm]
  rcases find_terminal_spec pol end_ hm hs with ⟨n, ht, hok, _⟩ | ⟨ht, _⟩
  · have hg : n.g_cost ≤ 0 + (searchFuel : Nat) := e2 n ht
    have hlen := hok.cells_length
    have h402 : ((searchFuel : Nat) : Int) = 402 := by decide
    rw [ht]
    simp only
    rw [annotate_int_eq n map 1 (by decide) (by omega)]
  · rw [ht]

/-- C19 (index safety): with every arithmetic operation of `find_path` taken
on `int` (wrapping on overflow), on a grid of the right size with the start in
range and for every goal, in range or not: `find_path` returns a result, so no
index is out of range; every node that is in the frontier at any iteration
has its cell in range; no iteration faults; every cell of the chain that is
annotated is in range.  For a goal in range this is the same function as the
exact `find_path`. -/
theorem find_path_index_safe (pol : Policy) (map : Grid) (start end_ : Point)
    (hm : WellSized map) (hs : InBounds start) :
    (∃ r, find_path_int pol map start end_ = some r) ∧
    (∀ k s, stateAfter_int pol map start end_ k = some s →
      (∀ n ∈ s.open_list, InBounds n.point) ∧ step_int pol map end_ s ≠ .fault) ∧
    (∀ n, find_terminal_int pol map start end_ = some (some n) → ∀ p ∈ n.cells, InBounds p) ∧
    (InBounds end_ → find_path_int pol map start end_ = find_path pol map start end_) := by
  refine ⟨?_, ?_, ?_, fun hend => (find_path_int_eq pol hm hs hend).2⟩
  · unfold find_path_int
    rcases find_terminal_int_spec pol end_ hm hs with ⟨n, ht, hcells⟩ | ht
    · obtain ⟨map', han⟩ := annotate_int_total n map 1 hm hcells
      rw [ht]
      simp only [han]
      exact ⟨_, rfl⟩
    · rw [ht]
      exact ⟨_, rfl⟩
  · intro k s hrun
    have hinv := stateAfter_int_safe pol end_ hm hs k s hrun
    refine ⟨fun n hn => hinv.2 n hn n.point (point_mem_cells n), ?_⟩
    rcases step_int_spec pol end_ hm hinv with ⟨h1, _⟩ | ⟨n, h1, _⟩ | ⟨s', h1, _⟩ <;>
      · rw [h1]
        simp
  · intro n hn
    rcases find_terminal_int_spec pol end_ hm hs with ⟨n', ht, hcells⟩ | ht
    · rw [ht] at hn
      simp only [Option.some.injEq] at hn
      subst hn
      exact hcells
    · rw [ht] at hn
      cases hn

/-- Witness of C19: the obstacle-free grid, start `(0,0)` and the goal `(2147483647, 0)`.
There the heuristic of `(0,1)` overflows to `-2147483648`, so the second iteration pops the
node on `(0,1)`, with `f_cost = -2147483647`, although `oldestFirst` asks for the node on
`(1,0)`; the search stays inside the grid all the same. -/
theorem find_path_index_safe_witness :
    calculate_heuristic_int ⟨0, 1⟩ farGoal = -2147483648 ∧
    stateAfter_int oldestFirst emptyMap ⟨0, 0⟩ farGoal 1 = some farState ∧
    farState.open_list.map Node.point = [⟨1, 0⟩, ⟨0, 1⟩] ∧
    (pop oldestFirst farState.open_list).map (fun t => (t.1.point, t.1.f_cost)) =
      some (⟨0, 1⟩, -2147483647) ∧
    (∃ r, find_path_int oldestFirst emptyMap ⟨0, 0⟩ farGoal = some r) ∧
    (∀ k s, stateAfter_int oldestFirst emptyMap ⟨0, 0⟩ farGoal k = some s →
      (∀ n ∈ s.open_list, InBounds n.point) ∧
        step_int oldestFirst emptyMap farGoal s ≠ .fault) ∧
    (∀ n, find_terminal_int oldestFirst emptyMap ⟨0, 0⟩ farGoal = some (some n) →
      ∀ p ∈ n.cells, InBounds p) :=
  ⟨by decide, by decide, by decide, by decide,
    (find_path_index_safe oldestFirst emptyMap ⟨0, 0⟩ farGoal (by decide) (by decide)).1,
    (find_path_index_safe oldestFirst emptyMap ⟨0, 0⟩ farGoal (by decide) (by decide)).2.1,
    (find_path_index_safe oldestFirst emptyMap ⟨0, 0⟩ farGoal (by decide) (by decide)).2.2.1⟩

end AStar
